import Mathlib

/-!
Intrusive ordered tree of the tree-view example (`custom-nodes.cpp`).

A shallow embedding of `BaseNode` / `Node`.  Pointers are natural numbers, `nullptr` is
`none`, and the heap maps every address to the node stored there.  Loops are bounded by a
fuel argument; running out of fuel is reported separately from every ordinary result.
-/

namespace TreeView

/-! ## Data model -/

/-- The fields of `BaseNode` (`m_next`, `m_pred`, `m_up`, `m_down`) together with the payload of
`Node` (`name`, `opened`, `selected`). -/
@[ext]
structure Node where
  m_next : Option Nat
  m_pred : Option Nat
  m_up : Option Nat
  m_down : Option Nat
  name : String
  opened : Bool
  selected : Bool

/-- The constructor `Node(const String& name)`: no links, `opened = true`, `selected = false`. -/
def Node.mk1 (name : String) : Node :=
  { m_next := none, m_pred := none, m_up := none, m_down := none,
    name := name, opened := true, selected := false }

/-- The link structure and payload of every address. -/
abbrev Heap := Nat → Node

/-- Overwrite the node stored at `p` by `f` applied to it. -/
def Heap.modify (h : Heap) (p : Nat) (f : Node → Node) : Heap :=
  fun q => if q = p then f (h q) else h q

/-- The assignment `p->m_next = v`. -/
def Heap.setNext (h : Heap) (p : Nat) (v : Option Nat) : Heap :=
  h.modify p (fun n => { n with m_next := v })

/-- The assignment `p->m_pred = v`. -/
def Heap.setPred (h : Heap) (p : Nat) (v : Option Nat) : Heap :=
  h.modify p (fun n => { n with m_pred := v })

/-- The assignment `p->m_up = v`. -/
def Heap.setUp (h : Heap) (p : Nat) (v : Option Nat) : Heap :=
  h.modify p (fun n => { n with m_up := v })

/-- The assignment `p->m_down = v`. -/
def Heap.setDown (h : Heap) (p : Nat) (v : Option Nat) : Heap :=
  h.modify p (fun n => { n with m_down := v })

/-- The assignment `p->selected = v`. -/
def Heap.setSelected (h : Heap) (p : Nat) (v : Bool) : Heap :=
  h.modify p (fun n => { n with selected := v })

/-- A heap in which every address holds a freshly constructed, unlinked node. -/
def blank : Heap := fun _ => Node.mk1 ""

/-! ## `BaseNode` -/

/-- The loop of `GetDownLast`: follow `m_next` while it is set.  `none` means out of fuel. -/
def GetDownLast.walk : Nat → Heap → Nat → Option Nat
  | 0, _, _ => none
  | fuel + 1, h, child =>
    match (h child).m_next with
    | some n => GetDownLast.walk fuel h n
    | none => some child

/-- `BaseNode::GetDownLast`.  The outer `none` means out of fuel, `some none` is `nullptr`. -/
def GetDownLast (fuel : Nat) (h : Heap) (this : Nat) : Option (Option Nat) :=
  match (h this).m_down with
  | none => some none
  | some c => (GetDownLast.walk fuel h c).map some

/-- `BaseNode::InsertAfter`, statement by statement. -/
def InsertAfter (h : Heap) (this pred : Nat) : Heap :=
  let h2 :=
    match (h pred).m_next with
    | some n =>
      let h1 := h.setPred n (some this)
      h1.setNext this (h1 pred).m_next
    | none => h
  let h3 := h2.setNext pred (some this)
  let h4 := h3.setPred this (some pred)
  match (h4 pred).m_up with
  | some _ =>
    match (h4 this).m_pred with
    | some q => h4.setUp this (h4 q).m_up
    | none => h4
  | none => h4

/-- `BaseNode::InsertBefore`, statement by statement. -/
def InsertBefore (h : Heap) (this next : Nat) : Heap :=
  let h2 :=
    match (h next).m_pred with
    | some p =>
      let h1 := h.setNext p (some this)
      h1.setPred this (h1 next).m_pred
    | none => h
  let h3 := h2.setPred next (some this)
  let h4 := h3.setNext this (some next)
  let h5 :=
    match (h4 next).m_up with
    | some u => h4.setUp this (some u)
    | none => h4
  match (h5 this).m_pred, (h5 this).m_up with
  | none, some u => h5.setDown u (some this)
  | _, _ => h5

/-- `BaseNode::InsertUnder`. -/
def InsertUnder (h : Heap) (this up : Nat) : Heap :=
  match (h up).m_down with
  | some d => InsertBefore h this d
  | none => (h.setDown up (some this)).setUp this (some up)

/-- `BaseNode::InsertUnderLast`.  `none` means that `GetDownLast` ran out of fuel; the branch in
which `GetDownLast` returns `nullptr` although `m_down` is set cannot be taken. -/
def InsertUnderLast (fuel : Nat) (h : Heap) (this up : Nat) : Option Heap :=
  match (h up).m_down with
  | some _ =>
    match GetDownLast fuel h up with
    | some (some l) => some (InsertAfter h this l)
    | _ => none
  | none => some (InsertUnder h this up)

/-- `BaseNode::Remove`.  `DebugAssert` only reports and does not change the control flow, so it
contributes nothing to the result. -/
def Remove (h : Heap) (this : Nat) : Heap :=
  let h1 :=
    match (h this).m_up with
    | some u => if (h u).m_down = some this then h.setDown u (h this).m_next else h
    | none => h
  let h2 :=
    match (h1 this).m_next with
    | some n => h1.setPred n (h1 this).m_pred
    | none => h1
  let h3 :=
    match (h2 this).m_pred with
    | some p => h2.setNext p (h2 this).m_next
    | none => h2
  ((h3.setNext this none).setPred this none).setUp this none

/-! ## `Node`: traversal and selection -/

/-- The loop of `GetLinNext`: climb while the current ancestor has no next sibling. -/
def GetLinNext.climb : Nat → Heap → Option Nat → Option (Option Nat)
  | _, _, none => some none
  | 0, _, some _ => none
  | fuel + 1, h, some p =>
    match (h p).m_next with
    | none => GetLinNext.climb fuel h (h p).m_up
    | some n => some (some n)

/-- `Node::GetLinNext`.  The outer `none` means out of fuel. -/
def GetLinNext (fuel : Nat) (h : Heap) (this : Nat) : Option (Option Nat) :=
  match (h this).m_down with
  | some d => some (some d)
  | none => GetLinNext.climb fuel h (h this).m_up

/-- The loop of `FindSelected` with its two locals `result` and `current`. -/
def FindSelected.loop (inner : Nat) : Nat → Heap → Option Nat → Option Nat → Option (Option Nat)
  | _, _, result, none => some result
  | 0, _, _, some _ => none
  | fuel + 1, h, result, some c =>
    if (h c).selected then
      if result.isSome then some none
      else
        match GetLinNext inner h c with
        | some nx => FindSelected.loop inner fuel h (some c) nx
        | none => none
    else
      match GetLinNext inner h c with
      | some nx => FindSelected.loop inner fuel h result nx
      | none => none

/-- `Node::FindSelected`.  The outer `none` means out of fuel. -/
def FindSelected (fuel : Nat) (h : Heap) (this : Nat) : Option (Option Nat) :=
  FindSelected.loop fuel fuel h none (some this)

/-- The nodes obtained by starting at `start` and applying `GetLinNext` until it returns
`nullptr`; `none` when the fuel does not suffice. -/
def linearScan (inner : Nat) : Nat → Heap → Option Nat → Option (List Nat)
  | _, _, none => some []
  | 0, _, some _ => none
  | fuel + 1, h, some c =>
    match GetLinNext inner h c with
    | some nx => (linearScan inner fuel h nx).map (fun l => c :: l)
    | none => none

/-- The loop of `SelectAll`; `rec` is the recursive call on a child. -/
def SelectAll.loop (state : Bool) (rec : Heap → Nat → Option Heap) :
    Nat → Heap → Option Nat → Option Heap
  | _, h, none => some h
  | 0, _, some _ => none
  | fuel + 1, h, some child =>
    match rec (h.setSelected child state) child with
    | some h1 => SelectAll.loop state rec fuel h1 (h1 child).m_next
    | none => none

/-- `Node::SelectAll`.  `none` means out of fuel. -/
def SelectAll : Nat → Heap → Nat → Bool → Option Heap
  | 0, _, _, _ => none
  | fuel + 1, h, this, state =>
    SelectAll.loop state (fun h1 c => SelectAll fuel h1 c state) fuel h (h this).m_down

/-! ## Memory with allocation and destruction -/

/-- The outcome of code that may loop, allocate or free: a value, a use of a destroyed node, or
fuel exhaustion (the call does not return within the given fuel). -/
inductive Res (α : Type) where
  | ok (a : α)
  | fault
  | timeout

/-- The heap together with the set of live (constructed and not yet destroyed) addresses, the next
address handed out by `new`, and the outcomes of the coming allocations (`false` is a failing
allocation; once the list is used up every allocation succeeds). -/
structure Mem where
  heap : Heap
  live : Nat → Bool
  brk : Nat
  oracle : List Bool

/-- The expression `new Node`: on success a default-constructed node at a fresh address. -/
def Mem.alloc (m : Mem) : Mem × Option Nat :=
  match m.oracle with
  | false :: rest => ({ m with oracle := rest }, none)
  | _ =>
    ({ heap := fun q => if q = m.brk then Node.mk1 "" else m.heap q,
       live := fun q => if q = m.brk then true else m.live q,
       brk := m.brk + 1,
       oracle := m.oracle.tail }, some m.brk)

/-- The statement `delete p`: the destructor `~BaseNode` clears the four links, then the storage is
released.  Deleting a node that is not live is a fault. -/
def Mem.delete (m : Mem) (p : Nat) : Res Mem :=
  if m.live p then
    .ok { m with
          heap := (((m.heap.setDown p none).setUp p none).setPred p none).setNext p none,
          live := fun q => if q = p then false else m.live q }
  else .fault

/-- The nodes dereferenced by `Remove`: the node itself and its three neighbours. -/
def Remove.derefs (h : Heap) (this : Nat) : List Nat :=
  this :: ((h this).m_up.toList ++ (h this).m_next.toList ++ (h this).m_pred.toList)

/-- The call `this->Remove()` in memory: a fault when a dereferenced node is not live. -/
def Mem.Remove (m : Mem) (this : Nat) : Res Mem :=
  if (Remove.derefs m.heap this).all m.live then .ok { m with heap := TreeView.Remove m.heap this }
  else .fault

/-- The nodes visited by the loop of `GetDownLast` (bounded by the fuel). -/
def GetDownLast.visited : Nat → Heap → Option Nat → List Nat
  | _, _, none => []
  | 0, _, some _ => []
  | fuel + 1, h, some c => c :: GetDownLast.visited fuel h (h c).m_next

/-- The nodes dereferenced by `InsertUnderLast`: the node, the new parent and its children. -/
def InsertUnderLast.derefs (fuel : Nat) (h : Heap) (this up : Nat) : List Nat :=
  this :: up :: GetDownLast.visited fuel h (h up).m_down

/-- The call `this->InsertUnderLast(up)` in memory. -/
def Mem.InsertUnderLast (fuel : Nat) (m : Mem) (this up : Nat) : Res Mem :=
  if (InsertUnderLast.derefs fuel m.heap this up).all m.live then
    match TreeView.InsertUnderLast fuel m.heap this up with
    | some h => .ok { m with heap := h }
    | none => .timeout
  else .fault

/-! ## `Node`: copying and destruction -/

/-- `Node::CopyFrom`, called on `this` with argument `other`. -/
def CopyFrom (h : Heap) (this other : Nat) : Heap :=
  let h1 := h.modify this (fun n => { n with name := (h other).name })
  let h2 := h1.modify this (fun n => { n with opened := (h1 other).opened })
  h2.modify this (fun n => { n with selected := (h2 other).opened })

/-- `Node::AllocShallowCopy`: `return new Node;`. -/
def AllocShallowCopy (m : Mem) : Mem × Option Nat := m.alloc

/-- The loop of `FreeTree`; `rec` is the recursive call `FreeTree(current)`. -/
def FreeTree.loop (rec : Mem → Nat → Res Mem) : Nat → Mem → Option Nat → Res Mem
  | _, m, none => .ok m
  | 0, _, some _ => .timeout
  | fuel + 1, m, some current =>
    if m.live current then
      let next := (m.heap current).m_next
      match rec m current with
      | .ok m1 =>
        match m1.Remove current with
        | .ok m2 =>
          match m2.delete current with
          | .ok m3 => FreeTree.loop rec fuel m3 next
          | .fault => .fault
          | .timeout => .timeout
        | .fault => .fault
        | .timeout => .timeout
      | .fault => .fault
      | .timeout => .timeout
    else .fault

/-- `Node::FreeTree`. -/
def FreeTree : Nat → Mem → Nat → Res Mem
  | 0, _, _ => .timeout
  | fuel + 1, m, root =>
    if m.live root then FreeTree.loop (FreeTree fuel) fuel m (m.heap root).m_down
    else .fault

/-- The loop of `CreateCopy`: the result carries the local `success`.  The recursive call `rec` is
`CreateCopy(true)` on `this`, as in the source; `current` only drives the loop. -/
def CreateCopy.loop (rec : Mem → Res (Mem × Option Nat)) (copy : Nat) :
    Nat → Mem → Option Nat → Res (Mem × Bool)
  | _, m, none => .ok (m, true)
  | 0, _, some _ => .timeout
  | fuel + 1, m, some current =>
    match rec m with
    | .ok (m1, none) => .ok (m1, false)
    | .ok (m1, some current_copy) =>
      match m1.InsertUnderLast fuel current_copy copy with
      | .ok m2 =>
        if m2.live current then CreateCopy.loop rec copy fuel m2 (m2.heap current).m_next
        else .fault
      | .fault => .fault
      | .timeout => .timeout
    | .fault => .fault
    | .timeout => .timeout

/-- `Node::CreateCopy`.  The inner `Option` is the returned pointer. -/
def CreateCopy : Nat → Mem → Nat → Bool → Res (Mem × Option Nat)
  | 0, _, _, _ => .timeout
  | fuel + 1, m, this, children =>
    if m.live this then
      match AllocShallowCopy m with
      | (m1, none) => .ok (m1, none)
      | (m1, some copy) =>
        let m2 : Mem := { m1 with heap := CopyFrom m1.heap copy this }
        let looped : Res (Mem × Bool) :=
          if children then
            CreateCopy.loop (fun m3 => CreateCopy fuel m3 this true) copy fuel m2
              (m2.heap this).m_down
          else .ok (m2, true)
        match looped with
        | .ok (m3, true) => .ok (m3, some copy)
        | .ok (m3, false) =>
          match FreeTree fuel m3 copy with
          | .ok m4 =>
            match m4.delete copy with
            | .ok m5 => .ok (m5, none)
            | .fault => .fault
            | .timeout => .timeout
          | .fault => .fault
          | .timeout => .timeout
        | .fault => .fault
        | .timeout => .timeout
    else .fault

/-- The loop of `FreeSelectedNodes`; `rec` is the recursive call on `current`. -/
def FreeSelectedNodes.loop (rec : Mem → Nat → Res Mem) : Nat → Mem → Option Nat → Res Mem
  | _, m, none => .ok m
  | 0, _, some _ => .timeout
  | fuel + 1, m, some current =>
    if m.live current then
      let next := (m.heap current).m_next
      match rec m current with
      | .ok m1 => FreeSelectedNodes.loop rec fuel m1 next
      | .fault => .fault
      | .timeout => .timeout
    else .fault

/-- The first statement of `FreeSelectedNodes`: a selected `root` is removed, emptied and deleted. -/
def FreeSelectedNodes.head (fuel : Nat) (m : Mem) (root : Nat) : Res Mem :=
  if (m.heap root).selected then
    match m.Remove root with
    | .ok m1 =>
      match FreeTree fuel m1 root with
      | .ok m2 => m2.delete root
      | .fault => .fault
      | .timeout => .timeout
    | .fault => .fault
    | .timeout => .timeout
  else .ok m

/-- `Node::FreeSelectedNodes`.  After the first statement the code reads `root->GetDown()`
whether or not `root` has just been deleted. -/
def FreeSelectedNodes : Nat → Mem → Nat → Res Mem
  | 0, _, _ => .timeout
  | fuel + 1, m, root =>
    if m.live root then
      match FreeSelectedNodes.head fuel m root with
      | .ok m1 =>
        if m1.live root then
          FreeSelectedNodes.loop (FreeSelectedNodes fuel) fuel m1 (m1.heap root).m_down
        else .fault
      | .fault => .fault
      | .timeout => .timeout
    else .fault

/-! ## Well-formedness -/

/-- The parent link as a relation: `p` is the parent of `c`. -/
def IsParent (h : Heap) (c p : Nat) : Prop := (h c).m_up = some p

/-- The sibling link as a relation: `b` is the next sibling of `a`. -/
def IsNext (h : Heap) (a b : Nat) : Prop := (h a).m_next = some b

/-- The node `a` is a proper ancestor of `n`: it is reached from `n` by one or more parent links. -/
def Ancestor (h : Heap) (n a : Nat) : Prop := Relation.TransGen (IsParent h) n a

/-- The node `t` lies in the subtree of `x`: it is `x` or has `x` as an ancestor. -/
def InSubtree (h : Heap) (x t : Nat) : Prop := Relation.ReflTransGen (IsParent h) t x

/-- Two nodes belong to the same sibling chain: they are connected by `m_next` links. -/
def SameChain (h : Heap) (a b : Nat) : Prop := Relation.EqvGen (IsNext h) a b

/-- The tree invariants: sibling links are mutually inverse, the nodes of a chain share their
parent, a first child is the unique head of its chain and points back to its parent, and no node
is its own ancestor. -/
structure TreeInv (h : Heap) : Prop where
  next_pred : ∀ a b, (h a).m_next = some b ↔ (h b).m_pred = some a
  chain_up : ∀ a b, SameChain h a b → (h a).m_up = (h b).m_up
  first_child : ∀ p c, (h p).m_down = some c →
    (h c).m_up = some p ∧ (h c).m_pred = none ∧
      ∀ d, SameChain h c d → (h d).m_pred = none → d = c
  acyclic : ∀ n, ¬ Ancestor h n n

/-- The same invariants stated link by link. -/
structure LinkInv (h : Heap) : Prop where
  next_pred : ∀ a b, (h a).m_next = some b ↔ (h b).m_pred = some a
  next_up : ∀ a b, (h a).m_next = some b → (h a).m_up = (h b).m_up
  down_up : ∀ p c, (h p).m_down = some c → (h c).m_up = some p ∧ (h c).m_pred = none
  acyclic : ∀ n, ¬ Ancestor h n n

/-- A node without next sibling, previous sibling and parent. -/
def Detached (h : Heap) (x : Nat) : Prop :=
  (h x).m_next = none ∧ (h x).m_pred = none ∧ (h x).m_up = none

/-- Every link stored in the heap points to an address below `N`. -/
def Bounded (h : Heap) (N : Nat) : Prop :=
  ∀ a b, ((h a).m_next = some b ∨ (h a).m_pred = some b ∨ (h a).m_up = some b ∨
    (h a).m_down = some b) → b < N

/-- The structural edits of `BaseNode`. -/
inductive Op where
  | insertAfter (x pred : Nat)
  | insertBefore (x next : Nat)
  | insertUnder (x up : Nat)
  | insertUnderLast (x up : Nat)
  | remove (x : Nat)

/-- Run an edit; only `InsertUnderLast` needs fuel. -/
def Op.run (fuel : Nat) (h : Heap) : Op → Option Heap
  | .insertAfter x pred => some (InsertAfter h x pred)
  | .insertBefore x next => some (InsertBefore h x next)
  | .insertUnder x up => some (InsertUnder h x up)
  | .insertUnderLast x up => InsertUnderLast fuel h x up
  | .remove x => some (Remove h x)

/-- An insertion is valid when the inserted node is detached and the target is a different node
outside the subtree of the inserted node; a removal is always valid. -/
def Op.Valid (h : Heap) : Op → Prop
  | .insertAfter x t => Detached h x ∧ x ≠ t ∧ ¬ InSubtree h x t
  | .insertBefore x t => Detached h x ∧ x ≠ t ∧ ¬ InSubtree h x t
  | .insertUnder x t => Detached h x ∧ x ≠ t ∧ ¬ InSubtree h x t
  | .insertUnderLast x t => Detached h x ∧ x ≠ t ∧ ¬ InSubtree h x t
  | .remove _ => True

/-- The heaps obtained from unlinked nodes by finitely many valid edits. -/
inductive Built : Heap → Prop where
  | start : Built blank
  | step (h h1 : Heap) (op : Op) (fuel : Nat) :
      Built h → op.Valid h → op.run fuel h = some h1 → Built h1

/-! ## Observers and scenarios -/

/-- The call returned a value. -/
def Res.isOk {α : Type} : Res α → Bool
  | .ok _ => true
  | _ => false

/-- The call used a destroyed node. -/
def Res.isFault {α : Type} : Res α → Bool
  | .fault => true
  | _ => false

/-- A memory over `h` in which exactly the addresses below `n` are live, with an allocator that
never fails. -/
def Mem.ofHeap (h : Heap) (n : Nat) : Mem :=
  { heap := h, live := fun q => decide (q < n), brk := n, oracle := [] }

/-- Root `0` with the children `1`, `2`, `3` (X, Y, Z) in this order. -/
def treeXYZ : Heap := InsertAfter (InsertAfter (InsertUnder blank 1 0) 2 1) 3 2

/-- Root `0` with the only child `1` (A), which has the children `2`, `3` (B, C) in this order. -/
def treeABC : Heap := InsertAfter (InsertUnder (InsertUnder blank 1 0) 2 1) 3 2

/-- Root `0` with the only child `1`. -/
def treeOne : Heap := InsertUnder blank 1 0

/-! ## Finite trees in the heap -/

/-- A finite forest in first-child / next-sibling form: a node, the forest of its children and
the forest of its following siblings. -/
inductive Forest where
  | nil
  | node (id : Nat) (kids : Forest) (sibs : Forest)

/-- The nodes of a forest in pre-order. -/
def Forest.ids : Forest → List Nat
  | .nil => []
  | .node i k s => i :: (k.ids ++ s.ids)

/-- The number of nodes of a forest. -/
def Forest.size : Forest → Nat
  | .nil => 0
  | .node _ k s => k.size + s.size + 1

/-- The sibling list that starts at pointer `p`, whose nodes have parent link `up` and whose first
node has previous link `pred`, has the shape `t`, children included. -/
def Shape (h : Heap) : Option Nat → Option Nat → Option Nat → Forest → Prop
  | p, _, _, .nil => p = none
  | p, up, pred, .node i k s =>
    p = some i ∧ (h i).m_up = up ∧ (h i).m_pred = pred ∧
      Shape h (h i).m_down (some i) none k ∧ Shape h (h i).m_next up (some i) s

/-- The children of `root` form the finite forest `t` of pairwise different nodes other than
`root`: a finite well-formed tree hangs below `root`. -/
def IsTree (h : Heap) (root : Nat) (t : Forest) : Prop :=
  Shape h (h root).m_down (some root) none t ∧ (root :: t.ids).Nodup

/-- The strict descendants of `r`: the nodes reached from `r` by one `m_down` link followed by
`m_next` and `m_down` links. -/
inductive Desc (h : Heap) (r : Nat) : Nat → Prop where
  | child (c : Nat) : (h r).m_down = some c → Desc h r c
  | next (a b : Nat) : Desc h r a → (h a).m_next = some b → Desc h r b
  | down (a c : Nat) : Desc h r a → (h a).m_down = some c → Desc h r c

/-- The state `m1` differs from `m` exactly by the destruction of the nodes `ids` below `r`: these
are no longer live and hold no links, `r` has lost its first-child link and is otherwise
unchanged, and every other address is unchanged. -/
structure Freed (m m1 : Mem) (r : Nat) (ids : List Nat) : Prop where
  brk : m1.brk = m.brk
  oracle : m1.oracle = m.oracle
  dead : ∀ x ∈ ids, m1.live x = false ∧ (m1.heap x).m_next = none ∧
    (m1.heap x).m_pred = none ∧ (m1.heap x).m_up = none ∧ (m1.heap x).m_down = none
  root_down : (m1.heap r).m_down = none
  root_rest : m1.live r = m.live r ∧ (m1.heap r).m_next = (m.heap r).m_next ∧
    (m1.heap r).m_pred = (m.heap r).m_pred ∧ (m1.heap r).m_up = (m.heap r).m_up ∧
    (m1.heap r).name = (m.heap r).name ∧ (m1.heap r).opened = (m.heap r).opened ∧
    (m1.heap r).selected = (m.heap r).selected
  frame : ∀ x, x ∉ ids → x ≠ r → m1.heap x = m.heap x ∧ m1.live x = m.live x

/-- The forest below the root of `treeABC`: the child `1` with the children `2` and `3`. -/
def forestABC : Forest := .node 1 (.node 2 .nil (.node 3 .nil .nil)) .nil

/-- The nodes linked from pointer `p` onwards by `m_next`, in order, are exactly `cs`. -/
def SibList (h : Heap) : Option Nat → List Nat → Prop
  | p, [] => p = none
  | p, c :: cs => p = some c ∧ SibList h (h c).m_next cs

/-! ## `TreeModel` -/

/-- No sibling chain runs into itself: no node is reached from itself by `m_next` links. -/
def ChainAcyclic (h : Heap) : Prop := ∀ x, ¬ Relation.TransGen (IsNext h) x x

/-- The constant `PLUGIN_ID`. -/
def PLUGIN_ID : Int := 1031676

/-- The selection modes the tree view passes to `Select`.  The host constants `SELECTION_NEW`,
`SELECTION_ADD` and `SELECTION_SUB` are the three cases of the `switch`; `other` stands for every
other value. -/
inductive SelectionMode where
  | SELECTION_NEW
  | SELECTION_ADD
  | SELECTION_SUB
  | other

/-- The insertion modes the tree view passes to `InsertObject`.  The host constants
`INSERT_UNDER`, `INSERT_BEFORE` and `INSERT_AFTER` are the three cases of the `switch`; `other`
stands for every other value (the `default` case). -/
inductive InsertMode where
  | INSERT_UNDER
  | INSERT_BEFORE
  | INSERT_AFTER
  | other

/-- `TreeModel::Select`: `SELECTION_NEW` clears the selection below `root` and falls through to
`SELECTION_ADD`.  `obj` is the node or `nullptr`; `none` as result means out of fuel. -/
def Select (fuel : Nat) (h : Heap) (root : Nat) (obj : Option Nat) :
    SelectionMode → Option Heap
  | .SELECTION_NEW =>
    match SelectAll fuel h root false with
    | some h1 =>
      match obj with
      | some node => some (h1.setSelected node true)
      | none => some h1
    | none => none
  | .SELECTION_ADD =>
    match obj with
    | some node => some (h.setSelected node true)
    | none => some h
  | .SELECTION_SUB =>
    match obj with
    | some node => some (h.setSelected node false)
    | none => some h
  | .other => some h

/-- The nodes dereferenced by `InsertAfter`: the node, `pred` and the former next sibling. -/
def InsertAfter.derefs (h : Heap) (this pred : Nat) : List Nat :=
  this :: pred :: (h pred).m_next.toList

/-- The call `this->InsertAfter(pred)` in memory. -/
def Mem.InsertAfter (m : Mem) (this pred : Nat) : Res Mem :=
  if (InsertAfter.derefs m.heap this pred).all m.live then
    .ok { m with heap := TreeView.InsertAfter m.heap this pred }
  else .fault

/-- The nodes dereferenced by `InsertBefore`: the node, `next`, the former previous sibling, and
the parent when its first-child link is redirected. -/
def InsertBefore.derefs (h : Heap) (this next : Nat) : List Nat :=
  this :: next :: ((h next).m_pred.toList ++
    (if ((InsertBefore h this next) this).m_pred = none then
      ((InsertBefore h this next) this).m_up.toList
    else []))

/-- The call `this->InsertBefore(next)` in memory. -/
def Mem.InsertBefore (m : Mem) (this next : Nat) : Res Mem :=
  if (InsertBefore.derefs m.heap this next).all m.live then
    .ok { m with heap := TreeView.InsertBefore m.heap this next }
  else .fault

/-- The nodes dereferenced by `InsertUnder`. -/
def InsertUnder.derefs (h : Heap) (this up : Nat) : List Nat :=
  up :: (match (h up).m_down with
    | some d => InsertBefore.derefs h this d
    | none => [this])

/-- The call `this->InsertUnder(up)` in memory. -/
def Mem.InsertUnder (m : Mem) (this up : Nat) : Res Mem :=
  if (InsertUnder.derefs m.heap this up).all m.live then
    .ok { m with heap := TreeView.InsertUnder m.heap this up }
  else .fault

/-- `TreeModel::InsertObject`.  `obj` is the target or `nullptr`, `drag_ptr` the dragged node.
With a copy the source is `source->CreateCopy()`; without a target the source is inserted by
`InsertUnderLast(root)` as it is, otherwise it is removed and inserted relative to the target. -/
def InsertObject (fuel : Nat) (m : Mem) (root : Nat) (obj : Option Nat) (type : Int)
    (drag_ptr : Nat) (mode : InsertMode) (copy : Bool) : Res Mem :=
  if type ≠ PLUGIN_ID then .ok m
  else
    let src : Res (Mem × Option Nat) :=
      if copy then CreateCopy fuel m drag_ptr true else .ok (m, some drag_ptr)
    match src with
    | .ok (m1, none) => .ok m1
    | .ok (m1, some source) =>
      match obj with
      | none => m1.InsertUnderLast fuel source root
      | some dest =>
        match mode with
        | .INSERT_UNDER =>
          match m1.Remove source with
          | .ok m2 => m2.InsertUnder source dest
          | .fault => .fault
          | .timeout => .timeout
        | .INSERT_BEFORE =>
          match m1.Remove source with
          | .ok m2 => m2.InsertBefore source dest
          | .fault => .fault
          | .timeout => .timeout
        | .INSERT_AFTER =>
          match m1.Remove source with
          | .ok m2 => m2.InsertAfter source dest
          | .fault => .fault
          | .timeout => .timeout
        | .other => if copy then m1.delete source else .ok m1
    | .fault => .fault
    | .timeout => .timeout

/-! ## The order of the linear scan -/

/-- The node `x` comes before `y` in document order: `y` lies strictly below `x`, or `x` lies in
the subtree of a node `a` and `y` in the subtree of a later sibling `b` of `a`. -/
def LinBefore (h : Heap) (x y : Nat) : Prop :=
  Ancestor h y x ∨
    ∃ a b, InSubtree h a x ∧ InSubtree h b y ∧ Relation.TransGen (IsNext h) a b

/-- A parentless node `0` with the child `1` and the selected next sibling `2`. -/
def treeSib : Heap := (InsertAfter treeOne 2 0).setSelected 2 true

/-! ## The copying call as a unit -/

/-- The body of `Node::CreateCopy` with the recursive call of the loop as the parameter `rec`;
`CreateCopy (fuel + 1)` is this body with `CreateCopy fuel` on `this` as recursive call. -/
def CreateCopy.body (rec : Mem → Res (Mem × Option Nat)) (fuel : Nat) (m : Mem) (this : Nat)
    (children : Bool) : Res (Mem × Option Nat) :=
  if m.live this then
    match AllocShallowCopy m with
    | (m1, none) => .ok (m1, none)
    | (m1, some copy) =>
      let m2 : Mem := { m1 with heap := CopyFrom m1.heap copy this }
      let looped : Res (Mem × Bool) :=
        if children then
          CreateCopy.loop rec copy fuel m2 (m2.heap this).m_down
        else .ok (m2, true)
      match looped with
      | .ok (m3, true) => .ok (m3, some copy)
      | .ok (m3, false) =>
        match FreeTree fuel m3 copy with
        | .ok m4 =>
          match m4.delete copy with
          | .ok m5 => .ok (m5, none)
          | .fault => .fault
          | .timeout => .timeout
        | .fault => .fault
        | .timeout => .timeout
      | .fault => .fault
      | .timeout => .timeout
  else .fault

/-- The top-level nodes of a forest, in sibling order. -/
def Forest.tops : Forest → List Nat
  | .nil => []
  | .node i _ s => i :: s.tops

/-- The forest `t` with the node `c` and its children `k` appended as last top-level node. -/
def Forest.snoc : Forest → Nat → Forest → Forest
  | .nil, c, k => .node c k .nil
  | .node i ki s, c, k => .node i ki (s.snoc c k)

/-- The node `c` is a complete copy built between the memories `m` and `m1`: it is detached, the
finite well-formed tree `t` hangs below it, `c` and the nodes of `t` were allocated after `m`, and
they are exactly the live nodes among those allocated after `m`. -/
structure CopyBuilt (m m1 : Mem) (c : Nat) (t : Forest) : Prop where
  detached : Detached m1.heap c
  tree : IsTree m1.heap c t
  range : ∀ q ∈ c :: t.ids, m.brk ≤ q ∧ q < m1.brk
  live : ∀ q, m.brk ≤ q → q < m1.brk → (m1.live q = true ↔ q ∈ c :: t.ids)

/-- All or nothing: a copying call that turned the memory `m` into `m1` and returned `r` left every
node that existed before as it was, and either returned `nullptr` with every node allocated on
the way destroyed, or returned a complete copy. -/
structure CopyResult (m m1 : Mem) (r : Option Nat) : Prop where
  brk : m.brk ≤ m1.brk
  frame : ∀ q, q < m.brk → m1.heap q = m.heap q ∧ m1.live q = m.live q
  nothing : r = none → ∀ q, m.brk ≤ q → q < m1.brk → m1.live q = false
  complete : ∀ c, r = some c → ∃ t, CopyBuilt m m1 c t

/-! # Theorems -/

/-! ## Reading a field after an assignment -/

@[simp] theorem Heap.setNext_apply (h : Heap) (p q : Nat) (v : Option Nat) :
    (h.setNext p v q).m_next = (if q = p then v else (h q).m_next) ∧
    (h.setNext p v q).m_pred = (h q).m_pred ∧ (h.setNext p v q).m_up = (h q).m_up ∧
    (h.setNext p v q).m_down = (h q).m_down ∧ (h.setNext p v q).name = (h q).name ∧
    (h.setNext p v q).opened = (h q).opened ∧ (h.setNext p v q).selected = (h q).selected := by
  unfold Heap.setNext Heap.modify; split <;> simp

@[simp] theorem Heap.setPred_apply (h : Heap) (p q : Nat) (v : Option Nat) :
    (h.setPred p v q).m_pred = (if q = p then v else (h q).m_pred) ∧
    (h.setPred p v q).m_next = (h q).m_next ∧ (h.setPred p v q).m_up = (h q).m_up ∧
    (h.setPred p v q).m_down = (h q).m_down ∧ (h.setPred p v q).name = (h q).name ∧
    (h.setPred p v q).opened = (h q).opened ∧ (h.setPred p v q).selected = (h q).selected := by
  unfold Heap.setPred Heap.modify; split <;> simp

@[simp] theorem Heap.setUp_apply (h : Heap) (p q : Nat) (v : Option Nat) :
    (h.setUp p v q).m_up = (if q = p then v else (h q).m_up) ∧
    (h.setUp p v q).m_next = (h q).m_next ∧ (h.setUp p v q).m_pred = (h q).m_pred ∧
    (h.setUp p v q).m_down = (h q).m_down ∧ (h.setUp p v q).name = (h q).name ∧
    (h.setUp p v q).opened = (h q).opened ∧ (h.setUp p v q).selected = (h q).selected := by
  unfold Heap.setUp Heap.modify; split <;> simp

@[simp] theorem Heap.setDown_apply (h : Heap) (p q : Nat) (v : Option Nat) :
    (h.setDown p v q).m_down = (if q = p then v else (h q).m_down) ∧
    (h.setDown p v q).m_next = (h q).m_next ∧ (h.setDown p v q).m_pred = (h q).m_pred ∧
    (h.setDown p v q).m_up = (h q).m_up ∧ (h.setDown p v q).name = (h q).name ∧
    (h.setDown p v q).opened = (h q).opened ∧ (h.setDown p v q).selected = (h q).selected := by
  unfold Heap.setDown Heap.modify; split <;> simp

@[simp] theorem Heap.setSelected_apply (h : Heap) (p q : Nat) (v : Bool) :
    (h.setSelected p v q).selected = (if q = p then v else (h q).selected) ∧
    (h.setSelected p v q).m_next = (h q).m_next ∧ (h.setSelected p v q).m_pred = (h q).m_pred ∧
    (h.setSelected p v q).m_up = (h q).m_up ∧ (h.setSelected p v q).m_down = (h q).m_down ∧
    (h.setSelected p v q).name = (h q).name ∧ (h.setSelected p v q).opened = (h q).opened := by
  unfold Heap.setSelected Heap.modify; split <;> simp

/-! ## The fields after each edit -/

theorem InsertAfter_fields (h : Heap) (x p a : Nat) (hx : Detached h x) (hne : x ≠ p)
    (hnx : (h p).m_next ≠ some x) :
    (InsertAfter h x p a).m_next =
        (if a = p then some x else if a = x then (h p).m_next else (h a).m_next) ∧
    (InsertAfter h x p a).m_pred =
        (if a = x then some p else if (h p).m_next = some a then some x else (h a).m_pred) ∧
    (InsertAfter h x p a).m_up = (if a = x then (h p).m_up else (h a).m_up) ∧
    (InsertAfter h x p a).m_down = (h a).m_down ∧ (InsertAfter h x p a).name = (h a).name ∧
    (InsertAfter h x p a).opened = (h a).opened ∧
    (InsertAfter h x p a).selected = (h a).selected := by
  obtain ⟨hx1, hx2, hx3⟩ := hx
  have hne' : p ≠ x := Ne.symm hne
  unfold InsertAfter
  cases hn : (h p).m_next with
  | none =>
    cases hu : (h p).m_up with
    | none =>
      simp only [Heap.setNext_apply, Heap.setPred_apply, if_neg hne', hu]
      by_cases h1 : a = x
      · subst h1; simp [hne, hx1, hx2, hx3]
      · by_cases h2 : a = p <;> simp [h1, h2, hne, hne', hu]
    | some u =>
      simp only [Heap.setNext_apply, Heap.setPred_apply, if_neg hne', hu, if_true]
      simp only [Heap.setNext_apply, Heap.setPred_apply, Heap.setUp_apply]
      by_cases h1 : a = x
      · subst h1; simp [hne, hx1, hx2, hx3, hu]
      · by_cases h2 : a = p <;> simp [h1, h2, hne, hne', hu]
  | some n =>
    have hnx' : n ≠ x := fun e => hnx (by rw [hn, e])
    cases hu : (h p).m_up with
    | none =>
      simp only [Heap.setNext_apply, Heap.setPred_apply, if_neg hne', hu]
      by_cases h1 : a = x
      · subst h1; simp [hne, hx1, hx2, hx3, hn, Ne.symm hnx']
      · by_cases h2 : a = p <;> simp [h1, h2, hn, hne, hne', hu, eq_comm]
    | some u =>
      simp only [Heap.setNext_apply, Heap.setPred_apply, if_neg hne', hu, if_true]
      simp only [Heap.setNext_apply, Heap.setPred_apply, Heap.setUp_apply]
      by_cases h1 : a = x
      · subst h1; simp [hne, hx1, hx2, hx3, hn, hu, Ne.symm hnx']
      · by_cases h2 : a = p <;> simp [h1, h2, hn, hne, hne', hu, eq_comm]

theorem InsertBefore_fields (h : Heap) (x t a : Nat) (hx : Detached h x) (hne : x ≠ t)
    (hpx : (h t).m_pred ≠ some x) :
    (InsertBefore h x t a).m_next =
        (if a = x then some t else if (h t).m_pred = some a then some x else (h a).m_next) ∧
    (InsertBefore h x t a).m_pred =
        (if a = t then some x else if a = x then (h t).m_pred else (h a).m_pred) ∧
    (InsertBefore h x t a).m_up = (if a = x then (h t).m_up else (h a).m_up) ∧
    (InsertBefore h x t a).m_down =
        (if (h t).m_pred = none ∧ (h t).m_up = some a then some x else (h a).m_down) ∧
    (InsertBefore h x t a).name = (h a).name ∧
    (InsertBefore h x t a).opened = (h a).opened ∧
    (InsertBefore h x t a).selected = (h a).selected := by
  obtain ⟨hx1, hx2, hx3⟩ := hx
  have hne' : t ≠ x := Ne.symm hne
  unfold InsertBefore
  cases hp : (h t).m_pred with
  | none =>
    cases hu : (h t).m_up with
    | none =>
      simp only [Heap.setNext_apply, Heap.setPred_apply, if_neg hne', if_neg hne, hu, hx2, hx3]
      by_cases h1 : a = x
      · subst h1; simp [hne, hx1, hx2, hx3]
      · by_cases h2 : a = t <;> simp [h1, h2, hne, hne', hu]
    | some u =>
      simp only [Heap.setNext_apply, Heap.setPred_apply, Heap.setUp_apply, if_neg hne',
        if_neg hne, hu, hx2, if_true]
      simp only [Heap.setNext_apply, Heap.setPred_apply, Heap.setUp_apply, Heap.setDown_apply]
      by_cases h1 : a = x
      · subst h1; simp [hne, hx1, hx2, hx3, hu, eq_comm]
      · by_cases h2 : a = t <;> simp [h1, h2, hne, hne', hu, eq_comm]
  | some p =>
    have hpx' : p ≠ x := fun e => hpx (by rw [hp, e])
    cases hu : (h t).m_up with
    | none =>
      simp only [Heap.setNext_apply, Heap.setPred_apply, if_neg hne', if_neg hne, hu, hx3,
        if_true, hp]
      by_cases h1 : a = x
      · subst h1; simp [hne, hx1, hx2, hx3, hp, Ne.symm hpx']
      · by_cases h2 : a = t <;> simp [h1, h2, hne, hne', hu, hp, eq_comm]
    | some u =>
      simp only [Heap.setNext_apply, Heap.setPred_apply, Heap.setUp_apply, if_neg hne',
        if_neg hne, hu, if_true, hp]
      by_cases h1 : a = x
      · subst h1; simp [hne, hx1, hx2, hx3, hu, hp, Ne.symm hpx']
      · by_cases h2 : a = t <;> simp [h1, h2, hne, hne', hu, hp, eq_comm]

theorem Remove_fields (h : Heap) (x a : Nat) :
    (Remove h x a).m_next =
        (if a = x then none else if (h x).m_pred = some a then (h x).m_next else (h a).m_next) ∧
    (Remove h x a).m_pred =
        (if a = x then none else if (h x).m_next = some a then (h x).m_pred else (h a).m_pred) ∧
    (Remove h x a).m_up = (if a = x then none else (h a).m_up) ∧
    (Remove h x a).m_down =
        (if (h x).m_up = some a ∧ (h a).m_down = some x then (h x).m_next else (h a).m_down) ∧
    (Remove h x a).name = (h a).name ∧ (Remove h x a).opened = (h a).opened ∧
    (Remove h x a).selected = (h a).selected := by
  unfold Remove
  rcases hu : (h x).m_up with _ | u
  · rcases hn : (h x).m_next with _ | n <;> rcases hp : (h x).m_pred with _ | p
    all_goals simp only [Heap.setDown_apply, Heap.setPred_apply,
      Heap.setNext_apply, Heap.setUp_apply, hu, hn, hp]
    all_goals by_cases h1 : a = x
    all_goals simp [h1, hu, hn, hp, eq_comm]
  · by_cases hd : (h u).m_down = some x <;> rcases hn : (h x).m_next with _ | n <;>
      rcases hp : (h x).m_pred with _ | p
    all_goals simp only [hd, if_true, if_false, Heap.setDown_apply, Heap.setPred_apply,
      Heap.setNext_apply, Heap.setUp_apply, hu, hn, hp]
    all_goals by_cases h1 : a = x <;> by_cases h2 : a = u
    all_goals simp [h1, h2, hu, hn, hp, hd, eq_comm]
    all_goals simp_all

/-! ## Preservation of the invariants -/

theorem detached_not_target (h : Heap) (x : Nat) (hI : LinkInv h) (hx : Detached h x) (a : Nat) :
    (h a).m_next ≠ some x ∧ (h a).m_pred ≠ some x ∧ (h a).m_down ≠ some x := by
  obtain ⟨hx1, hx2, hx3⟩ := hx
  refine ⟨fun e => ?_, fun e => ?_, fun e => ?_⟩
  · have := (hI.next_pred a x).1 e
    rw [hx2] at this; cases this
  · have := (hI.next_pred x a).2 e
    rw [hx1] at this; cases this
  · have := (hI.down_up a x e).1
    rw [hx3] at this; cases this

/-- Redirecting the parent link of a single node `x` to a node outside its subtree (or clearing
it) cannot close a cycle. -/
theorem acyclic_reparent (h h1 : Heap) (x : Nat) (hac : ∀ n, ¬ Ancestor h n n)
    (hsame : ∀ a, a ≠ x → (h1 a).m_up = (h a).m_up)
    (hx : ∀ q, (h1 x).m_up = some q → ¬ InSubtree h x q) :
    ∀ n, ¬ Ancestor h1 n n := by
  have first : ∀ q, Relation.ReflTransGen (IsParent h1) q x →
      Relation.ReflTransGen (IsParent h) q x := by
    intro q hq
    induction hq using Relation.ReflTransGen.head_induction_on with
    | refl => exact Relation.ReflTransGen.refl
    | @head a b hab _ ih =>
      by_cases ha : a = x
      · subst ha; exact Relation.ReflTransGen.refl
      · refine Relation.ReflTransGen.head ?_ ih
        unfold IsParent at hab ⊢
        rw [← hsame a ha]; exact hab
  have split : ∀ a b, Relation.TransGen (IsParent h1) a b →
      Relation.TransGen (IsParent h) a b ∨
        (Relation.ReflTransGen (IsParent h1) a x ∧ Relation.TransGen (IsParent h1) x b) := by
    intro a b hab
    induction hab with
    | single hab =>
      rename_i b
      by_cases ha : a = x
      · subst ha; exact Or.inr ⟨Relation.ReflTransGen.refl, Relation.TransGen.single hab⟩
      · left; apply Relation.TransGen.single
        unfold IsParent at hab ⊢
        rw [← hsame a ha]; exact hab
    | tail hab hbc ih =>
      rename_i b c
      rcases ih with ih | ⟨i1, i2⟩
      · by_cases hb : b = x
        · subst hb
          exact Or.inr ⟨hab.to_reflTransGen, Relation.TransGen.single hbc⟩
        · left; refine Relation.TransGen.tail ih ?_
          unfold IsParent at hbc ⊢
          rw [← hsame b hb]; exact hbc
      · exact Or.inr ⟨i1, Relation.TransGen.tail i2 hbc⟩
  intro n hn
  rcases split n n hn with hn1 | ⟨i1, i2⟩
  · exact hac n hn1
  · have hxx : Relation.TransGen (IsParent h1) x x := Relation.TransGen.trans_left i2 i1
    rcases (Relation.TransGen.head'_iff.1 hxx) with ⟨q, hxq, hqx⟩
    exact hx q hxq (first q hqx)

theorem LinkInv_InsertAfter (h : Heap) (x p : Nat) (hI : LinkInv h) (hx : Detached h x)
    (hne : x ≠ p) (hsub : ¬ InSubtree h x p) : LinkInv (InsertAfter h x p) := by
  have D := detached_not_target h x hI hx
  have F := fun a => InsertAfter_fields h x p a hx hne (D p).1
  obtain ⟨hx1, hx2, hx3⟩ := hx
  refine ⟨?_, ?_, ?_, ?_⟩
  · intro a b
    rw [(F a).1, (F b).2.1]
    clear F
    have I1 := hI.next_pred
    split_ifs with c1 c2 c3 c4 c5 c6 c7 c8
    all_goals (try subst_vars)
    all_goals simp_all [eq_comm]
  · intro a b
    rw [(F a).1, (F a).2.2.1, (F b).2.2.1]
    clear F
    have I2 := hI.next_up
    intro e
    by_cases c1 : a = p
    · subst c1
      rw [if_pos rfl] at e
      cases e
      rw [if_neg (Ne.symm hne), if_pos rfl]
    · rw [if_neg c1] at e
      by_cases c2 : a = x
      · subst c2
        rw [if_pos rfl] at e
        have hb : b ≠ a := fun e1 => (D p).1 (e1 ▸ e)
        rw [if_pos rfl, if_neg hb]
        exact I2 p b e
      · rw [if_neg c2] at e
        have hb : b ≠ x := fun e1 => (D a).1 (e1 ▸ e)
        rw [if_neg c2, if_neg hb]
        exact I2 a b e
  · intro q c e
    rw [(F q).2.2.2.1] at e
    have hc : c ≠ x := fun e1 => (D q).2.2 (e1 ▸ e)
    rw [(F c).2.2.1, (F c).2.1, if_neg hc, if_neg hc]
    obtain ⟨u1, u2⟩ := hI.down_up q c e
    refine ⟨u1, ?_⟩
    split_ifs with c1
    · have := (hI.next_pred p c).1 c1
      rw [u2] at this; cases this
    · exact u2
  · apply acyclic_reparent h _ x hI.acyclic
    · intro a ha
      rw [(F a).2.2.1, if_neg ha]
    · intro q hq hsq
      rw [(F x).2.2.1, if_pos rfl] at hq
      exact hsub (Relation.ReflTransGen.head hq hsq)

theorem LinkInv_InsertBefore (h : Heap) (x t : Nat) (hI : LinkInv h) (hx : Detached h x)
    (hne : x ≠ t) (hsub : ¬ InSubtree h x t) : LinkInv (InsertBefore h x t) := by
  have D := detached_not_target h x hI hx
  have F := fun a => InsertBefore_fields h x t a hx hne (D t).2.1
  obtain ⟨hx1, hx2, hx3⟩ := hx
  refine ⟨?_, ?_, ?_, ?_⟩
  · intro a b
    rw [(F a).1, (F b).2.1]
    clear F
    have I1 := hI.next_pred
    have hinj : ∀ b, (h b).m_pred = some a → (h t).m_pred = some a → b = t := by
      intro b e1 e2
      have := (I1 a b).2 e1
      rw [(I1 a t).2 e2] at this
      cases this; rfl
    split_ifs with c1 c2 c3 c4 c5 c6 c7 c8
    all_goals (try subst_vars)
    all_goals (try simp_all [eq_comm])
    intro e
    exact c5 (hinj b e)
  · intro a b
    rw [(F a).1, (F a).2.2.1, (F b).2.2.1]
    clear F
    have I2 := hI.next_up
    intro e
    by_cases c1 : a = x
    · subst c1
      rw [if_pos rfl] at e
      cases e
      rw [if_pos rfl, if_neg (Ne.symm hne)]
    · rw [if_neg c1] at e
      by_cases c2 : (h t).m_pred = some a
      · rw [if_pos c2] at e
        cases e
        rw [if_neg c1, if_pos rfl]
        exact I2 a t ((hI.next_pred a t).2 c2)
      · rw [if_neg c2] at e
        have hb : b ≠ x := fun e1 => (D a).1 (e1 ▸ e)
        rw [if_neg c1, if_neg hb]
        exact I2 a b e
  · intro q c e
    rw [(F q).2.2.2.1] at e
    rw [(F c).2.2.1, (F c).2.1]
    by_cases c1 : (h t).m_pred = none ∧ (h t).m_up = some q
    · rw [if_pos c1] at e
      cases e
      rw [if_pos rfl, if_neg hne, if_pos rfl]
      exact ⟨c1.2, c1.1⟩
    · rw [if_neg c1] at e
      have hc : c ≠ x := fun e1 => (D q).2.2 (e1 ▸ e)
      obtain ⟨u1, u2⟩ := hI.down_up q c e
      have hct : c ≠ t := by
        rintro rfl
        exact c1 ⟨u2, u1⟩
      rw [if_neg hc, if_neg hct, if_neg hc]
      exact ⟨u1, u2⟩
  · apply acyclic_reparent h _ x hI.acyclic
    · intro a ha
      rw [(F a).2.2.1, if_neg ha]
    · intro q hq hsq
      rw [(F x).2.2.1, if_pos rfl] at hq
      exact hsub (Relation.ReflTransGen.head hq hsq)

theorem LinkInv_Remove (h : Heap) (x : Nat) (hI : LinkInv h) : LinkInv (Remove h x) := by
  have F := fun a => Remove_fields h x a
  have I1 := hI.next_pred
  have I2 := hI.next_up
  have I3 := hI.down_up
  refine ⟨?_, ?_, ?_, ?_⟩
  · intro a b
    rw [(F a).1, (F b).2.1]
    clear F
    by_cases c1 : a = x
    · subst c1
      rw [if_pos rfl]
      by_cases c2 : b = a
      · rw [if_pos c2]
        constructor <;> (intro e; cases e)
      · rw [if_neg c2]
        by_cases c3 : (h a).m_next = some b
        · rw [if_pos c3]
          constructor
          · intro e; cases e
          · intro e
            have := (I1 a a).2 e
            rw [c3] at this
            cases this; exact absurd rfl c2
        · rw [if_neg c3]
          constructor
          · intro e; cases e
          · intro e; exact absurd ((I1 a b).2 e) c3
    · rw [if_neg c1]
      by_cases c2 : (h x).m_pred = some a
      · rw [if_pos c2]
        have hax : (h a).m_next = some x := (I1 a x).2 c2
        by_cases c3 : b = x
        · subst c3
          rw [if_pos rfl]
          constructor
          · intro e
            have := (I1 b b).1 e
            rw [c2] at this
            cases this; exact absurd rfl c1
          · intro e; cases e
        · rw [if_neg c3]
          by_cases c4 : (h x).m_next = some b
          · rw [if_pos c4]
            exact ⟨fun _ => c2, fun _ => c4⟩
          · rw [if_neg c4]
            constructor
            · intro e; exact absurd e c4
            · intro e
              have := (I1 a b).2 e
              rw [hax] at this
              cases this; exact absurd rfl c3
      · rw [if_neg c2]
        by_cases c3 : b = x
        · subst c3
          rw [if_pos rfl]
          constructor
          · intro e; exact absurd ((I1 a b).1 e) c2
          · intro e; cases e
        · rw [if_neg c3]
          by_cases c4 : (h x).m_next = some b
          · rw [if_pos c4]
            have hbx : (h b).m_pred = some x := (I1 x b).1 c4
            constructor
            · intro e
              have := (I1 a b).1 e
              rw [hbx] at this
              cases this; exact absurd rfl c1
            · intro e; exact absurd e c2
          · rw [if_neg c4]
            exact I1 a b
  · intro a b
    rw [(F a).1, (F a).2.2.1, (F b).2.2.1]
    clear F
    intro e
    by_cases c1 : a = x
    · rw [if_pos c1] at e; cases e
    · rw [if_neg c1] at e
      rw [if_neg c1]
      by_cases c2 : (h x).m_pred = some a
      · rw [if_pos c2] at e
        have hax : (h a).m_next = some x := (I1 a x).2 c2
        have hb : b ≠ x := by
          rintro rfl
          have := (I1 b b).1 e
          rw [c2] at this
          cases this; exact c1 rfl
        rw [if_neg hb, I2 a x hax]
        exact I2 x b e
      · rw [if_neg c2] at e
        have hb : b ≠ x := by
          rintro rfl
          exact c2 ((I1 a b).1 e)
        rw [if_neg hb]
        exact I2 a b e
  · intro q c e
    rw [(F q).2.2.2.1] at e
    rw [(F c).2.2.1, (F c).2.1]
    clear F
    by_cases c1 : (h x).m_up = some q ∧ (h q).m_down = some x
    · rw [if_pos c1] at e
      obtain ⟨-, v2⟩ := I3 q x c1.2
      have hc : c ≠ x := by
        rintro rfl
        have := (I1 c c).1 e
        rw [v2] at this; cases this
      rw [if_neg hc, if_neg hc, if_pos e]
      refine ⟨?_, v2⟩
      rw [← I2 x c e]; exact c1.1
    · rw [if_neg c1] at e
      obtain ⟨u1, u2⟩ := I3 q c e
      have hc : c ≠ x := by
        rintro rfl
        exact c1 ⟨u1, e⟩
      rw [if_neg hc, if_neg hc]
      refine ⟨u1, ?_⟩
      split_ifs with c2
      · have := (I1 x c).1 c2
        rw [u2] at this; cases this
      · exact u2
  · apply acyclic_reparent h _ x hI.acyclic
    · intro a ha
      rw [(F a).2.2.1, if_neg ha]
    · intro q hq
      rw [(F x).2.2.1, if_pos rfl] at hq
      cases hq

theorem LinkInv_InsertUnder (h : Heap) (x u : Nat) (hI : LinkInv h) (hx : Detached h x)
    (hne : x ≠ u) (hsub : ¬ InSubtree h x u) : LinkInv (InsertUnder h x u) := by
  have D := detached_not_target h x hI hx
  unfold InsertUnder
  cases hd : (h u).m_down with
  | some d =>
    have hdx : x ≠ d := fun e => (D u).2.2 (e ▸ hd)
    apply LinkInv_InsertBefore h x d hI hx hdx
    intro hs
    rcases Relation.ReflTransGen.cases_head hs with e | ⟨q, hq, hqx⟩
    · exact hdx e.symm
    · have := (hI.down_up u d hd).1
      unfold IsParent at hq
      rw [this] at hq
      cases hq
      exact hsub hqx
  | none =>
    obtain ⟨hx1, hx2, hx3⟩ := hx
    simp only []
    refine ⟨?_, ?_, ?_, ?_⟩
    · intro a b
      simp only [Heap.setUp_apply, Heap.setDown_apply]
      exact hI.next_pred a b
    · intro a b
      simp only [Heap.setUp_apply, Heap.setDown_apply]
      intro e
      have ha : a ≠ x := by
        rintro rfl
        rw [hx1] at e; cases e
      have hb : b ≠ x := fun e1 => (D a).1 (e1 ▸ e)
      rw [if_neg ha, if_neg hb]
      exact hI.next_up a b e
    · intro q c
      simp only [Heap.setUp_apply, Heap.setDown_apply]
      intro e
      by_cases c1 : q = u
      · rw [if_pos c1] at e
        cases e
        rw [if_pos rfl, c1]
        exact ⟨rfl, hx2⟩
      · rw [if_neg c1] at e
        have hc : c ≠ x := fun e1 => (D q).2.2 (e1 ▸ e)
        rw [if_neg hc]
        exact hI.down_up q c e
    · apply acyclic_reparent h _ x hI.acyclic
      · intro a ha
        simp only [Heap.setUp_apply, Heap.setDown_apply, if_neg ha]
      · intro q hq
        simp only [Heap.setUp_apply, Heap.setDown_apply, if_pos] at hq
        cases hq
        exact hsub

/-! ## Sibling chains -/

theorem isNext_rightUnique (h : Heap) : Relator.RightUnique (IsNext h) := by
  intro a b c hab hac
  unfold IsNext at hab hac
  rw [hab] at hac
  cases hac; rfl

theorem isNext_leftUnique (h : Heap) (hI : LinkInv h) :
    Relator.RightUnique (Function.swap (IsNext h)) := by
  intro b a c hab hcb
  have e1 := (hI.next_pred a b).1 hab
  have e2 := (hI.next_pred c b).1 hcb
  rw [e1] at e2
  cases e2; rfl

/-- Two nodes of one chain are comparable: one is reached from the other by `m_next` links. -/
theorem sameChain_total (h : Heap) (hI : LinkInv h) (a b : Nat) (hab : SameChain h a b) :
    Relation.ReflTransGen (IsNext h) a b ∨ Relation.ReflTransGen (IsNext h) b a := by
  induction hab with
  | rel a b r => exact Or.inl (Relation.ReflTransGen.single r)
  | refl a => exact Or.inl Relation.ReflTransGen.refl
  | symm a b _ ih => exact ih.symm
  | trans a b c _ _ ih1 ih2 =>
    rcases ih1 with i1 | i1 <;> rcases ih2 with i2 | i2
    · exact Or.inl (i1.trans i2)
    · have s1 := Relation.reflTransGen_swap.2 i1
      have s2 := Relation.reflTransGen_swap.2 i2
      rcases Relation.ReflTransGen.total_of_right_unique (isNext_leftUnique h hI) s1 s2 with t | t
      · exact Or.inr (Relation.reflTransGen_swap.1 t)
      · exact Or.inl (Relation.reflTransGen_swap.1 t)
    · exact Relation.ReflTransGen.total_of_right_unique (isNext_rightUnique h) i1 i2
    · exact Or.inr (i2.trans i1)

theorem head_of_reach (h : Heap) (hI : LinkInv h) (a b : Nat)
    (hab : Relation.ReflTransGen (IsNext h) a b) (hb : (h b).m_pred = none) : a = b := by
  rcases Relation.ReflTransGen.cases_tail hab with e | ⟨w, _, hw⟩
  · exact e.symm
  · have := (hI.next_pred w b).1 hw
    rw [hb] at this; cases this

theorem TreeInv_iff_LinkInv (h : Heap) : TreeInv h ↔ LinkInv h := by
  constructor
  · intro hT
    exact ⟨hT.next_pred, fun a b e => hT.chain_up a b (Relation.EqvGen.rel a b e),
      fun p c e => ⟨(hT.first_child p c e).1, (hT.first_child p c e).2.1⟩, hT.acyclic⟩
  · intro hI
    refine ⟨hI.next_pred, ?_, ?_, hI.acyclic⟩
    · intro a b hab
      induction hab with
      | rel a b r => exact hI.next_up a b r
      | refl a => rfl
      | symm a b _ ih => exact ih.symm
      | trans a b c _ _ ih1 ih2 => exact ih1.trans ih2
    · intro p c e
      refine ⟨(hI.down_up p c e).1, (hI.down_up p c e).2, ?_⟩
      intro d hcd hd
      rcases sameChain_total h hI c d hcd with t | t
      · exact (head_of_reach h hI c d t hd).symm
      · exact head_of_reach h hI d c t (hI.down_up p c e).2

/-- The loop of `GetDownLast` stops at a node of the same chain that has no next sibling. -/
theorem walk_reaches (h : Heap) : ∀ (fuel c l : Nat), GetDownLast.walk fuel h c = some l →
    Relation.ReflTransGen (IsNext h) c l ∧ (h l).m_next = none := by
  intro fuel
  induction fuel with
  | zero => intro c l e; cases e
  | succ fuel ih =>
    intro c l e
    unfold GetDownLast.walk at e
    cases hn : (h c).m_next with
    | none =>
      rw [hn] at e
      cases e
      exact ⟨Relation.ReflTransGen.refl, hn⟩
    | some n =>
      rw [hn] at e
      obtain ⟨r1, r2⟩ := ih n l e
      exact ⟨Relation.ReflTransGen.head hn r1, r2⟩

theorem reach_up (h : Heap) (hI : LinkInv h) (a b : Nat)
    (hab : Relation.ReflTransGen (IsNext h) a b) : (h a).m_up = (h b).m_up := by
  induction hab with
  | refl => rfl
  | tail _ hbc ih => exact ih.trans (hI.next_up _ _ hbc)

theorem InsertUnderLast_of_down (h : Heap) (fuel x u d : Nat) (hd : (h u).m_down = some d) :
    InsertUnderLast fuel h x u = (GetDownLast.walk fuel h d).map (fun l => InsertAfter h x l) := by
  unfold InsertUnderLast GetDownLast
  rw [hd]
  dsimp only
  cases GetDownLast.walk fuel h d <;> rfl

theorem InsertUnderLast_of_empty (h : Heap) (fuel x u : Nat) (hd : (h u).m_down = none) :
    InsertUnderLast fuel h x u = some (InsertUnder h x u) := by
  unfold InsertUnderLast
  rw [hd]

theorem LinkInv_InsertUnderLast (h h1 : Heap) (fuel x u : Nat) (hI : LinkInv h)
    (hx : Detached h x) (hne : x ≠ u) (hsub : ¬ InSubtree h x u)
    (hrun : InsertUnderLast fuel h x u = some h1) : LinkInv h1 := by
  cases hd : (h u).m_down with
  | none =>
    rw [InsertUnderLast_of_empty h fuel x u hd] at hrun
    cases hrun
    exact LinkInv_InsertUnder h x u hI hx hne hsub
  | some d =>
    rw [InsertUnderLast_of_down h fuel x u d hd] at hrun
    cases hw : GetDownLast.walk fuel h d with
    | none => rw [hw] at hrun; cases hrun
    | some l =>
      rw [hw] at hrun
      cases hrun
      obtain ⟨r1, -⟩ := walk_reaches h fuel d l hw
      have hup : (h l).m_up = some u := by
        rw [← reach_up h hI d l r1]; exact (hI.down_up u d hd).1
      have hlx : x ≠ l := by
        rintro rfl
        rw [hx.2.2] at hup; cases hup
      apply LinkInv_InsertAfter h x l hI hx hlx
      intro hs
      rcases Relation.ReflTransGen.cases_head hs with e | ⟨q, hq, hqx⟩
      · exact hlx e.symm
      · unfold IsParent at hq
        rw [hup] at hq
        cases hq
        exact hsub hqx

/-! ## Termination of the walk to the last child -/

theorem length_le_of_nodup_of_lt (l : List Nat) (N : Nat) (hn : l.Nodup)
    (hb : ∀ y ∈ l, y < N) : l.length ≤ N := by
  have h1 : l.toFinset ⊆ Finset.range N := by
    intro y hy
    rw [Finset.mem_range]
    exact hb y (List.mem_toFinset.1 hy)
  have h2 := Finset.card_le_card h1
  rw [List.toFinset_card_of_nodup hn, Finset.card_range] at h2
  exact h2

theorem walk_terminates_aux (h : Heap) (N : Nat) (hI : LinkInv h) (hB : Bounded h N) :
    ∀ (fuel : Nat) (seen : List Nat) (c : Nat), seen.Nodup → (∀ y ∈ seen, y < N) → c < N →
      c ∉ seen → (∀ z, (h c).m_pred = some z → z ∈ seen) →
      (∀ y ∈ seen, ∀ z, (h y).m_pred = some z → z ∈ seen) → N ≤ seen.length + fuel →
      ∃ l, GetDownLast.walk fuel h c = some l := by
  intro fuel
  induction fuel with
  | zero =>
    intro seen c hn hb hc hcs _ _ hlen
    have := length_le_of_nodup_of_lt (c :: seen) N (List.nodup_cons.2 ⟨hcs, hn⟩)
      (by
        intro y hy
        rcases List.mem_cons.1 hy with e | e
        · rw [e]; exact hc
        · exact hb y e)
    simp only [List.length_cons] at this
    omega
  | succ fuel ih =>
    intro seen c hn hb hc hcs hpc hcl hlen
    unfold GetDownLast.walk
    cases hnx : (h c).m_next with
    | none => exact ⟨c, rfl⟩
    | some n =>
      have hpn : (h n).m_pred = some c := (hI.next_pred c n).1 hnx
      apply ih (c :: seen) n (List.nodup_cons.2 ⟨hcs, hn⟩)
      · intro y hy
        rcases List.mem_cons.1 hy with e | e
        · rw [e]; exact hc
        · exact hb y e
      · exact hB c n (Or.inl hnx)
      · intro hmem
        rcases List.mem_cons.1 hmem with e | e
        · rw [e] at hpn
          exact hcs (hpc c hpn)
        · exact hcs (hcl n e c hpn)
      · intro z hz
        rw [hpn] at hz
        cases hz
        exact List.mem_cons_self _ _
      · intro y hy z hz
        rcases List.mem_cons.1 hy with e | e
        · rw [e] at hz
          exact List.mem_cons_of_mem _ (hpc z hz)
        · exact List.mem_cons_of_mem _ (hcl y e z hz)
      · simp only [List.length_cons]
        omega

/-- In a bounded heap the walk from a chain head finishes within `N` steps. -/
theorem walk_terminates (h : Heap) (N c : Nat) (hI : LinkInv h) (hB : Bounded h N)
    (hc : c < N) (hp : (h c).m_pred = none) : ∃ l, GetDownLast.walk N h c = some l := by
  apply walk_terminates_aux h N hI hB N [] c List.nodup_nil (by simp) hc (by simp)
  · intro z hz
    rw [hp] at hz; cases hz
  · intro y hy
    cases hy
  · simp

theorem InsertUnderLast_terminates (h : Heap) (N x u : Nat) (hI : LinkInv h)
    (hB : Bounded h N) : ∃ h1, InsertUnderLast N h x u = some h1 := by
  cases hd : (h u).m_down with
  | none => exact ⟨_, InsertUnderLast_of_empty h N x u hd⟩
  | some d =>
    obtain ⟨l, hl⟩ := walk_terminates h N d hI hB (hB u d (Or.inr (Or.inr (Or.inr hd))))
      (hI.down_up u d hd).2
    rw [InsertUnderLast_of_down h N x u d hd, hl]
    exact ⟨_, rfl⟩

/-! ## Boundedness is preserved -/

theorem Bounded_mono (h : Heap) (N M : Nat) (hB : Bounded h N) (hle : N ≤ M) : Bounded h M :=
  fun a b hb => Nat.lt_of_lt_of_le (hB a b hb) hle

theorem Bounded_InsertAfter (h : Heap) (N x p : Nat) (hI : LinkInv h) (hx : Detached h x)
    (hne : x ≠ p) (hB : Bounded h N) (hxN : x < N) (hpN : p < N) :
    Bounded (InsertAfter h x p) N := by
  intro a b hb
  have Fa := InsertAfter_fields h x p a hx hne (detached_not_target h x hI hx p).1
  rw [Fa.1, Fa.2.1, Fa.2.2.1, Fa.2.2.2.1] at hb
  rcases hb with e | e | e | e
  · split_ifs at e
    · cases e; exact hxN
    · exact hB p b (Or.inl e)
    · exact hB a b (Or.inl e)
  · split_ifs at e
    · cases e; exact hpN
    · cases e; exact hxN
    · exact hB a b (Or.inr (Or.inl e))
  · split_ifs at e
    · exact hB p b (Or.inr (Or.inr (Or.inl e)))
    · exact hB a b (Or.inr (Or.inr (Or.inl e)))
  · exact hB a b (Or.inr (Or.inr (Or.inr e)))

theorem Bounded_InsertBefore (h : Heap) (N x t : Nat) (hI : LinkInv h) (hx : Detached h x)
    (hne : x ≠ t) (hB : Bounded h N) (hxN : x < N) (htN : t < N) :
    Bounded (InsertBefore h x t) N := by
  intro a b hb
  have Fa := InsertBefore_fields h x t a hx hne (detached_not_target h x hI hx t).2.1
  rw [Fa.1, Fa.2.1, Fa.2.2.1, Fa.2.2.2.1] at hb
  rcases hb with e | e | e | e
  · split_ifs at e
    · cases e; exact htN
    · cases e; exact hxN
    · exact hB a b (Or.inl e)
  · split_ifs at e
    · cases e; exact hxN
    · exact hB t b (Or.inr (Or.inl e))
    · exact hB a b (Or.inr (Or.inl e))
  · split_ifs at e
    · exact hB t b (Or.inr (Or.inr (Or.inl e)))
    · exact hB a b (Or.inr (Or.inr (Or.inl e)))
  · split_ifs at e
    · cases e; exact hxN
    · exact hB a b (Or.inr (Or.inr (Or.inr e)))

theorem Bounded_Remove (h : Heap) (N x : Nat) (hB : Bounded h N) : Bounded (Remove h x) N := by
  intro a b hb
  have Fa := Remove_fields h x a
  rw [Fa.1, Fa.2.1, Fa.2.2.1, Fa.2.2.2.1] at hb
  rcases hb with e | e | e | e
  · split_ifs at e
    · exact hB x b (Or.inl e)
    · exact hB a b (Or.inl e)
  · split_ifs at e
    · exact hB x b (Or.inr (Or.inl e))
    · exact hB a b (Or.inr (Or.inl e))
  · split_ifs at e
    exact hB a b (Or.inr (Or.inr (Or.inl e)))
  · split_ifs at e
    · exact hB x b (Or.inl e)
    · exact hB a b (Or.inr (Or.inr (Or.inr e)))

theorem Bounded_InsertUnder (h : Heap) (N x u : Nat) (hI : LinkInv h) (hx : Detached h x)
    (hB : Bounded h N) (hxN : x < N) (huN : u < N) : Bounded (InsertUnder h x u) N := by
  unfold InsertUnder
  cases hd : (h u).m_down with
  | some d =>
    exact Bounded_InsertBefore h N x d hI hx
      (fun e => (detached_not_target h x hI hx u).2.2 (e ▸ hd)) hB hxN
      (hB u d (Or.inr (Or.inr (Or.inr hd))))
  | none =>
    intro a b hb
    simp only [Heap.setUp_apply, Heap.setDown_apply] at hb
    rcases hb with e | e | e | e
    · exact hB a b (Or.inl e)
    · exact hB a b (Or.inr (Or.inl e))
    · split_ifs at e
      · cases e; exact huN
      · exact hB a b (Or.inr (Or.inr (Or.inl e)))
    · split_ifs at e
      · cases e; exact hxN
      · exact hB a b (Or.inr (Or.inr (Or.inr e)))

theorem Bounded_InsertUnderLast (h h1 : Heap) (fuel N x u : Nat) (hI : LinkInv h)
    (hx : Detached h x) (hB : Bounded h N) (hxN : x < N) (huN : u < N)
    (hrun : InsertUnderLast fuel h x u = some h1) : Bounded h1 N := by
  cases hd : (h u).m_down with
  | none =>
    rw [InsertUnderLast_of_empty h fuel x u hd] at hrun
    cases hrun
    exact Bounded_InsertUnder h N x u hI hx hB hxN huN
  | some d =>
    rw [InsertUnderLast_of_down h fuel x u d hd] at hrun
    cases hw : GetDownLast.walk fuel h d with
    | none => rw [hw] at hrun; cases hrun
    | some l =>
      rw [hw] at hrun
      cases hrun
      obtain ⟨r1, -⟩ := walk_reaches h fuel d l hw
      have hup : (h l).m_up = some u := by
        rw [← reach_up h hI d l r1]; exact (hI.down_up u d hd).1
      have hlx : x ≠ l := by
        rintro rfl
        rw [hx.2.2] at hup; cases hup
      have hlN : l < N := by
        rcases Relation.ReflTransGen.cases_tail r1 with e | ⟨w, _, hw1⟩
        · rw [e]; exact hB u d (Or.inr (Or.inr (Or.inr hd)))
        · exact hB w l (Or.inl hw1)
      exact Bounded_InsertAfter h N x l hI hx hlx hB hxN hlN

/-! ## The edits as one step -/

theorem LinkInv_blank : LinkInv blank := by
  refine ⟨?_, ?_, ?_, ?_⟩
  · intro a b
    constructor <;> (intro e; cases e)
  · intro a b e; cases e
  · intro p c e; cases e
  · intro n hn
    rcases (Relation.TransGen.head'_iff.1 hn) with ⟨q, hq, _⟩
    cases hq

theorem LinkInv_step (h h1 : Heap) (op : Op) (fuel : Nat) (hI : LinkInv h) (hv : op.Valid h)
    (hrun : op.run fuel h = some h1) : LinkInv h1 := by
  cases op with
  | insertAfter x t =>
    cases hrun; exact LinkInv_InsertAfter h x t hI hv.1 hv.2.1 hv.2.2
  | insertBefore x t =>
    cases hrun; exact LinkInv_InsertBefore h x t hI hv.1 hv.2.1 hv.2.2
  | insertUnder x t =>
    cases hrun; exact LinkInv_InsertUnder h x t hI hv.1 hv.2.1 hv.2.2
  | insertUnderLast x t =>
    exact LinkInv_InsertUnderLast h h1 fuel x t hI hv.1 hv.2.1 hv.2.2 hrun
  | remove x =>
    cases hrun; exact LinkInv_Remove h x hI

theorem step_terminates (h : Heap) (op : Op) (N : Nat) (hI : LinkInv h) (hB : Bounded h N) :
    ∃ h1, op.run N h = some h1 := by
  cases op with
  | insertUnderLast x t => exact InsertUnderLast_terminates h N x t hI hB
  | insertAfter x t => exact ⟨_, rfl⟩
  | insertBefore x t => exact ⟨_, rfl⟩
  | insertUnder x t => exact ⟨_, rfl⟩
  | remove x => exact ⟨_, rfl⟩

theorem Bounded_step (h h1 : Heap) (op : Op) (fuel N : Nat) (hI : LinkInv h)
    (hv : op.Valid h) (hB : Bounded h N) (hrun : op.run fuel h = some h1) :
    ∃ M, Bounded h1 M := by
  cases op with
  | insertAfter x t =>
    cases hrun
    refine ⟨max N (max (x + 1) (t + 1)), ?_⟩
    exact Bounded_InsertAfter h _ x t hI hv.1 hv.2.1 (Bounded_mono h _ _ hB (by omega))
      (by omega) (by omega)
  | insertBefore x t =>
    cases hrun
    refine ⟨max N (max (x + 1) (t + 1)), ?_⟩
    exact Bounded_InsertBefore h _ x t hI hv.1 hv.2.1 (Bounded_mono h _ _ hB (by omega))
      (by omega) (by omega)
  | insertUnder x t =>
    cases hrun
    refine ⟨max N (max (x + 1) (t + 1)), ?_⟩
    exact Bounded_InsertUnder h _ x t hI hv.1 (Bounded_mono h _ _ hB (by omega))
      (by omega) (by omega)
  | insertUnderLast x t =>
    refine ⟨max N (max (x + 1) (t + 1)), ?_⟩
    exact Bounded_InsertUnderLast h h1 fuel _ x t hI hv.1 (Bounded_mono h _ _ hB (by omega))
      (by omega) (by omega) hrun
  | remove x =>
    cases hrun
    exact ⟨N, Bounded_Remove h N x hB⟩

theorem Built_inv (g : Heap) (hg : Built g) : LinkInv g ∧ ∃ N, Bounded g N := by
  induction hg with
  | start =>
    refine ⟨LinkInv_blank, 0, ?_⟩
    intro a b hb
    rcases hb with e | e | e | e <;> cases e
  | step h h1 op fuel _ hv hrun ih =>
    obtain ⟨hI, N, hB⟩ := ih
    exact ⟨LinkInv_step h h1 op fuel hI hv hrun, Bounded_step h h1 op fuel N hI hv hB hrun⟩

/-- C1: every valid structural edit (`InsertAfter`, `InsertBefore`, `InsertUnder`,
`InsertUnderLast` of a detached node at a different node outside its subtree, `Remove` of any
node) maps a heap satisfying the tree invariants to a heap satisfying them, and it returns when
the heap is bounded; hence every heap built from unlinked nodes by valid edits satisfies the
invariants (and is bounded, so the next edit returns as well). -/
theorem C1_tree_invariants_preserved :
    (∀ (h : Heap) (op : Op), TreeInv h → op.Valid h →
        (∀ fuel h1, op.run fuel h = some h1 → TreeInv h1) ∧
        (∀ N, Bounded h N → ∃ h1, op.run N h = some h1 ∧ TreeInv h1)) ∧
    (∀ g, Built g → TreeInv g ∧ ∃ N, Bounded g N) := by
  refine ⟨?_, ?_⟩
  · intro h op hT hv
    have hI := (TreeInv_iff_LinkInv h).1 hT
    refine ⟨?_, ?_⟩
    · intro fuel h1 hrun
      exact (TreeInv_iff_LinkInv h1).2 (LinkInv_step h h1 op fuel hI hv hrun)
    · intro N hB
      obtain ⟨h1, hrun⟩ := step_terminates h op N hI hB
      exact ⟨h1, hrun, (TreeInv_iff_LinkInv h1).2 (LinkInv_step h h1 op N hI hv hrun)⟩
  · intro g hg
    obtain ⟨hI, hB⟩ := Built_inv g hg
    exact ⟨(TreeInv_iff_LinkInv g).2 hI, hB⟩

theorem treeOne_inv : LinkInv treeOne := by
  refine LinkInv_InsertUnder blank 1 0 LinkInv_blank ⟨rfl, rfl, rfl⟩ (by decide) ?_
  intro hs
  rcases Relation.ReflTransGen.cases_head hs with e | ⟨q, hq, _⟩
  · cases e
  · cases hq

theorem C1_tree_invariants_preserved_witness :
    TreeInv treeOne ∧ (Op.insertAfter 2 1).Valid treeOne ∧ TreeInv (InsertAfter treeOne 2 1) := by
  have hT : TreeInv treeOne := (TreeInv_iff_LinkInv treeOne).2 treeOne_inv
  have hv : (Op.insertAfter 2 1).Valid treeOne := by
    refine ⟨⟨rfl, rfl, rfl⟩, by decide, ?_⟩
    intro hs
    rcases Relation.ReflTransGen.cases_head hs with e | ⟨q, hq, hq2⟩
    · cases e
    · have hq0 : q = 0 := by
        have : (treeOne 1).m_up = some 0 := rfl
        unfold IsParent at hq
        rw [this] at hq
        cases hq; rfl
      subst hq0
      rcases Relation.ReflTransGen.cases_head hq2 with e | ⟨r, hr, _⟩
      · cases e
      · cases hr
  exact ⟨hT, hv,
    (C1_tree_invariants_preserved.1 treeOne (Op.insertAfter 2 1) hT hv).1 0 _ rfl⟩

/-! ## Linear traversal and `FindSelected` on the scenarios -/

/-- C2: on root `0` with children X, Y, Z (`1`, `2`, `3`) appended by `InsertUnderLast`, the scan
by `GetLinNext` from the root yields only root, X and then `nullptr`: `GetLinNext` of the
childless X climbs from its parent and returns `nullptr` although X has the next sibling Y. -/
theorem C2_linear_scan_skips_siblings :
    ((InsertUnderLast 4 blank 1 0).bind fun h1 =>
        (InsertUnderLast 4 h1 2 0).bind fun h2 => InsertUnderLast 4 h2 3 0) = some treeXYZ ∧
    linearScan 8 8 treeXYZ (some 0) = some [0, 1] ∧
    (treeXYZ 1).m_next = some 2 ∧ GetLinNext 8 treeXYZ 1 = some none :=
  ⟨rfl, by decide, by decide, by decide⟩

/-- C3: on root → A → (B, C) with B and C both selected `FindSelected(root)` returns B, because the
scan never reaches C; with only C selected it returns `nullptr`; with only B selected it returns
B, and after `SelectAll(false)` on A it returns `nullptr`. -/
theorem C3_findSelected_misses_second_selection :
    ((InsertUnderLast 4 blank 1 0).bind fun h1 =>
        (InsertUnderLast 4 h1 2 1).bind fun h2 => InsertUnderLast 4 h2 3 1) = some treeABC ∧
    FindSelected 8 (treeABC.setSelected 2 true) 0 = some (some 2) ∧
    FindSelected 8 ((treeABC.setSelected 2 true).setSelected 3 true) 0 = some (some 2) ∧
    FindSelected 8 (treeABC.setSelected 3 true) 0 = some none ∧
    ((SelectAll 8 ((treeABC.setSelected 2 true).setSelected 3 true) 1 false).bind
        fun h1 => FindSelected 8 h1 0) = some none :=
  ⟨rfl, by decide, by decide, by decide, by decide⟩

/-! ## `Remove` and the four links -/

/-- C8 (as stated, refuted): removing the root of `treeOne`, which has a child, leaves its
`m_down` link set. -/
theorem C8_remove_keeps_first_child :
    ¬ ((Remove treeOne 0 0).m_next = none ∧ (Remove treeOne 0 0).m_pred = none ∧
        (Remove treeOne 0 0).m_up = none ∧ (Remove treeOne 0 0).m_down = none) := by
  decide

/-- C8 (amended): after `Remove` the node's `m_next`, `m_pred` and `m_up` are `nullptr`, and its
`m_down` keeps its value whenever the node is not its own parent. -/
theorem C8_remove_clears_three_links (h : Heap) (x : Nat) :
    (Remove h x x).m_next = none ∧ (Remove h x x).m_pred = none ∧ (Remove h x x).m_up = none ∧
      ((h x).m_up ≠ some x → (Remove h x x).m_down = (h x).m_down) := by
  have F := Remove_fields h x x
  refine ⟨?_, ?_, ?_, ?_⟩
  · rw [F.1, if_pos rfl]
  · rw [F.2.1, if_pos rfl]
  · rw [F.2.2.1, if_pos rfl]
  · intro hu
    rw [F.2.2.2.1, if_neg (fun c => hu c.1)]

theorem C8_remove_clears_three_links_witness :
    (treeXYZ 2).m_up ≠ some 2 ∧ (Remove treeXYZ 2 2).m_next = none ∧
      (Remove treeXYZ 2 2).m_pred = none ∧ (Remove treeXYZ 2 2).m_up = none ∧
      (Remove treeXYZ 2 2).m_down = (treeXYZ 2).m_down :=
  ⟨by decide, (C8_remove_clears_three_links treeXYZ 2).1,
    (C8_remove_clears_three_links treeXYZ 2).2.1,
    (C8_remove_clears_three_links treeXYZ 2).2.2.1,
    (C8_remove_clears_three_links treeXYZ 2).2.2.2 (by decide)⟩

/-! ## Copying -/

/-- C9: copying one freshly constructed node named "n" (`opened = true`, `selected = false`)
without children returns a fresh unlinked node with the same name and `opened`, but with
`selected = true`: `CopyFrom` assigns `other->opened` to `selected`. -/
theorem C9_copy_takes_selected_from_opened :
    (match CreateCopy 1 (Mem.ofHeap (blank.modify 0 fun _ => Node.mk1 "n") 1) 0 false with
      | .ok (m, some c) =>
        some (c, (m.heap c).name, (m.heap c).opened, (m.heap c).selected,
          (m.heap 0).selected, (m.heap c).m_next, (m.heap c).m_pred, (m.heap c).m_up,
          (m.heap c).m_down)
      | _ => none) = some (1, "n", true, true, false, none, none, none, none) :=
  rfl

theorem alloc_of_no_failure (m : Mem) (ho : ∀ b ∈ m.oracle, b = true) :
    m.alloc = ({ heap := fun q => if q = m.brk then Node.mk1 "" else m.heap q,
                 live := fun q => if q = m.brk then true else m.live q,
                 brk := m.brk + 1,
                 oracle := m.oracle.tail }, some m.brk) := by
  unfold Mem.alloc
  split
  · rename_i rest e
    have := ho false (by rw [e]; exact List.mem_cons_self _ _)
    cases this
  · rfl

/-- With an allocator that never fails, `CreateCopy(true)` of a node that has a child does not
return: every level of the recursion copies `this` again. -/
theorem CreateCopy_diverges : ∀ (fuel : Nat) (m : Mem) (this : Nat), m.live this = true →
    (m.heap this).m_down ≠ none → this < m.brk → (∀ b ∈ m.oracle, b = true) →
    CreateCopy fuel m this true = .timeout := by
  intro fuel
  induction fuel with
  | zero => intro m this _ _ _ _; rfl
  | succ fuel ih =>
    intro m this hl hd hb ho
    unfold CreateCopy
    rw [if_pos hl]
    unfold AllocShallowCopy
    rw [alloc_of_no_failure m ho]
    dsimp only
    have hne : this ≠ m.brk := Nat.ne_of_lt hb
    have hdown : (CopyFrom (fun q => if q = m.brk then Node.mk1 "" else m.heap q) m.brk
        this this).m_down = (m.heap this).m_down := by
      simp [CopyFrom, Heap.modify, hne]
    rw [if_pos rfl, hdown]
    cases hd1 : (m.heap this).m_down with
    | none => exact absurd hd1 hd
    | some d =>
      cases fuel with
      | zero => rfl
      | succ fuel =>
        unfold CreateCopy.loop
        rw [ih _ this]
        · simp [hne, hl]
        · simp [CopyFrom, Heap.modify, hne, hd1]
        · simp; omega
        · intro b hb1
          exact ho b (List.mem_of_mem_tail hb1)

/-- C4: for root `0` with the single child `1` and an allocator that never fails,
`CreateCopy(true)` does not return, whatever the fuel. -/
theorem C4_createCopy_of_parent_diverges (fuel : Nat) :
    CreateCopy fuel (Mem.ofHeap treeOne 2) 0 true = .timeout :=
  CreateCopy_diverges fuel (Mem.ofHeap treeOne 2) 0 rfl (by decide) (by decide)
    (by intro b hb; cases hb)

/-! ## `FreeSelectedNodes` on the scenario -/

/-- C5: on root `0` with children X, Y, Z (`1`, `2`, `3`) and only Y selected, all nodes live,
`FreeSelectedNodes(root)` deletes Y and then reads `m_down` of the deleted Y: with any fuel that
lets the call get that far it ends in a use of a destroyed node, not in a pruned tree. -/
theorem C5_freeSelectedNodes_reads_deleted_node (fuel : Nat) :
    (Mem.ofHeap (treeXYZ.setSelected 2 true) 4).live 2 = true ∧
    ((treeXYZ.setSelected 2 true) 0).selected = false ∧
    FreeSelectedNodes (fuel + 3) (Mem.ofHeap (treeXYZ.setSelected 2 true) 4) 0 = .fault := by
  refine ⟨rfl, rfl, ?_⟩
  have hX : FreeSelectedNodes (fuel + 2) (Mem.ofHeap (treeXYZ.setSelected 2 true) 4) 1 =
      .ok (Mem.ofHeap (treeXYZ.setSelected 2 true) 4) := rfl
  have hY : FreeSelectedNodes (fuel + 2) (Mem.ofHeap (treeXYZ.setSelected 2 true) 4) 2 =
      .fault := by
    cases fuel <;> rfl
  have step : FreeSelectedNodes (fuel + 3) (Mem.ofHeap (treeXYZ.setSelected 2 true) 4) 0 =
      (match FreeSelectedNodes (fuel + 2) (Mem.ofHeap (treeXYZ.setSelected 2 true) 4) 1 with
        | .ok m1 =>
          (match FreeSelectedNodes (fuel + 2) m1 2 with
            | .ok m2 => FreeSelectedNodes.loop (FreeSelectedNodes (fuel + 2)) fuel m2 (some 3)
            | .fault => .fault
            | .timeout => .timeout)
        | .fault => .fault
        | .timeout => .timeout) := rfl
  rw [step, hX]
  dsimp only
  rw [hY]

/-! ## Finite trees: descendants -/

theorem Shape_ptr_mem (h : Heap) (p u q : Option Nat) (t : Forest) (c : Nat)
    (hs : Shape h p u q t) (hp : p = some c) : c ∈ t.ids := by
  cases t with
  | nil =>
    unfold Shape at hs
    rw [hs] at hp; cases hp
  | node i k s =>
    unfold Shape at hs
    rw [hs.1] at hp
    cases hp
    exact List.mem_cons_self _ _

theorem Shape_closed (h : Heap) : ∀ (t : Forest) (p u q : Option Nat), Shape h p u q t →
    ∀ a ∈ t.ids, (∀ b, (h a).m_next = some b → b ∈ t.ids) ∧
      (∀ c, (h a).m_down = some c → c ∈ t.ids) := by
  intro t
  induction t with
  | nil => intro p u q _ a ha; cases ha
  | node i k s ihk ihs =>
    intro p u q hs a ha
    unfold Shape at hs
    obtain ⟨-, -, -, hk, hn⟩ := hs
    simp only [Forest.ids, List.mem_cons, List.mem_append] at ha ⊢
    rcases ha with rfl | ha | ha
    · exact ⟨fun b hb => Or.inr (Or.inr (Shape_ptr_mem h _ _ _ s b hn hb)),
        fun c hc => Or.inr (Or.inl (Shape_ptr_mem h _ _ _ k c hk hc))⟩
    · obtain ⟨i1, i2⟩ := ihk _ _ _ hk a ha
      exact ⟨fun b hb => Or.inr (Or.inl (i1 b hb)), fun c hc => Or.inr (Or.inl (i2 c hc))⟩
    · obtain ⟨i1, i2⟩ := ihs _ _ _ hn a ha
      exact ⟨fun b hb => Or.inr (Or.inr (i1 b hb)), fun c hc => Or.inr (Or.inr (i2 c hc))⟩

theorem Shape_reach (h : Heap) (P : Nat → Prop)
    (hnext : ∀ a b, P a → (h a).m_next = some b → P b)
    (hdown : ∀ a c, P a → (h a).m_down = some c → P c) :
    ∀ (t : Forest) (p u q : Option Nat), Shape h p u q t → (∀ c, p = some c → P c) →
      ∀ n ∈ t.ids, P n := by
  intro t
  induction t with
  | nil => intro p u q _ _ n hn; cases hn
  | node i k s ihk ihs =>
    intro p u q hs hp n hn
    unfold Shape at hs
    obtain ⟨h1, -, -, hk, hnx⟩ := hs
    have hi : P i := hp i h1
    simp only [Forest.ids, List.mem_cons, List.mem_append] at hn
    rcases hn with rfl | hn | hn
    · exact hi
    · exact ihk _ _ _ hk (fun c hc => hdown i c hi hc) n hn
    · exact ihs _ _ _ hnx (fun c hc => hnext i c hi hc) n hn

/-- Below a root that carries the finite forest `t`, the strict descendants are the nodes of `t`. -/
theorem Desc_iff_mem (h : Heap) (r : Nat) (t : Forest) (u q : Option Nat)
    (hs : Shape h (h r).m_down u q t) (n : Nat) : Desc h r n ↔ n ∈ t.ids := by
  constructor
  · intro hd
    induction hd with
    | child c hc => exact Shape_ptr_mem h _ _ _ t c hs hc
    | next a b _ hb ih => exact (Shape_closed h t _ _ _ hs a ih).1 b hb
    | down a c _ hc ih => exact (Shape_closed h t _ _ _ hs a ih).2 c hc
  · intro hn
    exact Shape_reach h (Desc h r) (fun a b ha hb => Desc.next a b ha hb)
      (fun a c ha hc => Desc.down a c ha hc) t _ _ _ hs (fun c hc => Desc.child c hc) n hn

/-- The shape of a forest only depends on the links of its own nodes. -/
theorem Shape_congr (h h1 : Heap) : ∀ (t : Forest) (p u q : Option Nat),
    (∀ x ∈ t.ids, (h1 x).m_next = (h x).m_next ∧ (h1 x).m_pred = (h x).m_pred ∧
      (h1 x).m_up = (h x).m_up ∧ (h1 x).m_down = (h x).m_down) →
    Shape h p u q t → Shape h1 p u q t := by
  intro t
  induction t with
  | nil => intro p u q _ hs; exact hs
  | node i k s ihk ihs =>
    intro p u q hx hs
    unfold Shape at hs ⊢
    obtain ⟨h1', h2, h3, hk, hn⟩ := hs
    obtain ⟨e1, e2, e3, e4⟩ := hx i (List.mem_cons_self _ _)
    refine ⟨h1', e3.trans h2, e2.trans h3, ?_, ?_⟩
    · rw [e4]
      exact ihk _ _ _ (fun x hx1 => hx x (by
        simp only [Forest.ids, List.mem_cons, List.mem_append]; exact Or.inr (Or.inl hx1))) hk
    · rw [e1]
      exact ihs _ _ _ (fun x hx1 => hx x (by
        simp only [Forest.ids, List.mem_cons, List.mem_append]; exact Or.inr (Or.inr hx1))) hn

/-! ## `SelectAll` -/

theorem SelectAll_loop_none (state : Bool) (rec : Heap → Nat → Option Heap) (fuel : Nat)
    (h : Heap) : SelectAll.loop state rec fuel h none = some h := by
  cases fuel <;> rfl

/-- On a finite forest the loop of `SelectAll` returns, and it has set `selected` on exactly the
nodes of the forest and changed nothing else. -/
theorem SelectAll_loop_spec (state : Bool) : ∀ (t : Forest) (F fuel : Nat) (h : Heap)
    (p u q : Option Nat), Shape h p u q t → t.size ≤ F → t.size ≤ fuel →
    ∃ h1, SelectAll.loop state (fun h2 c => SelectAll F h2 c state) fuel h p = some h1 ∧
      ∀ x, h1 x = if x ∈ t.ids then { h x with selected := state } else h x := by
  intro t
  induction t with
  | nil =>
    intro F fuel h p u q hs _ _
    unfold Shape at hs
    subst hs
    exact ⟨h, SelectAll_loop_none _ _ _ _, fun x => by simp [Forest.ids]⟩
  | node i k s ihk ihs =>
    intro F fuel h p u q hs hF hfuel
    unfold Shape at hs
    obtain ⟨hp, -, -, hk, hn⟩ := hs
    subst hp
    simp only [Forest.size] at hF hfuel
    obtain ⟨F1, rfl⟩ : ∃ F1, F = F1 + 1 := ⟨F - 1, by omega⟩
    obtain ⟨fuel1, rfl⟩ : ∃ f1, fuel = f1 + 1 := ⟨fuel - 1, by omega⟩
    have hk1 : Shape (h.setSelected i state) ((h.setSelected i state) i).m_down (some i) none k := by
      have e : ((h.setSelected i state) i).m_down = (h i).m_down := by simp
      rw [e]
      exact Shape_congr h _ k _ _ _ (fun x _ => by simp) hk
    obtain ⟨h2, r2, e2⟩ := ihk F1 F1 (h.setSelected i state) _ _ _ hk1 (by omega) (by omega)
    have links2 : ∀ x, (h2 x).m_next = (h x).m_next ∧ (h2 x).m_pred = (h x).m_pred ∧
        (h2 x).m_up = (h x).m_up ∧ (h2 x).m_down = (h x).m_down := by
      intro x
      rw [e2 x]
      split <;> simp
    have hn2 : Shape h2 (h2 i).m_next u (some i) s := by
      rw [(links2 i).1]
      exact Shape_congr h _ s _ _ _ (fun x _ => links2 x) hn
    obtain ⟨h3, r3, e3⟩ := ihs (F1 + 1) fuel1 h2 _ _ _ hn2 (by omega) (by omega)
    refine ⟨h3, ?_, ?_⟩
    · unfold SelectAll.loop
      have : SelectAll (F1 + 1) (h.setSelected i state) i state = some h2 := by
        unfold SelectAll
        exact r2
      simp only [this]
      exact r3
    · intro x
      rw [e3 x, e2 x]
      simp only [Forest.ids, List.mem_cons, List.mem_append]
      by_cases c1 : x = i
      · subst c1
        by_cases c2 : x ∈ s.ids <;> by_cases c3 : x ∈ k.ids <;>
          simp [c2, c3, Heap.setSelected, Heap.modify]
      · by_cases c2 : x ∈ s.ids <;> by_cases c3 : x ∈ k.ids <;>
          simp [c1, c2, c3, Heap.setSelected, Heap.modify]

/-- C10: when a finite well-formed tree hangs below `root`, `root.SelectAll(state)` returns (with
any fuel above the number of descendants), every strict descendant of `root` has
`selected = state` afterwards, `root.selected` and the `selected` flag of every node outside the
subtree are unchanged, and no name, `opened` flag or link of any node changes. -/
theorem C10_selectAll_marks_strict_descendants (h : Heap) (root : Nat) (t : Forest)
    (state : Bool) (fuel : Nat) (ht : IsTree h root t) (hfuel : t.size < fuel) :
    ∃ h1, SelectAll fuel h root state = some h1 ∧
      (∀ n, Desc h root n → (h1 n).selected = state) ∧
      (h1 root).selected = (h root).selected ∧
      (∀ n, n ≠ root → ¬ Desc h root n → (h1 n).selected = (h n).selected) ∧
      (∀ n, (h1 n).name = (h n).name ∧ (h1 n).opened = (h n).opened ∧
        (h1 n).m_next = (h n).m_next ∧ (h1 n).m_pred = (h n).m_pred ∧
        (h1 n).m_up = (h n).m_up ∧ (h1 n).m_down = (h n).m_down) := by
  obtain ⟨hs, hnd⟩ := ht
  obtain ⟨f1, rfl⟩ : ∃ f1, fuel = f1 + 1 := ⟨fuel - 1, by omega⟩
  obtain ⟨h1, r1, e1⟩ := SelectAll_loop_spec state t f1 f1 h _ _ _ hs (by omega) (by omega)
  have hroot : root ∉ t.ids := (List.nodup_cons.1 hnd).1
  refine ⟨h1, ?_, ?_, ?_, ?_, ?_⟩
  · unfold SelectAll
    exact r1
  · intro n hn
    rw [e1 n, if_pos ((Desc_iff_mem h root t _ _ hs n).1 hn)]
  · rw [e1 root, if_neg hroot]
  · intro n _ hn
    rw [e1 n, if_neg (fun c => hn ((Desc_iff_mem h root t _ _ hs n).2 c))]
  · intro n
    rw [e1 n]
    split <;> simp

/-! ## `FreeTree` -/

theorem FreeTree_loop_none (rec : Mem → Nat → Res Mem) (fuel : Nat) (m : Mem) :
    FreeTree.loop rec fuel m none = .ok m := by
  cases fuel <;> rfl

theorem Forest_ids_nodup_node (r i : Nat) (k s : Forest)
    (hnd : (r :: (Forest.node i k s).ids).Nodup) :
    (i :: k.ids).Nodup ∧ (r :: s.ids).Nodup ∧ r ≠ i ∧ r ∉ k.ids ∧ i ∉ s.ids ∧
      (∀ x ∈ k.ids, x ∉ s.ids) := by
  unfold Forest.ids at hnd
  obtain ⟨hr, hnd1⟩ := List.nodup_cons.1 hnd
  obtain ⟨hi, hnd2⟩ := List.nodup_cons.1 hnd1
  obtain ⟨hk, hs, hdis⟩ := List.nodup_append.1 hnd2
  simp only [List.mem_cons, List.mem_append, not_or] at hr hi
  refine ⟨List.nodup_cons.2 ⟨hi.1, hk⟩, List.nodup_cons.2 ⟨hr.2.2, hs⟩, hr.1, hr.2.1, hi.2, ?_⟩
  intro x hx hx2
  exact hdis hx hx2

/-- One pass of the loop of `FreeTree` over a child `c` whose children are already destroyed:
`Remove` unlinks `c` below `r` and `delete` destroys it. -/
theorem FreeTree_step_spec (m1 : Mem) (r c : Nat) (nx : Option Nat) (hrc : r ≠ c)
    (hlc : m1.live c = true) (hlr : m1.live r = true) (hln : ∀ j, nx = some j → m1.live j = true)
    (hup : (m1.heap c).m_up = some r) (hpred : (m1.heap c).m_pred = none)
    (hnext : (m1.heap c).m_next = nx) (hdown : (m1.heap r).m_down = some c) :
    ∃ m3, (match m1.Remove c with
        | .ok m2 => m2.delete c
        | .fault => .fault
        | .timeout => .timeout) = .ok m3 ∧
      m3.brk = m1.brk ∧ m3.oracle = m1.oracle ∧
      (m3.live c = false ∧ (m3.heap c).m_next = none ∧ (m3.heap c).m_pred = none ∧
        (m3.heap c).m_up = none ∧ (m3.heap c).m_down = none) ∧
      (∀ x, x ≠ c → m3.live x = m1.live x) ∧
      (∀ x, x ≠ c → (m3.heap x).m_next = (m1.heap x).m_next ∧
        (m3.heap x).m_up = (m1.heap x).m_up ∧ (m3.heap x).name = (m1.heap x).name ∧
        (m3.heap x).opened = (m1.heap x).opened ∧
        (m3.heap x).selected = (m1.heap x).selected) ∧
      (∀ x, x ≠ c → (m3.heap x).m_pred = if nx = some x then none else (m1.heap x).m_pred) ∧
      (∀ x, x ≠ c → (m3.heap x).m_down = if x = r then nx else (m1.heap x).m_down) := by
  have hder : (Remove.derefs m1.heap c).all m1.live = true := by
    unfold Remove.derefs
    rw [hup, hpred, hnext]
    cases nx with
    | none => simp [hlc, hlr]
    | some j => simp [hlc, hlr, hln j rfl]
  have F := fun a => Remove_fields m1.heap c a
  refine ⟨{ m1 with
      heap := ((((Remove m1.heap c).setDown c none).setUp c none).setPred c none).setNext c none,
      live := fun q => if q = c then false else m1.live q }, ?_, ?_⟩
  · unfold Mem.Remove
    rw [if_pos hder]
    dsimp only
    unfold Mem.delete
    rw [if_pos hlc]
  · dsimp only
    refine ⟨rfl, rfl, ?_, ?_, ?_, ?_, ?_⟩
    · simp
    · intro x hx
      simp [hx]
    · intro x hx
      simp only [Heap.setNext_apply, Heap.setPred_apply, Heap.setUp_apply, Heap.setDown_apply,
        if_neg hx]
      rw [(F x).1, (F x).2.2.1, (F x).2.2.2.2.1, (F x).2.2.2.2.2.1, (F x).2.2.2.2.2.2, hpred]
      simp [hx]
    · intro x hx
      simp only [Heap.setNext_apply, Heap.setPred_apply, Heap.setUp_apply, Heap.setDown_apply,
        if_neg hx]
      rw [(F x).2.1, hnext, hpred, if_neg hx]
    · intro x hx
      simp only [Heap.setNext_apply, Heap.setPred_apply, Heap.setUp_apply, Heap.setDown_apply,
        if_neg hx]
      rw [(F x).2.2.2.1, hup, hnext]
      by_cases c1 : x = r
      · subst c1
        simp [hdown]
      · have : ¬ (some r = some x ∧ (m1.heap x).m_down = some c) := by
          rintro ⟨e, -⟩
          cases e; exact c1 rfl
        rw [if_neg this, if_neg c1]

/-- On a finite forest of live nodes below `r` the loop of `FreeTree` returns, having destroyed
exactly the nodes of the forest. -/
theorem FreeTree_loop_spec : ∀ (t : Forest) (F fuel : Nat) (m : Mem) (r : Nat),
    Shape m.heap (m.heap r).m_down (some r) none t → (r :: t.ids).Nodup →
    (∀ x ∈ r :: t.ids, m.live x = true) → t.size ≤ F → t.size ≤ fuel →
    ∃ m1, FreeTree.loop (FreeTree F) fuel m (m.heap r).m_down = .ok m1 ∧ Freed m m1 r t.ids := by
  intro t
  induction t with
  | nil =>
    intro F fuel m r hs _ _ _ _
    unfold Shape at hs
    rw [hs]
    refine ⟨m, FreeTree_loop_none _ _ _, ?_⟩
    exact ⟨rfl, rfl, fun x hx => (by cases hx), hs, ⟨rfl, rfl, rfl, rfl, rfl, rfl, rfl⟩,
      fun x _ _ => ⟨rfl, rfl⟩⟩
  | node c k s ihk ihs =>
    intro F fuel m r hs hnd hlive hF hfuel
    unfold Shape at hs
    obtain ⟨hp, hup, hpred, hk, hn⟩ := hs
    obtain ⟨hndk, hnds, hrc, hrk, hcs, hks⟩ := Forest_ids_nodup_node r c k s hnd
    have hck : c ∉ k.ids := (List.nodup_cons.1 hndk).1
    have hrs : r ∉ s.ids := (List.nodup_cons.1 hnds).1
    simp only [Forest.size] at hF hfuel
    obtain ⟨F1, rfl⟩ : ∃ F1, F = F1 + 1 := ⟨F - 1, by omega⟩
    obtain ⟨fuel1, rfl⟩ : ∃ f1, fuel = f1 + 1 := ⟨fuel - 1, by omega⟩
    have hmem : ∀ x, x ∈ k.ids ∨ x ∈ s.ids ∨ x = c → x ∈ r :: (Forest.node c k s).ids := by
      intro x hx
      simp only [Forest.ids, List.mem_cons, List.mem_append]
      rcases hx with hx | hx | hx
      · exact Or.inr (Or.inr (Or.inl hx))
      · exact Or.inr (Or.inr (Or.inr hx))
      · exact Or.inr (Or.inl hx)
    have hlc : m.live c = true := hlive c (hmem c (Or.inr (Or.inr rfl)))
    have hlr : m.live r = true := hlive r (List.mem_cons_self _ _)
    -- the recursive call on the child
    obtain ⟨m1, r1, f1⟩ := ihk F1 F1 m c hk hndk
      (by
        intro x hx
        rcases List.mem_cons.1 hx with e | e
        · rw [e]; exact hlc
        · exact hlive x (hmem x (Or.inl e)))
      (by omega) (by omega)
    have hrec : FreeTree (F1 + 1) m c = .ok m1 := by
      unfold FreeTree
      rw [if_pos hlc]
      exact r1
    -- `Remove` and `delete` of the child
    have hnxs : ∀ j, (m.heap c).m_next = some j → j ∈ s.ids :=
      fun j hj => Shape_ptr_mem m.heap _ _ _ s j hn hj
    have hr1 : m1.heap r = m.heap r ∧ m1.live r = m.live r := f1.frame r hrk hrc
    obtain ⟨m3, r3, b3, o3, dead3, live3, same3, pred3, down3⟩ :=
      FreeTree_step_spec m1 r c (m.heap c).m_next hrc (by rw [f1.root_rest.1]; exact hlc)
        (by rw [hr1.2]; exact hlr)
        (by
          intro j hj
          have hjs := hnxs j hj
          rw [(f1.frame j (fun e => hks j e hjs) (fun e => hcs (e ▸ hjs))).2]
          exact hlive j (hmem j (Or.inr (Or.inl hjs))))
        (by rw [f1.root_rest.2.2.2.1]; exact hup)
        (by rw [f1.root_rest.2.2.1]; exact hpred)
        f1.root_rest.2.1
        (by rw [hr1.1]; exact hp)
    -- the rest of the loop
    have hdown3 : (m3.heap r).m_down = (m.heap c).m_next := by
      rw [down3 r hrc, if_pos rfl]
    have hs3 : Shape m3.heap (m3.heap r).m_down (some r) none s := by
      rw [hdown3]
      cases s with
      | nil => exact hn
      | node j k2 s2 =>
        unfold Shape at hn ⊢
        obtain ⟨e1, e2, _, hk2, hn2⟩ := hn
        have hjs : j ∈ (Forest.node j k2 s2).ids := List.mem_cons_self _ _
        have hjc : j ≠ c := fun e => hcs (e ▸ hjs)
        have hjk : j ∉ k.ids := fun e => hks j e hjs
        have hjr : j ≠ r := fun e => hrs (e ▸ hjs)
        have hj1 : m1.heap j = m.heap j := (f1.frame j hjk hjc).1
        have hsame : ∀ x ∈ (Forest.node j k2 s2).ids, x ≠ j →
            (m3.heap x).m_next = (m.heap x).m_next ∧ (m3.heap x).m_pred = (m.heap x).m_pred ∧
            (m3.heap x).m_up = (m.heap x).m_up ∧ (m3.heap x).m_down = (m.heap x).m_down := by
          intro x hx hxj
          have hxc : x ≠ c := fun e => hcs (e ▸ hx)
          have hxk : x ∉ k.ids := fun e => hks x e hx
          have hxr : x ≠ r := fun e => hrs (e ▸ hx)
          have hx1 : m1.heap x = m.heap x := (f1.frame x hxk hxc).1
          refine ⟨?_, ?_, ?_, ?_⟩
          · rw [(same3 x hxc).1, hx1]
          · rw [pred3 x hxc, if_neg (fun e => hxj (by rw [e1] at e; cases e; rfl)), hx1]
          · rw [(same3 x hxc).2.1, hx1]
          · rw [down3 x hxc, if_neg hxr, hx1]
        have hnd2 : (j :: (k2.ids ++ s2.ids)).Nodup := (List.nodup_cons.1 hnds).2
        have hj2 : j ∉ k2.ids ++ s2.ids := (List.nodup_cons.1 hnd2).1
        refine ⟨e1, ?_, ?_, ?_, ?_⟩
        · rw [(same3 j hjc).2.1, hj1]; exact e2
        · rw [pred3 j hjc, if_pos e1]
        · rw [down3 j hjc, if_neg hjr, hj1]
          refine Shape_congr m.heap _ k2 _ _ _ ?_ hk2
          intro x hx
          have hx2 : x ∈ k2.ids ++ s2.ids := List.mem_append_left _ hx
          exact hsame x (List.mem_cons_of_mem _ hx2) (fun e => hj2 (e ▸ hx2))
        · rw [(same3 j hjc).1, hj1]
          refine Shape_congr m.heap _ s2 _ _ _ ?_ hn2
          intro x hx
          have hx2 : x ∈ k2.ids ++ s2.ids := List.mem_append_right _ hx
          exact hsame x (List.mem_cons_of_mem _ hx2) (fun e => hj2 (e ▸ hx2))
    obtain ⟨m4, r4, f4⟩ := ihs (F1 + 1) fuel1 m3 r hs3 hnds
      (by
        intro x hx
        have hxc : x ≠ c := by
          rintro rfl
          rcases List.mem_cons.1 hx with e | e
          · exact hrc e.symm
          · exact hcs e
        rw [live3 x hxc]
        rcases List.mem_cons.1 hx with e | e
        · rw [e, hr1.2]; exact hlr
        · rw [(f1.frame x (fun e1 => hks x e1 e) hxc).2]
          exact hlive x (hmem x (Or.inr (Or.inl e))))
      (by omega) (by omega)
    refine ⟨m4, ?_, ?_⟩
    · rw [hp]
      unfold FreeTree.loop
      rw [if_pos hlc]
      dsimp only
      rw [hrec]
      dsimp only
      cases hR : m1.Remove c with
      | ok m2 =>
        rw [hR] at r3
        dsimp only at r3 ⊢
        rw [r3]
        dsimp only
        rw [← hdown3]
        exact r4
      | fault => rw [hR] at r3; cases r3
      | timeout => rw [hR] at r3; cases r3
    · have hm3 : ∀ x, x ≠ c → x ≠ r → x ∉ s.ids →
          (m3.heap x).m_next = (m1.heap x).m_next ∧ (m3.heap x).m_pred = (m1.heap x).m_pred ∧
          (m3.heap x).m_up = (m1.heap x).m_up ∧ (m3.heap x).m_down = (m1.heap x).m_down ∧
          (m3.heap x).name = (m1.heap x).name ∧ (m3.heap x).opened = (m1.heap x).opened ∧
          (m3.heap x).selected = (m1.heap x).selected := by
        intro x hxc hxr hxs
        obtain ⟨s1, s2, s3, s4, s5⟩ := same3 x hxc
        refine ⟨s1, ?_, s2, ?_, s3, s4, s5⟩
        · rw [pred3 x hxc, if_neg (fun e => hxs (hnxs x e))]
        · rw [down3 x hxc, if_neg hxr]
      refine ⟨f4.brk.trans (b3.trans f1.brk), f4.oracle.trans (o3.trans f1.oracle), ?_,
        f4.root_down, ?_, ?_⟩
      · intro x hx
        by_cases hxs : x ∈ s.ids
        · exact f4.dead x hxs
        · simp only [Forest.ids, List.mem_cons, List.mem_append] at hx
          by_cases hxc : x = c
          · subst hxc
            obtain ⟨e1, e2⟩ := f4.frame x hxs (Ne.symm hrc)
            rw [e1, e2]
            exact dead3
          · have hxk : x ∈ k.ids := by
              rcases hx with e | e | e
              · exact absurd e hxc
              · exact e
              · exact absurd e hxs
            have hxr : x ≠ r := fun e => hrk (e ▸ hxk)
            obtain ⟨e1, e2⟩ := f4.frame x hxs hxr
            obtain ⟨d1, d2, d3, d4, d5⟩ := f1.dead x hxk
            obtain ⟨t1, t2, t3, t4, -⟩ := hm3 x hxc hxr hxs
            rw [e1, e2, live3 x hxc, t1, t2, t3, t4]
            exact ⟨d1, d2, d3, d4, d5⟩
      · obtain ⟨q1, q2, q3, q4, q5, q6, q7⟩ := f4.root_rest
        obtain ⟨s1, s2, s3, s4, s5⟩ := same3 r hrc
        rw [q1, q2, q3, q4, q5, q6, q7, live3 r hrc, hr1.2, s1, s2, s3, s4, s5,
          pred3 r hrc, if_neg (fun e => hrs (hnxs r e)), hr1.1]
        exact ⟨rfl, rfl, rfl, rfl, rfl, rfl, rfl⟩
      · intro x hx hxr
        simp only [Forest.ids, List.mem_cons, List.mem_append, not_or] at hx
        obtain ⟨hxc, hxk, hxs⟩ := hx
        obtain ⟨e1, e2⟩ := f4.frame x hxs hxr
        obtain ⟨g1, g2⟩ := f1.frame x hxk hxc
        obtain ⟨t1, t2, t3, t4, t5, t6, t7⟩ := hm3 x hxc hxr hxs
        refine ⟨?_, ?_⟩
        · rw [e1, ← g1]
          exact Node.ext t1 t2 t3 t4 t5 t6 t7
        · rw [e2, live3 x hxc, g2]

/-- C6: when a finite well-formed tree of live nodes hangs below a live `root`, `FreeTree(root)`
returns (with any fuel above the number of descendants); afterwards `root` has no first child,
every former strict descendant is destroyed, `root` is still live with its `m_next`, `m_pred`,
`m_up`, name, `opened` and `selected` unchanged, and every node outside the subtree is
unchanged. -/
theorem C6_freeTree_empties_and_keeps_root (m : Mem) (root : Nat) (t : Forest) (fuel : Nat)
    (ht : IsTree m.heap root t) (hroot : m.live root = true)
    (hlive : ∀ n, Desc m.heap root n → m.live n = true) (hfuel : t.size < fuel) :
    ∃ m1, FreeTree fuel m root = .ok m1 ∧
      (m1.heap root).m_down = none ∧
      (∀ n, Desc m.heap root n → m1.live n = false) ∧
      m1.live root = true ∧
      ((m1.heap root).m_next = (m.heap root).m_next ∧
        (m1.heap root).m_pred = (m.heap root).m_pred ∧
        (m1.heap root).m_up = (m.heap root).m_up ∧
        (m1.heap root).name = (m.heap root).name ∧
        (m1.heap root).opened = (m.heap root).opened ∧
        (m1.heap root).selected = (m.heap root).selected) ∧
      (∀ x, x ≠ root → ¬ Desc m.heap root x → m1.heap x = m.heap x ∧ m1.live x = m.live x) := by
  obtain ⟨hs, hnd⟩ := ht
  obtain ⟨f1, rfl⟩ : ∃ f1, fuel = f1 + 1 := ⟨fuel - 1, by omega⟩
  obtain ⟨m1, r1, fr⟩ := FreeTree_loop_spec t f1 f1 m root hs hnd
    (by
      intro x hx
      rcases List.mem_cons.1 hx with e | e
      · rw [e]; exact hroot
      · exact hlive x ((Desc_iff_mem m.heap root t _ _ hs x).2 e))
    (by omega) (by omega)
  refine ⟨m1, ?_, fr.root_down, ?_, ?_, ?_, ?_⟩
  · unfold FreeTree
    rw [if_pos hroot]
    exact r1
  · intro n hn
    exact (fr.dead n ((Desc_iff_mem m.heap root t _ _ hs n).1 hn)).1
  · rw [fr.root_rest.1]; exact hroot
  · exact fr.root_rest.2
  · intro x hx hd
    exact fr.frame x (fun e => hd ((Desc_iff_mem m.heap root t _ _ hs x).2 e)) hx

theorem treeABC_isTree : IsTree treeABC 0 forestABC :=
  ⟨⟨rfl, rfl, rfl, ⟨rfl, rfl, rfl, rfl, rfl, rfl, rfl, rfl, rfl⟩, rfl⟩, by decide⟩

theorem treeABC_desc (n : Nat) (hn : Desc treeABC 0 n) : n < 4 := by
  have := (Desc_iff_mem treeABC 0 forestABC _ _ treeABC_isTree.1 n).1 hn
  simp only [forestABC, Forest.ids, List.mem_cons, List.append_nil, List.nil_append,
    List.cons_append, List.mem_singleton, List.not_mem_nil, or_false] at this
  omega

theorem C6_freeTree_empties_and_keeps_root_witness :
    IsTree treeABC 0 forestABC ∧
    ∃ m1, FreeTree 4 (Mem.ofHeap treeABC 4) 0 = .ok m1 ∧ (m1.heap 0).m_down = none ∧
      m1.live 1 = false ∧ m1.live 3 = false ∧ m1.live 0 = true := by
  obtain ⟨m1, r1, d1, dead, lv, -, -⟩ :=
    C6_freeTree_empties_and_keeps_root (Mem.ofHeap treeABC 4) 0 forestABC 4 treeABC_isTree rfl
      (fun n hn => by
        have := treeABC_desc n hn
        simp [Mem.ofHeap, this])
      (by decide)
  exact ⟨treeABC_isTree, m1, r1, d1, dead 1 (Desc.child 1 rfl),
    dead 3 (Desc.next 2 3 (Desc.down 1 2 (Desc.child 1 rfl) rfl) rfl), lv⟩

theorem C10_selectAll_marks_strict_descendants_witness :
    IsTree treeABC 0 forestABC ∧
    ∃ h1, SelectAll 4 treeABC 0 true = some h1 ∧ (h1 3).selected = true ∧
      (h1 0).selected = (treeABC 0).selected := by
  obtain ⟨h1, r1, sel, root, -, -⟩ :=
    C10_selectAll_marks_strict_descendants treeABC 0 forestABC true 4 treeABC_isTree
      (by decide)
  exact ⟨treeABC_isTree, h1, r1,
    sel 3 (Desc.next 2 3 (Desc.down 1 2 (Desc.child 1 rfl) rfl) rfl), root⟩

/-! ## Child lists -/

theorem no_cycle_from_head (h : Heap) (hI : LinkInv h) (hd c : Nat)
    (hp : (h hd).m_pred = none) (hr : Relation.ReflTransGen (IsNext h) hd c) :
    ¬ Relation.TransGen (IsNext h) c c := by
  have back : ∀ w c, Relation.TransGen (IsNext h) c c → IsNext h w c →
      Relation.TransGen (IsNext h) w w := by
    intro w c hc hw
    rcases Relation.TransGen.tail'_iff.1 hc with ⟨w1, hcw, hw1⟩
    have : w1 = w := isNext_leftUnique h hI hw1 hw
    subst this
    exact Relation.TransGen.head' hw hcw
  induction hr with
  | refl =>
    intro hc
    rcases Relation.TransGen.tail'_iff.1 hc with ⟨w, _, hw⟩
    have := (hI.next_pred w hd).1 hw
    rw [hp] at this; cases this
  | tail _ hbc ih =>
    intro hc
    exact ih (back _ _ hc hbc)

theorem SibList_reach (h : Heap) : ∀ (cs : List Nat) (c : Nat), SibList h (some c) (c :: cs) →
    ∀ y ∈ cs, Relation.TransGen (IsNext h) c y := by
  intro cs
  induction cs with
  | nil => intro c _ y hy; cases hy
  | cons d cs ih =>
    intro c hs y hy
    unfold SibList at hs
    obtain ⟨-, hs1⟩ := hs
    have hcd : IsNext h c d := by
      unfold SibList at hs1
      exact hs1.1
    have hs2 : SibList h (some d) (d :: cs) := by
      unfold SibList at hs1 ⊢
      exact ⟨rfl, hs1.2⟩
    rcases List.mem_cons.1 hy with e | e
    · rw [e]; exact Relation.TransGen.single hcd
    · exact Relation.TransGen.head hcd (ih d hs2 y e)

theorem SibList_head (h : Heap) (p : Option Nat) (c : Nat) (cs : List Nat)
    (hs : SibList h p (c :: cs)) : p = some c ∧ SibList h (some c) (c :: cs) ∧
      SibList h (h c).m_next cs := by
  unfold SibList at hs
  refine ⟨hs.1, ?_, hs.2⟩
  unfold SibList
  exact ⟨rfl, hs.2⟩

theorem SibList_nodup_aux (h : Heap) (hI : LinkInv h) (hd : Nat) (hp : (h hd).m_pred = none) :
    ∀ (cs : List Nat) (c : Nat), Relation.ReflTransGen (IsNext h) hd c →
      SibList h (some c) (c :: cs) → (c :: cs).Nodup := by
  intro cs
  induction cs with
  | nil => intro c _ _; exact List.nodup_singleton c
  | cons d cs ih =>
    intro c hr hs
    obtain ⟨-, -, hs1⟩ := SibList_head h _ c _ hs
    obtain ⟨e1, hs2, -⟩ := SibList_head h _ d _ hs1
    refine List.nodup_cons.2 ⟨?_, ih d (hr.tail e1) hs2⟩
    intro hc
    exact no_cycle_from_head h hI hd c hp hr (SibList_reach h _ c hs c hc)

/-- The child list of a node has no repetition. -/
theorem SibList_nodup (h : Heap) (hI : LinkInv h) (r : Nat) (cs : List Nat)
    (hs : SibList h (h r).m_down cs) : cs.Nodup := by
  cases cs with
  | nil => exact List.nodup_nil
  | cons c cs =>
    obtain ⟨e1, hs1, -⟩ := SibList_head h _ c _ hs
    exact SibList_nodup_aux h hI c (hI.down_up r c e1).2 cs c Relation.ReflTransGen.refl hs1

theorem SibList_congr (h h1 : Heap) : ∀ (cs : List Nat) (p : Option Nat),
    (∀ y ∈ cs, (h1 y).m_next = (h y).m_next) → SibList h p cs → SibList h1 p cs := by
  intro cs
  induction cs with
  | nil => intro p _ hs; exact hs
  | cons c cs ih =>
    intro p hy hs
    unfold SibList at hs ⊢
    refine ⟨hs.1, ?_⟩
    rw [hy c (List.mem_cons_self _ _)]
    exact ih _ (fun y hy1 => hy y (List.mem_cons_of_mem _ hy1)) hs.2

/-- No node of a child list lies on a cycle of `m_next` links. -/
theorem SibList_acyclic (h : Heap) (hI : LinkInv h) (r : Nat) (cs : List Nat)
    (hs : SibList h (h r).m_down cs) : ∀ y ∈ cs, ¬ Relation.TransGen (IsNext h) y y := by
  cases cs with
  | nil => intro y hy; cases hy
  | cons c cs =>
    obtain ⟨e1, hs1, -⟩ := SibList_head h _ c _ hs
    intro y hy
    apply no_cycle_from_head h hI c y (hI.down_up r c e1).2
    rcases List.mem_cons.1 hy with e | e
    · rw [e]
    · exact (SibList_reach h cs c hs1 y e).to_reflTransGen

/-- `Remove` takes the node out of a child list and keeps the order of the others. -/
theorem SibList_Remove (h : Heap) (hI : LinkInv h) (n : Nat) : ∀ (cs : List Nat)
    (p : Option Nat), cs.Nodup → (∀ y ∈ cs, ¬ Relation.TransGen (IsNext h) y y) →
    SibList h p cs →
    SibList (Remove h n) (if p = some n then (h n).m_next else p) (cs.erase n) := by
  intro cs
  induction cs with
  | nil =>
    intro p _ _ hs
    unfold SibList at hs
    subst hs
    simp only [List.erase_nil, if_neg (by simp : ¬ (none : Option Nat) = some n)]
    unfold SibList
    rfl
  | cons c cs ih =>
    intro p hnd hac hs
    obtain ⟨e1, hs0, hs1⟩ := SibList_head h _ c _ hs
    obtain ⟨hc, hnd1⟩ := List.nodup_cons.1 hnd
    have hac1 : ∀ y ∈ cs, ¬ Relation.TransGen (IsNext h) y y :=
      fun y hy => hac y (List.mem_cons_of_mem _ hy)
    subst e1
    by_cases hcn : c = n
    · subst hcn
      rw [if_pos rfl, List.erase_cons_head]
      refine SibList_congr h _ cs _ ?_ hs1
      intro y hy
      have hyc : y ≠ c := fun e => hc (e ▸ hy)
      rw [(Remove_fields h c y).1, if_neg hyc]
      have : (h c).m_pred ≠ some y := by
        intro e
        have e2 : (h y).m_next = some c := (hI.next_pred y c).2 e
        exact hac c (List.mem_cons_self _ _)
          (Relation.TransGen.tail (SibList_reach h cs c hs0 y hy) e2)
      rw [if_neg this]
    · have hne : ¬ (some c = some n) := fun e => hcn (by cases e; rfl)
      rw [if_neg hne, List.erase_cons_tail (by simpa using hcn)]
      unfold SibList
      refine ⟨rfl, ?_⟩
      rw [(Remove_fields h n c).1, if_neg hcn]
      have := ih (h c).m_next hnd1 hac1 hs1
      by_cases c1 : (h n).m_pred = some c
      · rw [if_pos c1]
        have e2 : (h c).m_next = some n := (hI.next_pred c n).2 c1
        rw [e2, if_pos rfl] at this
        exact this
      · rw [if_neg c1]
        have e2 : (h c).m_next ≠ some n := fun e => c1 ((hI.next_pred c n).1 e)
        rw [if_neg e2] at this
        exact this

/-- On a list of siblings the loop of `GetDownLast` returns its last node. -/
theorem walk_SibList (h : Heap) : ∀ (cs : List Nat) (c l : Nat) (fuel : Nat),
    SibList h (some c) (c :: cs) → (c :: cs).getLast? = some l → cs.length < fuel →
    GetDownLast.walk fuel h c = some l := by
  intro cs
  induction cs with
  | nil =>
    intro c l fuel hs hl hfuel
    obtain ⟨-, -, hs1⟩ := SibList_head h _ c _ hs
    unfold SibList at hs1
    obtain ⟨f1, rfl⟩ : ∃ f1, fuel = f1 + 1 := ⟨fuel - 1, by simp at hfuel; omega⟩
    unfold GetDownLast.walk
    rw [hs1]
    simp only [List.getLast?_singleton] at hl
    exact hl
  | cons d cs ih =>
    intro c l fuel hs hl hfuel
    obtain ⟨-, -, hs1⟩ := SibList_head h _ c _ hs
    obtain ⟨e1, hs2, -⟩ := SibList_head h _ d _ hs1
    simp only [List.length_cons] at hfuel
    obtain ⟨f1, rfl⟩ : ∃ f1, fuel = f1 + 1 := ⟨fuel - 1, by omega⟩
    unfold GetDownLast.walk
    rw [e1]
    refine ih d l f1 hs2 ?_ (by omega)
    rw [List.getLast?_cons_cons] at hl
    exact hl

/-- `InsertAfter` behind the last node of a list of siblings appends the inserted node. -/
theorem SibList_InsertAfter_last (h : Heap) (x l : Nat) (hx : Detached h x) (hne : x ≠ l)
    (hnx : (h l).m_next = none) : ∀ (cs : List Nat) (p : Option Nat), SibList h p cs →
    cs.getLast? = some l → x ∉ cs → SibList (InsertAfter h x l) p (cs ++ [x]) := by
  have F := fun a => (InsertAfter_fields h x l a hx hne (by rw [hnx]; simp)).1
  intro cs
  induction cs with
  | nil => intro p _ hl _; cases hl
  | cons c cs ih =>
    intro p hs hl hxc
    obtain ⟨e1, -, hs1⟩ := SibList_head h _ c _ hs
    have hcx : c ≠ x := fun e => hxc (e ▸ List.mem_cons_self _ _)
    have hxcs : x ∉ cs := fun e => hxc (List.mem_cons_of_mem _ e)
    simp only [List.cons_append]
    unfold SibList
    refine ⟨e1, ?_⟩
    rw [F c]
    by_cases hcl : c = l
    · subst hcl
      rw [if_pos rfl]
      rw [hnx] at hs1
      cases cs with
      | nil =>
        simp only [List.nil_append]
        unfold SibList
        refine ⟨rfl, ?_⟩
        rw [F x, if_neg hne, if_pos rfl, hnx]
        unfold SibList
        rfl
      | cons d cs =>
        unfold SibList at hs1
        cases hs1.1
    · rw [if_neg hcl, if_neg hcx]
      cases cs with
      | nil =>
        simp only [List.getLast?_singleton] at hl
        cases hl
        exact absurd rfl hcl
      | cons d cs =>
        rw [List.getLast?_cons_cons] at hl
        exact ih _ hs1 hl hxcs

theorem GetDownLast_SibList (h : Heap) (r l fuel : Nat) (cs : List Nat)
    (hs : SibList h (h r).m_down cs) (hl : cs.getLast? = some l) (hfuel : cs.length ≤ fuel) :
    GetDownLast fuel h r = some (some l) := by
  cases cs with
  | nil => cases hl
  | cons c cs =>
    obtain ⟨e1, hs1, -⟩ := SibList_head h _ c _ hs
    unfold GetDownLast
    rw [e1]
    dsimp only
    rw [walk_SibList h cs c l fuel hs1 hl
      (by simp only [List.length_cons] at hfuel; omega)]
    rfl

/-- `InsertUnderLast` of a detached node appends it to the child list of `r`; apart from the
inserted node, `r` and the former last child nothing changes. -/
theorem InsertUnderLast_append (h : Heap) (hI : LinkInv h) (n r fuel : Nat) (cs : List Nat)
    (hdet : Detached h n) (hnr : n ≠ r) (hs : SibList h (h r).m_down cs) (hn : n ∉ cs)
    (hfuel : cs.length < fuel) :
    ∃ h2, InsertUnderLast fuel h n r = some h2 ∧ (h2 n).m_next = none ∧
      SibList h2 (h2 r).m_down (cs ++ [n]) ∧
      (∀ a, (h2 a).m_up = if a = n then some r else (h a).m_up) ∧
      (h2 n).m_down = (h n).m_down ∧
      (∀ a, a ≠ n → a ≠ r → a ∉ cs → h2 a = h a) := by
  cases cs with
  | nil =>
    unfold SibList at hs
    refine ⟨InsertUnder h n r, InsertUnderLast_of_empty h fuel n r hs, ?_, ?_, ?_, ?_, ?_⟩
    · unfold InsertUnder
      rw [hs]
      simp only [Heap.setUp_apply, Heap.setDown_apply]
      exact hdet.1
    · unfold InsertUnder
      rw [hs]
      simp only [List.nil_append]
      unfold SibList
      simp only [Heap.setUp_apply, Heap.setDown_apply, if_pos, true_and]
      rw [hdet.1]
      unfold SibList
      rfl
    · intro a
      unfold InsertUnder
      rw [hs]
      simp only [Heap.setUp_apply, Heap.setDown_apply]
    · unfold InsertUnder
      rw [hs]
      simp only [Heap.setUp_apply, Heap.setDown_apply, if_neg hnr]
    · intro a han har _
      unfold InsertUnder
      rw [hs]
      apply Node.ext <;> simp [han, har]
  | cons c cs =>
    obtain ⟨e1, hs1, -⟩ := SibList_head h _ c _ hs
    obtain ⟨l, hl⟩ : ∃ l, (c :: cs).getLast? = some l := by
      cases hq : (c :: cs).getLast? with
      | none => simp at hq
      | some l => exact ⟨l, rfl⟩
    have hw := walk_SibList h cs c l fuel hs1 hl
      (by simp only [List.length_cons] at hfuel; omega)
    obtain ⟨r1, hnx⟩ := walk_reaches h fuel c l hw
    have hlmem : l ∈ c :: cs := List.mem_of_getLast?_eq_some hl
    have hnl : n ≠ l := fun e => hn (e ▸ hlmem)
    have hup : (h l).m_up = some r := by
      rw [← reach_up h hI c l r1]; exact (hI.down_up r c e1).1
    have F := fun a => InsertAfter_fields h n l a hdet hnl (by rw [hnx]; simp)
    refine ⟨InsertAfter h n l, ?_, ?_, ?_, ?_, ?_, ?_⟩
    · rw [InsertUnderLast_of_down h fuel n r c e1, hw]
      rfl
    · rw [(F n).1, if_neg hnl, if_pos rfl, hnx]
    · rw [(F r).2.2.2.1]
      exact SibList_InsertAfter_last h n l hdet hnl hnx _ _ hs hl hn
    · intro a
      rw [(F a).2.2.1, hup]
    · exact (F n).2.2.2.1
    · intro a han _ hac
      have hal : a ≠ l := fun e => hac (e ▸ hlmem)
      obtain ⟨f1, f2, f3, f4, f5, f6, f7⟩ := F a
      apply Node.ext
      · rw [f1, if_neg hal, if_neg han]
      · rw [f2, if_neg han, hnx]; simp
      · rw [f3, if_neg han]
      · exact f4
      · exact f5
      · exact f6
      · exact f7

theorem not_ancestor_of_same_parent (h : Heap) (hI : LinkInv h) (d n : Nat)
    (he : (h d).m_up = (h n).m_up) : ¬ Ancestor h d n := by
  intro hd
  rcases Relation.TransGen.head'_iff.1 hd with ⟨q, hq, hqn⟩
  have hnq : IsParent h n q := by
    unfold IsParent at hq ⊢
    rw [← he]; exact hq
  exact hI.acyclic n (Relation.TransGen.head' hnq hqn)

/-- `Remove` changes no node below the removed node. -/
theorem Remove_frame_below (h : Heap) (hI : LinkInv h) (n d : Nat) (hd : Ancestor h d n) :
    Remove h n d = h d := by
  have hdn : d ≠ n := by
    rintro rfl
    exact hI.acyclic d hd
  have h1 : (h n).m_pred ≠ some d := by
    intro e
    exact not_ancestor_of_same_parent h hI d n (hI.next_up d n ((hI.next_pred d n).2 e)) hd
  have h2 : (h n).m_next ≠ some d := by
    intro e
    exact not_ancestor_of_same_parent h hI d n (hI.next_up n d e).symm hd
  have h3 : ¬ ((h n).m_up = some d ∧ (h d).m_down = some n) := by
    rintro ⟨e, -⟩
    exact hI.acyclic n (Relation.TransGen.head e hd)
  obtain ⟨f1, f2, f3, f4, f5, f6, f7⟩ := Remove_fields h n d
  apply Node.ext
  · rw [f1, if_neg hdn, if_neg h1]
  · rw [f2, if_neg hdn, if_neg h2]
  · rw [f3, if_neg hdn]
  · rw [f4, if_neg h3]
  · exact f5
  · exact f6
  · exact f7

/-- A strict descendant by `m_down` and `m_next` links has the node as a proper ancestor. -/
theorem Desc_ancestor (h : Heap) (hI : LinkInv h) (r n : Nat) (hd : Desc h r n) :
    Ancestor h n r := by
  induction hd with
  | child c hc => exact Relation.TransGen.single (hI.down_up r c hc).1
  | next a b _ hb ih =>
    rcases Relation.TransGen.head'_iff.1 ih with ⟨q, hq, hqr⟩
    refine Relation.TransGen.head' ?_ hqr
    unfold IsParent at hq ⊢
    rw [← hI.next_up a b hb]; exact hq
  | down a c _ hc ih => exact Relation.TransGen.head (hI.down_up a c hc).1 ih

theorem SibList_up (h : Heap) (hI : LinkInv h) (r : Nat) (cs : List Nat)
    (hs : SibList h (h r).m_down cs) : ∀ y ∈ cs, (h y).m_up = some r := by
  cases cs with
  | nil => intro y hy; cases hy
  | cons c cs =>
    obtain ⟨e1, hs1, -⟩ := SibList_head h _ c _ hs
    intro y hy
    have hcy : Relation.ReflTransGen (IsNext h) c y := by
      rcases List.mem_cons.1 hy with e | e
      · rw [e]
      · exact (SibList_reach h cs c hs1 y e).to_reflTransGen
    rw [← reach_up h hI c y hcy]
    exact (hI.down_up r c e1).1

theorem not_inSubtree_root (h : Heap) (x t : Nat) (hne : t ≠ x) (hup : (h t).m_up = none) :
    ¬ InSubtree h x t := by
  intro hs
  rcases Relation.ReflTransGen.cases_head hs with e | ⟨q, hq, _⟩
  · exact hne e
  · unfold IsParent at hq
    rw [hup] at hq; cases hq

theorem not_inSubtree_step (h : Heap) (x t q : Nat) (hne : t ≠ x) (hup : (h t).m_up = some q)
    (hq : ¬ InSubtree h x q) : ¬ InSubtree h x t := by
  intro hs
  rcases Relation.ReflTransGen.cases_head hs with e | ⟨q1, hq1, hq2⟩
  · exact hne e
  · unfold IsParent at hq1
    rw [hup] at hq1
    cases hq1
    exact hq hq2

theorem treeXYZ_inv : LinkInv treeXYZ := by
  have h2 : LinkInv (InsertAfter treeOne 2 1) :=
    LinkInv_InsertAfter treeOne 2 1 treeOne_inv ⟨rfl, rfl, rfl⟩ (by decide)
      (not_inSubtree_step _ 2 1 0 (by decide) rfl (not_inSubtree_root _ 2 0 (by decide) rfl))
  exact LinkInv_InsertAfter _ 3 2 h2 ⟨rfl, rfl, rfl⟩ (by decide)
    (not_inSubtree_step _ 3 2 0 (by decide) rfl (not_inSubtree_root _ 3 0 (by decide) rfl))

theorem treeABC_inv : LinkInv treeABC := by
  have h2 : LinkInv (InsertUnder treeOne 2 1) :=
    LinkInv_InsertUnder treeOne 2 1 treeOne_inv ⟨rfl, rfl, rfl⟩ (by decide)
      (not_inSubtree_step _ 2 1 0 (by decide) rfl (not_inSubtree_root _ 2 0 (by decide) rfl))
  exact LinkInv_InsertAfter _ 3 2 h2 ⟨rfl, rfl, rfl⟩ (by decide)
    (not_inSubtree_step _ 3 2 1 (by decide) rfl
      (not_inSubtree_step _ 3 1 0 (by decide) rfl (not_inSubtree_root _ 3 0 (by decide) rfl)))

/-! ## Detach and reattach -/

/-- C7 (as stated, refuted): in root `0` with children X, Y, Z (`1`, `2`, `3`), removing the
last child Z and reinserting it by `InsertUnderLast(root)` puts Z back behind Y: Z and Y belong
to one sibling chain before and after, and Y is again the previous sibling of Z. -/
theorem C7_child_of_root_rejoins_its_chain :
    TreeInv treeXYZ ∧ Ancestor treeXYZ 3 0 ∧
    InsertUnderLast 4 (Remove treeXYZ 3) 3 0 = some (InsertAfter (Remove treeXYZ 3) 3 2) ∧
    SameChain treeXYZ 3 2 ∧ SameChain (InsertAfter (Remove treeXYZ 3) 3 2) 3 2 ∧
    ((InsertAfter (Remove treeXYZ 3) 3 2) 2).m_next = some 3 ∧
    ((InsertAfter (Remove treeXYZ 3) 3 2) 3).m_pred = some 2 ∧
    ¬ (∀ s, s ≠ 3 → SameChain treeXYZ 3 s →
        ¬ SameChain (InsertAfter (Remove treeXYZ 3) 3 2) 3 s) :=
  ⟨(TreeInv_iff_LinkInv treeXYZ).2 treeXYZ_inv,
    Relation.TransGen.single (rfl : (treeXYZ 3).m_up = some 0), rfl,
    Relation.EqvGen.symm 2 3 (Relation.EqvGen.rel 2 3 (rfl : (treeXYZ 2).m_next = some 3)),
    Relation.EqvGen.symm 2 3 (Relation.EqvGen.rel 2 3
      (rfl : ((InsertAfter (Remove treeXYZ 3) 3 2) 2).m_next = some 3)),
    rfl, rfl,
    fun hall => hall 2 (by decide)
      (Relation.EqvGen.symm 2 3 (Relation.EqvGen.rel 2 3 (rfl : (treeXYZ 2).m_next = some 3)))
      (Relation.EqvGen.symm 2 3 (Relation.EqvGen.rel 2 3
        (rfl : ((InsertAfter (Remove treeXYZ 3) 3 2) 2).m_next = some 3)))⟩

/-- C7 (amended): for a heap satisfying the tree invariants, a node `r` with the finite child
list `cs` and a strict descendant `n` of `r`, `n.Remove()` followed by `n.InsertUnderLast(r)`
returns and afterwards `n.m_up = r`, `n.m_next = nullptr`, `GetDownLast(r) = n`, the children of
`r` are the former ones without `n` in their old order followed by `n`, the subtree of `n` is
unchanged, and `n` has left the chain of its former siblings whenever its former parent was not
`r`. -/
theorem C7_remove_then_insertUnderLast (h : Heap) (r n fuel : Nat) (cs : List Nat)
    (hT : TreeInv h) (hd : Ancestor h n r) (hcs : SibList h (h r).m_down cs)
    (hfuel : cs.length < fuel) :
    ∃ h2, InsertUnderLast fuel (Remove h n) n r = some h2 ∧
      (h2 n).m_up = some r ∧ (h2 n).m_next = none ∧
      GetDownLast fuel h2 r = some (some n) ∧
      ((h n).m_up ≠ some r → ∀ s, s ≠ n → SameChain h n s → ¬ SameChain h2 n s) ∧
      SibList h2 (h2 r).m_down (cs.erase n ++ [n]) ∧
      (h2 n).m_down = (h n).m_down ∧ (∀ d, Ancestor h d n → h2 d = h d) := by
  have hI := (TreeInv_iff_LinkInv h).1 hT
  have hI1 := LinkInv_Remove h n hI
  have hnr : n ≠ r := by
    rintro rfl
    exact hI.acyclic n hd
  have R := fun a => Remove_fields h n a
  have hdet : Detached (Remove h n) n :=
    ⟨by rw [(R n).1, if_pos rfl], by rw [(R n).2.1, if_pos rfl], by rw [(R n).2.2.1, if_pos rfl]⟩
  have hsubset : ∀ a b, IsParent (Remove h n) a b → IsParent h a b := by
    intro a b hab
    unfold IsParent at hab ⊢
    rw [(R a).2.2.1] at hab
    split_ifs at hab
    exact hab
  have hsub : ¬ InSubtree (Remove h n) n r := by
    intro hs
    have : Relation.ReflTransGen (IsParent h) r n := Relation.ReflTransGen.mono hsubset hs
    exact hI.acyclic n (Relation.TransGen.trans_left hd this)
  have hnd := SibList_nodup h hI r cs hcs
  have hdown1 : (Remove h n r).m_down =
      if (h r).m_down = some n then (h n).m_next else (h r).m_down := by
    rw [(R r).2.2.2.1]
    by_cases c1 : (h r).m_down = some n
    · rw [if_pos ⟨(hI.down_up r n c1).1, c1⟩, if_pos c1]
    · rw [if_neg (fun c => c1 c.2), if_neg c1]
  have hcs1 : SibList (Remove h n) (Remove h n r).m_down (cs.erase n) := by
    rw [hdown1]
    exact SibList_Remove h hI n cs _ hnd (SibList_acyclic h hI r cs hcs) hcs
  have hlen : (cs.erase n).length ≤ cs.length := (List.erase_sublist n cs).length_le
  obtain ⟨h2, run, nx2, sl2, up2, dn2, fr2⟩ :=
    InsertUnderLast_append (Remove h n) hI1 n r fuel (cs.erase n) hdet hnr hcs1
      (List.Nodup.not_mem_erase hnd) (by omega)
  have hI2 : LinkInv h2 := LinkInv_InsertUnderLast (Remove h n) h2 fuel n r hI1 hdet hnr hsub run
  refine ⟨h2, run, ?_, nx2, ?_, ?_, sl2, ?_, ?_⟩
  · rw [up2 n, if_pos rfl]
  · refine GetDownLast_SibList h2 r n fuel _ sl2 (by simp) ?_
    simp only [List.length_append, List.length_singleton]
    omega
  · intro hup s hsn hch hch2
    have e1 := ((TreeInv_iff_LinkInv h2).2 hI2).chain_up n s hch2
    rw [up2 n, if_pos rfl, up2 s, if_neg hsn, (R s).2.2.1, if_neg hsn] at e1
    have e2 := hT.chain_up n s hch
    exact hup (e2.trans e1.symm)
  · rw [dn2, (R n).2.2.2.1]
    have : ¬ ((h n).m_up = some n ∧ (h n).m_down = some n) := by
      rintro ⟨e, -⟩
      exact hI.acyclic n (Relation.TransGen.single e)
    rw [if_neg this]
  · intro d hdn
    have hdn1 : d ≠ n := by
      rintro rfl
      exact hI.acyclic d hdn
    have hdr : d ≠ r := by
      rintro rfl
      exact hI.acyclic n (Relation.TransGen.trans hd hdn)
    have hdc : d ∉ cs.erase n := by
      intro hmem
      have hup := SibList_up h hI r cs hcs d (List.mem_of_mem_erase hmem)
      rcases Relation.TransGen.head'_iff.1 hdn with ⟨q, hq, hqn⟩
      unfold IsParent at hq
      rw [hup] at hq
      cases hq
      exact hI.acyclic n (Relation.TransGen.trans_left hd hqn)
    rw [fr2 d hdn1 hdr hdc]
    exact Remove_frame_below h hI n d hdn

theorem C7_remove_then_insertUnderLast_witness :
    TreeInv treeABC ∧ Ancestor treeABC 2 0 ∧ SibList treeABC (treeABC 0).m_down [1] ∧
    (treeABC 2).m_up ≠ some 0 ∧
    ∃ h2, InsertUnderLast 4 (Remove treeABC 2) 2 0 = some h2 ∧
      (h2 2).m_up = some 0 ∧ (h2 2).m_next = none ∧ GetDownLast 4 h2 0 = some (some 2) ∧
      ¬ SameChain h2 2 3 ∧ SibList h2 (h2 0).m_down [1, 2] := by
  have hT : TreeInv treeABC := (TreeInv_iff_LinkInv treeABC).2 treeABC_inv
  have hanc : Ancestor treeABC 2 0 :=
    Relation.TransGen.tail (Relation.TransGen.single (rfl : (treeABC 2).m_up = some 1))
      (rfl : (treeABC 1).m_up = some 0)
  have hs : SibList treeABC (treeABC 0).m_down [1] := ⟨rfl, rfl⟩
  obtain ⟨h2, run, u, nx, gl, ch, sl, -, -⟩ :=
    C7_remove_then_insertUnderLast treeABC 0 2 4 [1] hT hanc hs (by decide)
  exact ⟨hT, hanc, hs, by decide, h2, run, u, nx, gl,
    ch (by decide) 3 (by decide)
      (Relation.EqvGen.rel 2 3 (rfl : (treeABC 2).m_next = some 3)), sl⟩

/-! ## Every bounded heap with the invariants carries finite trees -/

theorem SibList_exists_aux (h : Heap) (N : Nat) (hI : LinkInv h) (hB : Bounded h N) :
    ∀ (fuel : Nat) (seen : List Nat) (c : Nat), seen.Nodup → (∀ y ∈ seen, y < N) → c < N →
      c ∉ seen → (∀ z, (h c).m_pred = some z → z ∈ seen) →
      (∀ y ∈ seen, ∀ z, (h y).m_pred = some z → z ∈ seen) → N ≤ seen.length + fuel →
      ∃ cs, SibList h (some c) cs := by
  intro fuel
  induction fuel with
  | zero =>
    intro seen c hn hb hc hcs _ _ hlen
    have := length_le_of_nodup_of_lt (c :: seen) N (List.nodup_cons.2 ⟨hcs, hn⟩)
      (by
        intro y hy
        rcases List.mem_cons.1 hy with e | e
        · rw [e]; exact hc
        · exact hb y e)
    simp only [List.length_cons] at this
    omega
  | succ fuel ih =>
    intro seen c hn hb hc hcs hpc hcl hlen
    cases hnx : (h c).m_next with
    | none =>
      refine ⟨[c], ?_⟩
      unfold SibList
      refine ⟨rfl, ?_⟩
      rw [hnx]
      unfold SibList
      rfl
    | some n =>
      have hpn : (h n).m_pred = some c := (hI.next_pred c n).1 hnx
      obtain ⟨cs, hcs1⟩ := ih (c :: seen) n (List.nodup_cons.2 ⟨hcs, hn⟩)
        (by
          intro y hy
          rcases List.mem_cons.1 hy with e | e
          · rw [e]; exact hc
          · exact hb y e)
        (hB c n (Or.inl hnx))
        (by
          intro hmem
          rcases List.mem_cons.1 hmem with e | e
          · rw [e] at hpn
            exact hcs (hpc c hpn)
          · exact hcs (hcl n e c hpn))
        (by
          intro z hz
          rw [hpn] at hz
          cases hz
          exact List.mem_cons_self _ _)
        (by
          intro y hy z hz
          rcases List.mem_cons.1 hy with e | e
          · rw [e] at hz
            exact List.mem_cons_of_mem _ (hpc z hz)
          · exact List.mem_cons_of_mem _ (hcl y e z hz))
        (by simp only [List.length_cons]; omega)
      refine ⟨c :: cs, ?_⟩
      unfold SibList
      refine ⟨rfl, ?_⟩
      rw [hnx]
      exact hcs1

/-- In a bounded heap with the invariants every node has a finite child list. -/
theorem SibList_exists (h : Heap) (N r : Nat) (hI : LinkInv h) (hB : Bounded h N) :
    ∃ cs, SibList h (h r).m_down cs := by
  cases hd : (h r).m_down with
  | none => exact ⟨[], rfl⟩
  | some c =>
    apply SibList_exists_aux h N hI hB N [] c List.nodup_nil (by simp)
      (hB r c (Or.inr (Or.inr (Or.inr hd)))) (by simp)
    · intro z hz
      rw [(hI.down_up r c hd).2] at hz; cases hz
    · intro y hy
      cases hy
    · simp

theorem isParent_rightUnique (h : Heap) : Relator.RightUnique (IsParent h) := by
  intro a b c hab hac
  unfold IsParent at hab hac
  rw [hab] at hac
  cases hac; rfl

/-- Two different children of one node are not below each other. -/
theorem not_ancestor_of_child (h : Heap) (hI : LinkInv h) (r c d : Nat)
    (hc : (h c).m_up = some r) (hd : (h d).m_up = some r) : ¬ Ancestor h c d := by
  intro hcd
  rcases Relation.TransGen.head'_iff.1 hcd with ⟨q, hq, hqd⟩
  unfold IsParent at hq
  rw [hc] at hq
  cases hq
  exact hI.acyclic d (Relation.TransGen.head' hd hqd)

theorem disjoint_below_children (h : Heap) (hI : LinkInv h) (r c d x : Nat) (hcd : c ≠ d)
    (hc : (h c).m_up = some r) (hd : (h d).m_up = some r) (hxc : Ancestor h x c) :
    ¬ Ancestor h x d := by
  intro hxd
  rcases Relation.ReflTransGen.total_of_right_unique (isParent_rightUnique h)
    hxc.to_reflTransGen hxd.to_reflTransGen with t | t
  · rcases Relation.reflTransGen_iff_eq_or_transGen.1 t with e | e
    · exact hcd e.symm
    · exact not_ancestor_of_child h hI r c d hc hd e
  · rcases Relation.reflTransGen_iff_eq_or_transGen.1 t with e | e
    · exact hcd e
    · exact not_ancestor_of_child h hI r d c hd hc e

theorem Forest.size_eq_length (t : Forest) : t.size = t.ids.length := by
  induction t with
  | nil => rfl
  | node i k s ihk ihs =>
    simp only [Forest.size, Forest.ids, List.length_cons, List.length_append, ihk, ihs]

/-- Given a finite tree below every node of a sibling list, the list with these trees is a
finite forest of pairwise different nodes. -/
theorem Shape_of_SibList (h : Heap) (hI : LinkInv h) (r : Nat) : ∀ (cs : List Nat)
    (p q : Option Nat), SibList h p cs → cs.Nodup → (∀ c ∈ cs, (h c).m_up = some r) →
    (∀ c, p = some c → (h c).m_pred = q) →
    (∀ c ∈ cs, ∃ t, Shape h (h c).m_down (some c) none t ∧ (c :: t.ids).Nodup ∧
      ∀ x ∈ t.ids, Ancestor h x c) →
    ∃ t, Shape h p (some r) q t ∧ t.ids.Nodup ∧
      ∀ x ∈ t.ids, ∃ c ∈ cs, x = c ∨ Ancestor h x c := by
  intro cs
  induction cs with
  | nil =>
    intro p q hs _ _ _ _
    exact ⟨.nil, hs, List.nodup_nil, fun x hx => by cases hx⟩
  | cons c cs ih =>
    intro p q hs hnd hup hq hsub
    obtain ⟨e1, -, hs1⟩ := SibList_head h _ c _ hs
    obtain ⟨hc, hnd1⟩ := List.nodup_cons.1 hnd
    obtain ⟨tc, sc, ndc, ac⟩ := hsub c (List.mem_cons_self _ _)
    obtain ⟨ts, ss, nds, as⟩ := ih (h c).m_next (some c) hs1 hnd1
      (fun d hd => hup d (List.mem_cons_of_mem _ hd))
      (fun d hd => (hI.next_pred c d).1 hd)
      (fun d hd => hsub d (List.mem_cons_of_mem _ hd))
    have hcu := hup c (List.mem_cons_self _ _)
    refine ⟨.node c tc ts, ?_, ?_, ?_⟩
    · unfold Shape
      exact ⟨e1, hcu, hq c e1, sc, ss⟩
    · unfold Forest.ids
      refine List.nodup_cons.2 ⟨?_, List.nodup_append.2 ⟨(List.nodup_cons.1 ndc).2, nds, ?_⟩⟩
      · intro hmem
        rcases List.mem_append.1 hmem with e | e
        · exact (List.nodup_cons.1 ndc).1 e
        · obtain ⟨d, hd, hx⟩ := as c e
          rcases hx with rfl | hx
          · exact hc hd
          · exact not_ancestor_of_child h hI r c d hcu (hup d (List.mem_cons_of_mem _ hd)) hx
      · intro x hxk hxs
        obtain ⟨d, hd, hx⟩ := as x hxs
        have hdu := hup d (List.mem_cons_of_mem _ hd)
        have hcd : c ≠ d := fun e => hc (e ▸ hd)
        rcases hx with rfl | hx
        · exact not_ancestor_of_child h hI r x c hdu hcu (ac x hxk)
        · exact disjoint_below_children h hI r c d x hcd hcu hdu (ac x hxk) hx
    · intro x hx
      unfold Forest.ids at hx
      rcases List.mem_cons.1 hx with e | e
      · exact ⟨c, List.mem_cons_self _ _, Or.inl e⟩
      · rcases List.mem_append.1 e with e | e
        · exact ⟨c, List.mem_cons_self _ _, Or.inr (ac x e)⟩
        · obtain ⟨d, hd, hx1⟩ := as x e
          exact ⟨d, List.mem_cons_of_mem _ hd, hx1⟩

theorem child_lt_of_SibList (h : Heap) (N r : Nat) (hB : Bounded h N) (cs : List Nat)
    (hs : SibList h (h r).m_down cs) : ∀ c ∈ cs, c < N := by
  cases cs with
  | nil => intro c hc; cases hc
  | cons c0 cs0 =>
    obtain ⟨e1, hs1, -⟩ := SibList_head h _ c0 _ hs
    intro c hc
    rcases List.mem_cons.1 hc with e | e
    · rw [e]; exact hB r c0 (Or.inr (Or.inr (Or.inr e1)))
    · rcases Relation.TransGen.tail'_iff.1 (SibList_reach h cs0 c0 hs1 c e) with ⟨w, _, hw⟩
      exact hB w c (Or.inl hw)

theorem isTree_of_inv_aux (h : Heap) (N : Nat) (hI : LinkInv h) (hB : Bounded h N) :
    ∀ (k : Nat) (anc : List Nat) (r : Nat), anc.Nodup → (∀ y ∈ anc, y < N) → r < N →
      (∀ y ∈ anc, Ancestor h r y) → N ≤ anc.length + k →
      ∃ t, Shape h (h r).m_down (some r) none t ∧ (r :: t.ids).Nodup ∧
        ∀ x ∈ t.ids, Ancestor h x r := by
  intro k
  induction k with
  | zero =>
    intro anc r hn hb hr hanc hlen
    have hra : r ∉ anc := fun e => hI.acyclic r (hanc r e)
    have := length_le_of_nodup_of_lt (r :: anc) N (List.nodup_cons.2 ⟨hra, hn⟩)
      (by
        intro y hy
        rcases List.mem_cons.1 hy with e | e
        · rw [e]; exact hr
        · exact hb y e)
    simp only [List.length_cons] at this
    omega
  | succ k ih =>
    intro anc r hn hb hr hanc hlen
    have hra : r ∉ anc := fun e => hI.acyclic r (hanc r e)
    obtain ⟨cs, hcs⟩ := SibList_exists h N r hI hB
    have hup := SibList_up h hI r cs hcs
    have hsub : ∀ c ∈ cs, ∃ t, Shape h (h c).m_down (some c) none t ∧ (c :: t.ids).Nodup ∧
        ∀ x ∈ t.ids, Ancestor h x c := by
      intro c hc
      have hcu : IsParent h c r := hup c hc
      apply ih (r :: anc) c (List.nodup_cons.2 ⟨hra, hn⟩)
      · intro y hy
        rcases List.mem_cons.1 hy with e | e
        · rw [e]; exact hr
        · exact hb y e
      · exact child_lt_of_SibList h N r hB cs hcs c hc
      · intro y hy
        rcases List.mem_cons.1 hy with e | e
        · rw [e]; exact Relation.TransGen.single hcu
        · exact Relation.TransGen.head hcu (hanc y e)
      · simp only [List.length_cons]; omega
    obtain ⟨t, st, ndt, at1⟩ := Shape_of_SibList h hI r cs _ none hcs
      (SibList_nodup h hI r cs hcs) hup (fun c hc => (hI.down_up r c hc).2) hsub
    have hdesc : ∀ x ∈ t.ids, Ancestor h x r := by
      intro x hx
      obtain ⟨c, hc, hxc⟩ := at1 x hx
      rcases hxc with rfl | hxc
      · exact Relation.TransGen.single (hup x hc)
      · exact Relation.TransGen.tail hxc (hup c hc)
    refine ⟨t, st, List.nodup_cons.2 ⟨?_, ndt⟩, hdesc⟩
    intro hmem
    exact hI.acyclic r (hdesc r hmem)

/-- In a bounded heap that satisfies the tree invariants, a finite well-formed tree hangs below
every node, and it has at most `N` nodes. -/
theorem isTree_of_inv (h : Heap) (N r : Nat) (hT : TreeInv h) (hB : Bounded h N) :
    ∃ t, IsTree h r t ∧ t.size ≤ N := by
  have hI := (TreeInv_iff_LinkInv h).1 hT
  have hB1 : Bounded h (max N (r + 1)) := Bounded_mono h _ _ hB (by omega)
  obtain ⟨t, st, nd, -⟩ := isTree_of_inv_aux h (max N (r + 1)) hI hB1 (max N (r + 1)) [] r
    List.nodup_nil (by simp) (by omega) (by simp) (by simp)
  refine ⟨t, ⟨st, nd⟩, ?_⟩
  rw [Forest.size_eq_length]
  apply length_le_of_nodup_of_lt _ _ (List.nodup_cons.1 nd).2
  exact Shape_reach h (fun x => x < N) (fun a b _ hb => hB a b (Or.inl hb))
    (fun a c _ hc => hB a c (Or.inr (Or.inr (Or.inr hc)))) t _ _ _ st
    (fun c hc => hB r c (Or.inr (Or.inr (Or.inr hc))))

/-! ## Insertion next to a sibling -/

/-- C11: for a heap satisfying the tree invariants, a detached node `n` and another node `succ`,
after `n.InsertBefore(succ)`: `n.m_next = succ`, `succ.m_pred = n`, `n.m_pred` is the former
`succ.m_pred` (whose `m_next` is now `n`, if it exists), `n.m_up = succ.m_up`; if `succ` was the
head of its chain under a parent `p` then `p.m_down = n`, and the `m_down` link of every other
node is unchanged. -/
theorem C11_insertBefore_splices_and_moves_head (h : Heap) (n succ : Nat) (hT : TreeInv h)
    (hdet : Detached h n) (hne : n ≠ succ) :
    (InsertBefore h n succ n).m_next = some succ ∧
    (InsertBefore h n succ succ).m_pred = some n ∧
    (InsertBefore h n succ n).m_pred = (h succ).m_pred ∧
    (∀ a, (h succ).m_pred = some a → (InsertBefore h n succ a).m_next = some n) ∧
    (InsertBefore h n succ n).m_up = (h succ).m_up ∧
    (∀ p, (h succ).m_pred = none → (h succ).m_up = some p →
      (InsertBefore h n succ p).m_down = some n) ∧
    (∀ q, ¬ ((h succ).m_pred = none ∧ (h succ).m_up = some q) →
      (InsertBefore h n succ q).m_down = (h q).m_down) := by
  have hI := (TreeInv_iff_LinkInv h).1 hT
  have D := detached_not_target h n hI hdet
  have F := fun a => InsertBefore_fields h n succ a hdet hne (D succ).2.1
  refine ⟨?_, ?_, ?_, ?_, ?_, ?_, ?_⟩
  · rw [(F n).1, if_pos rfl]
  · rw [(F succ).2.1, if_pos rfl]
  · rw [(F n).2.1, if_neg hne, if_pos rfl]
  · intro a ha
    have han : a ≠ n := fun e => (D succ).2.1 (e ▸ ha)
    rw [(F a).1, if_neg han, if_pos ha]
  · rw [(F n).2.2.1, if_pos rfl]
  · intro p hp hu
    rw [(F p).2.2.2.1, if_pos ⟨hp, hu⟩]
  · intro q hq
    rw [(F q).2.2.2.1, if_neg hq]

theorem C11_insertBefore_splices_and_moves_head_witness :
    TreeInv treeXYZ ∧ Detached treeXYZ 4 ∧
    (InsertBefore treeXYZ 4 1 4).m_next = some 1 ∧ (InsertBefore treeXYZ 4 1 1).m_pred = some 4 ∧
    (InsertBefore treeXYZ 4 1 4).m_up = some 0 ∧ (InsertBefore treeXYZ 4 1 0).m_down = some 4 := by
  have hT : TreeInv treeXYZ := (TreeInv_iff_LinkInv treeXYZ).2 treeXYZ_inv
  have hd : Detached treeXYZ 4 := ⟨rfl, rfl, rfl⟩
  obtain ⟨c1, c2, -, -, c5, c6, -⟩ :=
    C11_insertBefore_splices_and_moves_head treeXYZ 4 1 hT hd (by decide)
  exact ⟨hT, hd, c1, c2, c5, c6 0 rfl rfl⟩

/-- C12: for a heap satisfying the tree invariants, a detached node `n` and another node `pred`,
after `n.InsertAfter(pred)`: `pred.m_next = n`, `n.m_pred = pred`, `n.m_next` is the former
`pred.m_next` (whose `m_pred` is now `n`, if it exists), `n.m_up = pred.m_up`, and the `m_down`
link of every node is unchanged. -/
theorem C12_insertAfter_splices_and_keeps_head (h : Heap) (n pred : Nat) (hT : TreeInv h)
    (hdet : Detached h n) (hne : n ≠ pred) :
    (InsertAfter h n pred pred).m_next = some n ∧
    (InsertAfter h n pred n).m_pred = some pred ∧
    (InsertAfter h n pred n).m_next = (h pred).m_next ∧
    (∀ b, (h pred).m_next = some b → (InsertAfter h n pred b).m_pred = some n) ∧
    (InsertAfter h n pred n).m_up = (h pred).m_up ∧
    (∀ q, (InsertAfter h n pred q).m_down = (h q).m_down) := by
  have hI := (TreeInv_iff_LinkInv h).1 hT
  have D := detached_not_target h n hI hdet
  have F := fun a => InsertAfter_fields h n pred a hdet hne (D pred).1
  refine ⟨?_, ?_, ?_, ?_, ?_, ?_⟩
  · rw [(F pred).1, if_pos rfl]
  · rw [(F n).2.1, if_pos rfl]
  · rw [(F n).1, if_neg hne, if_pos rfl]
  · intro b hb
    have hbn : b ≠ n := fun e => (D pred).1 (e ▸ hb)
    rw [(F b).2.1, if_neg hbn, if_pos hb]
  · rw [(F n).2.2.1, if_pos rfl]
  · intro q
    exact (F q).2.2.2.1

theorem C12_insertAfter_splices_and_keeps_head_witness :
    TreeInv treeXYZ ∧ Detached treeXYZ 4 ∧
    (InsertAfter treeXYZ 4 1 1).m_next = some 4 ∧ (InsertAfter treeXYZ 4 1 4).m_next = some 2 ∧
    (InsertAfter treeXYZ 4 1 2).m_pred = some 4 ∧ (InsertAfter treeXYZ 4 1 4).m_up = some 0 ∧
    (InsertAfter treeXYZ 4 1 0).m_down = some 1 := by
  have hT : TreeInv treeXYZ := (TreeInv_iff_LinkInv treeXYZ).2 treeXYZ_inv
  have hd : Detached treeXYZ 4 := ⟨rfl, rfl, rfl⟩
  obtain ⟨c1, -, c3, c4, c5, c6⟩ :=
    C12_insertAfter_splices_and_keeps_head treeXYZ 4 1 hT hd (by decide)
  exact ⟨hT, hd, c1, c3, c4 2 rfl, c5, c6 0⟩

/-! ## Insertion below a parent -/

/-- `InsertUnder` of a detached node puts it in front of the child list. -/
theorem InsertUnder_prepend (h : Heap) (hI : LinkInv h) (n p : Nat) (cs : List Nat)
    (hdet : Detached h n) (hs : SibList h (h p).m_down cs) :
    SibList (InsertUnder h n p) ((InsertUnder h n p) p).m_down (n :: cs) ∧
      ((InsertUnder h n p) n).m_up = some p := by
  have D := detached_not_target h n hI hdet
  have hup := SibList_up h hI p cs hs
  have hncs : ∀ y ∈ cs, y ≠ n := by
    intro y hy e
    have := hup y hy
    rw [e, hdet.2.2] at this
    cases this
  cases cs with
  | nil =>
    unfold SibList at hs
    unfold InsertUnder
    rw [hs]
    simp only [Heap.setUp_apply, Heap.setDown_apply, if_pos, and_true]
    unfold SibList
    simp only [Heap.setUp_apply, Heap.setDown_apply, true_and]
    rw [hdet.1]
    unfold SibList
    rfl
  | cons d cs =>
    obtain ⟨e1, hs1, -⟩ := SibList_head h _ d _ hs
    have hnd : n ≠ d := fun e => hncs d (List.mem_cons_self _ _) e.symm
    obtain ⟨u1, u2⟩ := hI.down_up p d e1
    have F := fun a => InsertBefore_fields h n d a hdet hnd (D d).2.1
    unfold InsertUnder
    rw [e1]
    dsimp only
    refine ⟨?_, ?_⟩
    · rw [(F p).2.2.2.1, if_pos ⟨u2, u1⟩]
      unfold SibList
      refine ⟨rfl, ?_⟩
      rw [(F n).1, if_pos rfl]
      refine SibList_congr h _ (d :: cs) _ ?_ hs1
      intro y hy
      rw [(F y).1, if_neg (hncs y hy), u2]
      simp
    · rw [(F n).2.2.1, if_pos rfl]
      exact u1

/-- C13: for a heap satisfying the tree invariants, a node `p` with the finite child list `cs`
and a detached node `n` other than `p`: `n.InsertUnderLast(p)` returns and the children of `p`
are then `cs ++ [n]`; after `n.InsertUnder(p)` instead they are `n :: cs`; in both cases
`n.m_up = p`. -/
theorem C13_insertUnderLast_appends_insertUnder_prepends (h : Heap) (p n fuel : Nat)
    (cs : List Nat) (hT : TreeInv h) (hdet : Detached h n) (hne : n ≠ p)
    (hcs : SibList h (h p).m_down cs) (hfuel : cs.length < fuel) :
    (∃ h2, InsertUnderLast fuel h n p = some h2 ∧ SibList h2 (h2 p).m_down (cs ++ [n]) ∧
      (h2 n).m_up = some p) ∧
    (SibList (InsertUnder h n p) ((InsertUnder h n p) p).m_down (n :: cs) ∧
      ((InsertUnder h n p) n).m_up = some p) := by
  have hI := (TreeInv_iff_LinkInv h).1 hT
  have hncs : n ∉ cs := by
    intro hmem
    have := SibList_up h hI p cs hcs n hmem
    rw [hdet.2.2] at this
    cases this
  refine ⟨?_, InsertUnder_prepend h hI n p cs hdet hcs⟩
  obtain ⟨h2, run, -, sl, up2, -, -⟩ :=
    InsertUnderLast_append h hI n p fuel cs hdet hne hcs hncs hfuel
  exact ⟨h2, run, sl, by rw [up2 n, if_pos rfl]⟩

theorem C13_insertUnderLast_appends_insertUnder_prepends_witness :
    TreeInv treeXYZ ∧ Detached treeXYZ 4 ∧ SibList treeXYZ (treeXYZ 0).m_down [1, 2, 3] ∧
    (∃ h2, InsertUnderLast 4 treeXYZ 4 0 = some h2 ∧ SibList h2 (h2 0).m_down [1, 2, 3, 4] ∧
      (h2 4).m_up = some 0) ∧
    SibList (InsertUnder treeXYZ 4 0) ((InsertUnder treeXYZ 4 0) 0).m_down [4, 1, 2, 3] := by
  have hT : TreeInv treeXYZ := (TreeInv_iff_LinkInv treeXYZ).2 treeXYZ_inv
  have hd : Detached treeXYZ 4 := ⟨rfl, rfl, rfl⟩
  have hs : SibList treeXYZ (treeXYZ 0).m_down [1, 2, 3] := ⟨rfl, rfl, rfl, rfl⟩
  obtain ⟨c1, c2, -⟩ :=
    C13_insertUnderLast_appends_insertUnder_prepends treeXYZ 0 4 4 [1, 2, 3] hT hd (by decide)
      hs (by decide)
  exact ⟨hT, hd, hs, c1, c2⟩

/-! ## `Remove`: neighbours and frame -/

/-- C15: for a heap satisfying the tree invariants with acyclic sibling chains and a node `n`
with former previous sibling `a`, next sibling `b` and parent `p`, after `n.Remove()`:
`a.m_next = b`, `b.m_pred = a`, `p.m_down = b` if `n` was the first child of `p` and is unchanged
otherwise; `n.m_down` and every node below `n` are unchanged; every other link of every other node
and every payload field are unchanged. -/
theorem C15_remove_relinks_neighbours (h : Heap) (n : Nat) (hT : TreeInv h)
    (hC : ChainAcyclic h) :
    (∀ a, (h n).m_pred = some a → (Remove h n a).m_next = (h n).m_next) ∧
    (∀ b, (h n).m_next = some b → (Remove h n b).m_pred = (h n).m_pred) ∧
    (∀ p, (h n).m_up = some p →
      (Remove h n p).m_down = if (h p).m_down = some n then (h n).m_next else (h p).m_down) ∧
    (Remove h n n).m_down = (h n).m_down ∧
    (∀ d, Ancestor h d n → Remove h n d = h d) ∧
    (∀ x, x ≠ n →
      ((h n).m_pred ≠ some x → (Remove h n x).m_next = (h x).m_next) ∧
      ((h n).m_next ≠ some x → (Remove h n x).m_pred = (h x).m_pred) ∧
      (Remove h n x).m_up = (h x).m_up ∧
      (¬ ((h n).m_up = some x ∧ (h x).m_down = some n) →
        (Remove h n x).m_down = (h x).m_down)) ∧
    (∀ x, (Remove h n x).name = (h x).name ∧ (Remove h n x).opened = (h x).opened ∧
      (Remove h n x).selected = (h x).selected) := by
  have hI := (TreeInv_iff_LinkInv h).1 hT
  have F := fun a => Remove_fields h n a
  have hself : (h n).m_next ≠ some n := fun e => hC n (Relation.TransGen.single e)
  have hself2 : (h n).m_pred ≠ some n := fun e => hself ((hI.next_pred n n).2 e)
  have hup : (h n).m_up ≠ some n := fun e => hI.acyclic n (Relation.TransGen.single e)
  refine ⟨?_, ?_, ?_, ?_, ?_, ?_, ?_⟩
  · intro a ha
    have han : a ≠ n := fun e => hself2 (e ▸ ha)
    rw [(F a).1, if_neg han, if_pos ha]
  · intro b hb
    have hbn : b ≠ n := fun e => hself (e ▸ hb)
    rw [(F b).2.1, if_neg hbn, if_pos hb]
  · intro p hp
    rw [(F p).2.2.2.1]
    by_cases c : (h p).m_down = some n
    · rw [if_pos ⟨hp, c⟩, if_pos c]
    · rw [if_neg (fun e => c e.2), if_neg c]
  · rw [(F n).2.2.2.1, if_neg (fun e => hup e.1)]
  · intro d hd
    exact Remove_frame_below h hI n d hd
  · intro x hx
    refine ⟨?_, ?_, ?_, ?_⟩
    · intro e
      rw [(F x).1, if_neg hx, if_neg e]
    · intro e
      rw [(F x).2.1, if_neg hx, if_neg e]
    · rw [(F x).2.2.1, if_neg hx]
    · intro e
      rw [(F x).2.2.2.1, if_neg e]
  · intro x
    exact ⟨(F x).2.2.2.2.1, (F x).2.2.2.2.2.1, (F x).2.2.2.2.2.2⟩

theorem chainAcyclic_of_rank (h : Heap) (f : Nat → Nat)
    (hf : ∀ a b, (h a).m_next = some b → f a < f b) : ChainAcyclic h := by
  have mono : ∀ a b, Relation.TransGen (IsNext h) a b → f a < f b := by
    intro a b hab
    induction hab with
    | single e => exact hf _ _ e
    | tail _ e ih => exact Nat.lt_trans ih (hf _ _ e)
  intro x hx
  exact Nat.lt_irrefl _ (mono x x hx)

theorem treeXYZ_next (a b : Nat) (e : (treeXYZ a).m_next = some b) : a < b := by
  by_cases h1 : a = 1
  · subst h1; cases e; decide
  · by_cases h2 : a = 2
    · subst h2; cases e; decide
    · by_cases h3 : a = 3
      · subst h3; cases e
      · by_cases h0 : a = 0
        · subst h0; cases e
        · simp [treeXYZ, InsertAfter, InsertUnder, blank, Node.mk1, Heap.setNext, Heap.setPred, Heap.setUp, Heap.setDown, Heap.modify, h0, h1, h2, h3] at e

theorem treeXYZ_chainAcyclic : ChainAcyclic treeXYZ :=
  chainAcyclic_of_rank treeXYZ id treeXYZ_next

theorem C15_remove_relinks_neighbours_witness :
    TreeInv treeXYZ ∧ ChainAcyclic treeXYZ ∧
    (Remove treeXYZ 2 1).m_next = some 3 ∧ (Remove treeXYZ 2 3).m_pred = some 1 ∧
    (Remove treeXYZ 2 0).m_down = some 1 ∧ (Remove treeXYZ 2 3).m_next = (treeXYZ 3).m_next := by
  have hT : TreeInv treeXYZ := (TreeInv_iff_LinkInv treeXYZ).2 treeXYZ_inv
  obtain ⟨c1, c2, c3, -, -, c6, -⟩ := C15_remove_relinks_neighbours treeXYZ 2 hT
    treeXYZ_chainAcyclic
  exact ⟨hT, treeXYZ_chainAcyclic, c1 1 rfl, c2 3 rfl, c3 0 rfl,
    (c6 3 (by decide)).1 (by decide)⟩

/-! ## `CreateCopy` under allocation failure -/

theorem alloc_of_false (m : Mem) (rest : List Bool) (ho : m.oracle = false :: rest) :
    m.alloc = ({ m with oracle := rest }, none) := by
  unfold Mem.alloc
  rw [ho]

theorem alloc_of_true (m : Mem) (rest : List Bool) (ho : m.oracle = true :: rest) :
    m.alloc = ({ heap := fun q => if q = m.brk then Node.mk1 "" else m.heap q,
                 live := fun q => if q = m.brk then true else m.live q,
                 brk := m.brk + 1,
                 oracle := rest }, some m.brk) := by
  unfold Mem.alloc
  rw [ho]
  rfl

/-- When the `k + 1`-st allocation fails, `CreateCopy(true)` of a node with a child (or, for
`k = 0`, of any node) returns `nullptr`, and the `k` nodes allocated on the way are destroyed
again while no other address changes. -/
theorem CreateCopy_fails_clean : ∀ (k fuel : Nat) (m : Mem) (this : Nat) (rest : List Bool),
    m.live this = true → this < m.brk → m.oracle = List.replicate k true ++ false :: rest →
    (k = 0 ∨ (m.heap this).m_down ≠ none) → k < fuel →
    ∃ m1, CreateCopy fuel m this true = .ok (m1, none) ∧ m1.oracle = rest ∧
      m1.brk = m.brk + k ∧ (∀ q, m.brk ≤ q → q < m.brk + k → m1.live q = false) ∧
      (∀ q, (q < m.brk ∨ m.brk + k ≤ q) → m1.heap q = m.heap q ∧ m1.live q = m.live q) := by
  intro k
  induction k with
  | zero =>
    intro fuel m this rest hl hb ho _ hfuel
    obtain ⟨f, rfl⟩ : ∃ f, fuel = f + 1 := ⟨fuel - 1, by omega⟩
    simp only [List.replicate_zero, List.nil_append] at ho
    refine ⟨{ m with oracle := rest }, ?_, rfl, rfl, ?_, ?_⟩
    · unfold CreateCopy
      rw [if_pos hl]
      unfold AllocShallowCopy
      rw [alloc_of_false m rest ho]
    · intro q h1 h2
      omega
    · intro q _
      exact ⟨rfl, rfl⟩
  | succ k ih =>
    intro fuel m this rest hl hb ho hd hfuel
    obtain ⟨f, rfl⟩ : ∃ f, fuel = f + 2 := ⟨fuel - 2, by omega⟩
    have hd1 : (m.heap this).m_down ≠ none := by
      rcases hd with e | e
      · omega
      · exact e
    have ho1 : m.oracle = true :: (List.replicate k true ++ false :: rest) := by
      rw [ho, List.replicate_succ, List.cons_append]
    have hne : this ≠ m.brk := Nat.ne_of_lt hb
    -- the state after the allocation and `CopyFrom`
    obtain ⟨m2, hm2⟩ : ∃ m2 : Mem, m2 =
        { heap := CopyFrom (fun q => if q = m.brk then Node.mk1 "" else m.heap q) m.brk this,
          live := fun q => if q = m.brk then true else m.live q,
          brk := m.brk + 1,
          oracle := List.replicate k true ++ false :: rest } := ⟨_, rfl⟩
    have h2heap : ∀ q, q ≠ m.brk → m2.heap q = m.heap q := by
      intro q hq
      rw [hm2]
      simp [CopyFrom, Heap.modify, hq]
    have h2links : (m2.heap m.brk).m_down = none := by
      rw [hm2]
      simp [CopyFrom, Heap.modify, Node.mk1]
    have h2live : ∀ q, m2.live q = if q = m.brk then true else m.live q := by
      intro q
      rw [hm2]
    have h2brk : m2.brk = m.brk + 1 := by rw [hm2]
    obtain ⟨m3, r3, o3, b3, dead3, fr3⟩ := ih (f + 1) m2 this rest
      (by rw [h2live, if_neg hne]; exact hl) (by rw [h2brk]; omega) (by rw [hm2])
      (Or.inr (by rw [h2heap this hne]; exact hd1)) (by omega)
    have h3copy := fr3 m.brk (Or.inl (by rw [h2brk]; omega))
    have h3live : m3.live m.brk = true := by
      rw [h3copy.2, h2live, if_pos rfl]
    have h3down : (m3.heap m.brk).m_down = none := by
      rw [h3copy.1]; exact h2links
    refine ⟨{ m3 with
        heap := (((m3.heap.setDown m.brk none).setUp m.brk none).setPred m.brk none).setNext
          m.brk none,
        live := fun q => if q = m.brk then false else m3.live q }, ?_, o3, ?_, ?_, ?_⟩
    · unfold CreateCopy
      rw [if_pos hl]
      unfold AllocShallowCopy
      rw [alloc_of_true m _ ho1]
      dsimp only
      rw [← hm2]
      rw [if_pos rfl]
      obtain ⟨d, hdd⟩ : ∃ d, (m2.heap this).m_down = some d := by
        rw [h2heap this hne]
        cases hq : (m.heap this).m_down with
        | none => exact absurd hq hd1
        | some d => exact ⟨d, rfl⟩
      have hdd1 : (CopyFrom (fun q => if q = m.brk then Node.mk1 "" else m.heap q) m.brk
          this this).m_down = some d := by
        rw [← hdd, hm2]
      rw [hdd1]
      unfold CreateCopy.loop
      rw [r3]
      dsimp only
      unfold FreeTree
      rw [if_pos h3live, h3down, FreeTree_loop_none]
      dsimp only
      unfold Mem.delete
      rw [if_pos h3live]
    · dsimp only
      rw [b3, h2brk]
      omega
    · intro q h1 h2
      dsimp only
      by_cases hq : q = m.brk
      · rw [if_pos hq]
      · rw [if_neg hq]
        exact dead3 q (by rw [h2brk]; omega) (by rw [h2brk]; omega)
    · intro q hq
      have hqb : q ≠ m.brk := by omega
      obtain ⟨e1, e2⟩ := fr3 q (by rw [h2brk]; omega)
      dsimp only
      refine ⟨?_, ?_⟩
      · apply Node.ext <;>
          simp only [Heap.setNext_apply, Heap.setPred_apply, Heap.setUp_apply,
            Heap.setDown_apply, if_neg hqb, e1, h2heap q hqb]
      · rw [if_neg hqb, e2, h2live, if_neg hqb]

/-! ## The copying call with an arbitrary recursive call -/

theorem CreateCopy_eq_body (fuel : Nat) (m : Mem) (this : Nat) (children : Bool) :
    CreateCopy (fuel + 1) m this children =
      CreateCopy.body (fun m3 => CreateCopy fuel m3 this true) fuel m this children := by
  conv_lhs => unfold CreateCopy
  rfl

theorem Forest.snoc_ids (c : Nat) (k : Forest) : ∀ t : Forest,
    (t.snoc c k).ids = t.ids ++ c :: k.ids := by
  intro t
  induction t with
  | nil => simp [Forest.snoc, Forest.ids]
  | node i ki s _ ihs => simp [Forest.snoc, Forest.ids, ihs]

theorem Forest.snoc_tops (c : Nat) (k : Forest) : ∀ t : Forest,
    (t.snoc c k).tops = t.tops ++ [c] := by
  intro t
  induction t with
  | nil => simp [Forest.snoc, Forest.tops]
  | node i ki s _ ihs => simp [Forest.snoc, Forest.tops, ihs]

theorem Forest.tops_subset : ∀ (t : Forest) (x : Nat), x ∈ t.tops → x ∈ t.ids := by
  intro t
  induction t with
  | nil => intro x hx; cases hx
  | node i ki s _ ihs =>
    intro x hx
    simp only [Forest.tops, List.mem_cons] at hx
    simp only [Forest.ids, List.mem_cons, List.mem_append]
    rcases hx with e | e
    · exact Or.inl e
    · exact Or.inr (Or.inr (ihs x e))

theorem Shape_SibList (h : Heap) : ∀ (t : Forest) (p u q : Option Nat), Shape h p u q t →
    SibList h p t.tops := by
  intro t
  induction t with
  | nil =>
    intro p u q hs
    unfold Shape at hs
    unfold Forest.tops SibList
    exact hs
  | node i ki s _ ihs =>
    intro p u q hs
    unfold Shape at hs
    unfold Forest.tops SibList
    exact ⟨hs.1, ihs _ _ _ hs.2.2.2.2⟩

theorem Shape_last_next (h : Heap) : ∀ (t : Forest) (p u q : Option Nat), Shape h p u q t →
    ∀ l, t.tops.getLast? = some l → (h l).m_next = none ∧ (h l).m_up = u := by
  intro t
  induction t with
  | nil =>
    intro p u q _ l hl
    cases hl
  | node i ki s _ ihs =>
    intro p u q hs l hl
    unfold Shape at hs
    obtain ⟨-, hup, -, -, hn⟩ := hs
    cases s with
    | nil =>
      unfold Shape at hn
      simp only [Forest.tops, List.getLast?_singleton, Option.some.injEq] at hl
      subst hl
      exact ⟨hn, hup⟩
    | node j kj sj =>
      simp only [Forest.tops] at hl
      rw [List.getLast?_cons_cons] at hl
      exact ihs _ _ _ hn l (by simpa only [Forest.tops] using hl)

theorem visited_subset (h : Heap) : ∀ (cs : List Nat) (fuel : Nat) (p : Option Nat),
    SibList h p cs → ∀ x ∈ GetDownLast.visited fuel h p, x ∈ cs := by
  intro cs
  induction cs with
  | nil =>
    intro fuel p hs x hx
    unfold SibList at hs
    subst hs
    cases fuel <;> cases hx
  | cons c cs ih =>
    intro fuel p hs x hx
    unfold SibList at hs
    obtain ⟨hp, hs1⟩ := hs
    subst hp
    cases fuel with
    | zero => cases hx
    | succ fuel =>
      unfold GetDownLast.visited at hx
      rcases List.mem_cons.1 hx with e | e
      · rw [e]; exact List.mem_cons_self _ _
      · exact List.mem_cons_of_mem _ (ih fuel _ hs1 x e)

/-- Appending the tree of `cc` behind the last node of a sibling list: when the heap `h2` differs
from `h` on the list only by the next link of its last node, which leads to `cc`, the list has the
shape of the old forest with the new tree appended. -/
theorem Shape_snoc (h h2 : Heap) (cc : Nat) (tc : Forest) (u : Option Nat)
    (hup : (h2 cc).m_up = u) (hnx : (h2 cc).m_next = none)
    (htc : Shape h2 (h2 cc).m_down (some cc) none tc) :
    ∀ (t : Forest) (p q : Option Nat), Shape h p u q t → t.ids.Nodup →
      (∀ x ∈ t.ids, t.tops.getLast? ≠ some x →
        (h2 x).m_next = (h x).m_next ∧ (h2 x).m_pred = (h x).m_pred ∧
          (h2 x).m_up = (h x).m_up ∧ (h2 x).m_down = (h x).m_down) →
      (∀ l, t.tops.getLast? = some l →
        (h2 l).m_next = some cc ∧ (h2 l).m_pred = (h l).m_pred ∧ (h2 l).m_up = (h l).m_up ∧
          (h2 l).m_down = (h l).m_down ∧ (h2 cc).m_pred = some l) →
      (t.tops = [] → (h2 cc).m_pred = q) →
      Shape h2 (if t.tops = [] then some cc else p) u q (t.snoc cc tc) := by
  intro t
  induction t with
  | nil =>
    intro p q _ _ _ _ hq
    simp only [Forest.tops, if_true, Forest.snoc]
    unfold Shape
    refine ⟨rfl, hup, hq rfl, htc, ?_⟩
    unfold Shape
    exact hnx
  | node i ki s _ ihs =>
    intro p q hs hnd hsame hlast _
    unfold Shape at hs
    obtain ⟨hp, hiu, hiq, hk, hn⟩ := hs
    simp only [Forest.ids] at hnd
    obtain ⟨hi, hnd1⟩ := List.nodup_cons.1 hnd
    obtain ⟨hndk, hnds, hdis⟩ := List.nodup_append.1 hnd1
    have hik : i ∉ ki.ids := fun c => hi (List.mem_append_left _ c)
    have his : i ∉ s.ids := fun c => hi (List.mem_append_right _ c)
    have hne : (Forest.node i ki s).tops ≠ [] := by
      simp only [Forest.tops]
      exact List.cons_ne_nil _ _
    rw [if_neg hne]
    simp only [Forest.snoc]
    have hmem : ∀ x, x ∈ ki.ids ∨ x ∈ s.ids → x ∈ (Forest.node i ki s).ids := by
      intro x hx
      simp only [Forest.ids, List.mem_cons, List.mem_append]
      exact Or.inr hx
    cases hst : s.tops with
    | nil =>
      have hl : (Forest.node i ki s).tops.getLast? = some i := by
        simp only [Forest.tops, hst, List.getLast?_singleton]
      obtain ⟨l1, l2, l3, l4, l5⟩ := hlast i hl
      have hkk : Shape h2 (h2 i).m_down (some i) none ki := by
        rw [l4]
        refine Shape_congr h h2 ki _ _ _ ?_ hk
        intro x hx
        refine hsame x (hmem x (Or.inl hx)) ?_
        rw [hl]
        intro e
        cases e
        exact hik hx
      have hss := ihs (h i).m_next (some i) hn hnds
        (by
          intro x hx hx2
          exfalso
          have hxt : s.ids = [] := by
            cases s with
            | nil => rfl
            | node j kj sj => simp [Forest.tops] at hst
          rw [hxt] at hx
          cases hx)
        (by
          intro l hl2
          rw [hst] at hl2
          cases hl2)
        (fun _ => l5)
      rw [if_pos hst] at hss
      unfold Shape
      refine ⟨hp, by rw [l3]; exact hiu, by rw [l2]; exact hiq, hkk, ?_⟩
      rw [l1]
      exact hss
    | cons j js =>
      have hl : (Forest.node i ki s).tops.getLast? = s.tops.getLast? := by
        simp only [Forest.tops, hst, List.getLast?_cons_cons]
      have hlm : ∀ l, s.tops.getLast? = some l → l ∈ s.ids := by
        intro l hl2
        exact Forest.tops_subset s l (List.mem_of_getLast?_eq_some hl2)
      have hi2 := hsame i (by simp only [Forest.ids]; exact List.mem_cons_self _ _) (by
        rw [hl]
        intro e
        exact his (hlm i e))
      obtain ⟨l1, l2, l3, l4⟩ := hi2
      have hkk : Shape h2 (h2 i).m_down (some i) none ki := by
        rw [l4]
        refine Shape_congr h h2 ki _ _ _ ?_ hk
        intro x hx
        refine hsame x (hmem x (Or.inl hx)) ?_
        rw [hl]
        intro e
        exact hdis hx (hlm x e)
      have hss := ihs (h i).m_next (some i) hn hnds
        (by
          intro x hx hx2
          exact hsame x (hmem x (Or.inr hx)) (by rw [hl]; exact hx2))
        (by
          intro l hl2
          exact hlast l (by rw [hl]; exact hl2))
        (by
          intro e
          rw [hst] at e
          cases e)
      rw [if_neg (by rw [hst]; exact List.cons_ne_nil _ _)] at hss
      unfold Shape
      refine ⟨hp, by rw [l3]; exact hiu, by rw [l2]; exact hiq, hkk, ?_⟩
      rw [l1]
      exact hss

/-- The heap after `InsertUnderLast` of the detached node `cc` under `copy`, whose children are
the list `cs`, field by field. -/
theorem InsertUnderLast_fields (h : Heap) (copy cc fuel : Nat) (cs : List Nat)
    (hs : SibList h (h copy).m_down cs)
    (hlast : ∀ l, cs.getLast? = some l → (h l).m_next = none ∧ (h l).m_up = some copy)
    (hdet : Detached h cc) (hcc : cc ≠ copy) (hccs : cc ∉ cs) (hfuel : cs.length < fuel) :
    ∃ h2, InsertUnderLast fuel h cc copy = some h2 ∧
      (∀ a, (h2 a).m_next = if cs.getLast? = some a then some cc else (h a).m_next) ∧
      (∀ a, (h2 a).m_pred = if a = cc then cs.getLast? else (h a).m_pred) ∧
      (∀ a, (h2 a).m_up = if a = cc then some copy else (h a).m_up) ∧
      (∀ a, (h2 a).m_down = if a = copy ∧ cs = [] then some cc else (h a).m_down) ∧
      (∀ a, (h2 a).name = (h a).name ∧ (h2 a).opened = (h a).opened ∧
        (h2 a).selected = (h a).selected) := by
  obtain ⟨d1, d2, d3⟩ := hdet
  cases hcs : cs.getLast? with
  | none =>
    have hnil : cs = [] := List.getLast?_eq_none_iff.1 hcs
    subst hnil
    unfold SibList at hs
    refine ⟨InsertUnder h cc copy, InsertUnderLast_of_empty h fuel cc copy hs, ?_, ?_, ?_, ?_, ?_⟩
    · intro a
      unfold InsertUnder
      rw [hs]
      simp
    · intro a
      unfold InsertUnder
      rw [hs]
      by_cases e : a = cc
      · subst e
        simp [d2]
      · simp [e]
    · intro a
      unfold InsertUnder
      rw [hs]
      simp
    · intro a
      unfold InsertUnder
      rw [hs]
      simp
    · intro a
      unfold InsertUnder
      rw [hs]
      simp
  | some l =>
    obtain ⟨hln, hlu⟩ := hlast l hcs
    have hlm : l ∈ cs := List.mem_of_getLast?_eq_some hcs
    have hne : cc ≠ l := fun e => hccs (e ▸ hlm)
    have hcsne : cs ≠ [] := by
      intro e
      rw [e] at hlm
      cases hlm
    have F := fun a => InsertAfter_fields h cc l a ⟨d1, d2, d3⟩ hne (by rw [hln]; simp)
    have hrun : InsertUnderLast fuel h cc copy = some (InsertAfter h cc l) := by
      cases cs with
      | nil => exact absurd rfl hcsne
      | cons c cs1 =>
        obtain ⟨e1, hs1, -⟩ := SibList_head h _ c _ hs
        rw [InsertUnderLast_of_down h fuel cc copy c e1,
          walk_SibList h cs1 c l fuel hs1 hcs (by
            simp only [List.length_cons] at hfuel
            omega)]
        rfl
    refine ⟨InsertAfter h cc l, hrun, ?_, ?_, ?_, ?_, ?_⟩
    · intro a
      rw [(F a).1, hln]
      by_cases e : a = l
      · subst e
        simp
      · have r : (if some l = some a then some cc else (h a).m_next) = (h a).m_next :=
          if_neg (fun c => e (Option.some.inj c).symm)
        rw [if_neg e, r]
        by_cases e2 : a = cc
        · rw [if_pos e2, e2, d1]
        · rw [if_neg e2]
    · intro a
      rw [(F a).2.1, hln]
      simp
    · intro a
      rw [(F a).2.2.1, hlu]
    · intro a
      rw [(F a).2.2.2.1, if_neg (fun c => hcsne c.2)]
    · intro a
      exact ⟨(F a).2.2.2.2.1, (F a).2.2.2.2.2.1, (F a).2.2.2.2.2.2⟩

theorem nodup_snoc (copy cc : Nat) (t tc : List Nat) (h1 : (copy :: t).Nodup)
    (h2 : (cc :: tc).Nodup) (h3 : ∀ x ∈ cc :: tc, x ∉ copy :: t) :
    (copy :: (t ++ cc :: tc)).Nodup := by
  obtain ⟨a1, a2⟩ := List.nodup_cons.1 h1
  refine List.nodup_cons.2 ⟨?_, List.nodup_append.2 ⟨a2, h2, ?_⟩⟩
  · intro hm
    rcases List.mem_append.1 hm with e | e
    · exact a1 e
    · exact h3 copy e (List.mem_cons_self _ _)
  · intro x hx hx2
    exact h3 x hx2 (List.mem_cons_of_mem _ hx)

/-- `InsertUnderLast` of the detached root `cc` of a finite tree under the root `copy` of another
finite tree appends the tree of `cc` to the children of `copy`. -/
theorem InsertUnderLast_snoc (h : Heap) (copy cc fuel : Nat) (t tc : Forest)
    (ht : IsTree h copy t) (hdet : Detached h cc) (htc : IsTree h cc tc)
    (hdis : ∀ x ∈ cc :: tc.ids, x ∉ copy :: t.ids) (hfuel : t.tops.length < fuel) :
    ∃ h2, InsertUnderLast fuel h cc copy = some h2 ∧ IsTree h2 copy (t.snoc cc tc) ∧
      (h2 copy).m_next = (h copy).m_next ∧ (h2 copy).m_pred = (h copy).m_pred ∧
      (h2 copy).m_up = (h copy).m_up ∧
      (∀ a, a ≠ cc → a ≠ copy → a ∉ t.tops → h2 a = h a) := by
  obtain ⟨hs, hnd⟩ := ht
  obtain ⟨hsc, hndc⟩ := htc
  have hcc : cc ≠ copy := fun e =>
    hdis cc (List.mem_cons_self _ _) (by rw [e]; exact List.mem_cons_self _ _)
  have hcct : cc ∉ t.ids := fun e =>
    hdis cc (List.mem_cons_self _ _) (List.mem_cons_of_mem _ e)
  have hcopyt : copy ∉ t.ids := (List.nodup_cons.1 hnd).1
  have hcctc : cc ∉ tc.ids := (List.nodup_cons.1 hndc).1
  obtain ⟨h2, hrun, fn, fp, fu, fd, fpay⟩ := InsertUnderLast_fields h copy cc fuel t.tops
    (Shape_SibList h t _ _ _ hs) (Shape_last_next h t _ _ _ hs) hdet hcc
    (fun e => hcct (Forest.tops_subset t cc e)) hfuel
  have hlm : ∀ l, t.tops.getLast? = some l → l ∈ t.ids := fun l hl =>
    Forest.tops_subset t l (List.mem_of_getLast?_eq_some hl)
  have hcopylast : t.tops.getLast? ≠ some copy := fun e => hcopyt (hlm copy e)
  have hcclast : t.tops.getLast? ≠ some cc := fun e => hcct (hlm cc e)
  -- the tree of `cc` is untouched
  have htc2 : Shape h2 (h2 cc).m_down (some cc) none tc := by
    rw [fd cc, if_neg (fun c => hcc c.1)]
    refine Shape_congr h h2 tc _ _ _ ?_ hsc
    intro x hx
    have hxcc : x ≠ cc := fun e => hcctc (e ▸ hx)
    have hxcopy : x ≠ copy := fun e =>
      hdis x (List.mem_cons_of_mem _ hx) (by rw [e]; exact List.mem_cons_self _ _)
    have hxl : t.tops.getLast? ≠ some x := fun e =>
      hdis x (List.mem_cons_of_mem _ hx) (List.mem_cons_of_mem _ (hlm x e))
    refine ⟨?_, ?_, ?_, ?_⟩
    · rw [fn x, if_neg hxl]
    · rw [fp x, if_neg hxcc]
    · rw [fu x, if_neg hxcc]
    · rw [fd x, if_neg (fun c => hxcopy c.1)]
  have hshape := Shape_snoc h h2 cc tc (some copy) (by rw [fu cc, if_pos rfl])
    (by rw [fn cc, if_neg hcclast]; exact hdet.1) htc2 t (h copy).m_down none hs
    (List.nodup_cons.1 hnd).2
    (by
      intro x hx hxl
      have hxcc : x ≠ cc := fun e => hcct (e ▸ hx)
      have hxcopy : x ≠ copy := fun e => hcopyt (e ▸ hx)
      refine ⟨?_, ?_, ?_, ?_⟩
      · rw [fn x, if_neg hxl]
      · rw [fp x, if_neg hxcc]
      · rw [fu x, if_neg hxcc]
      · rw [fd x, if_neg (fun c => hxcopy c.1)])
    (by
      intro l hl
      have hlcc : l ≠ cc := fun e => hcct (e ▸ hlm l hl)
      have hlcopy : l ≠ copy := fun e => hcopyt (e ▸ hlm l hl)
      refine ⟨?_, ?_, ?_, ?_, ?_⟩
      · rw [fn l, if_pos hl]
      · rw [fp l, if_neg hlcc]
      · rw [fu l, if_neg hlcc]
      · rw [fd l, if_neg (fun c => hlcopy c.1)]
      · rw [fp cc, if_pos rfl, hl])
    (by
      intro e
      rw [fp cc, if_pos rfl, e]
      rfl)
  refine ⟨h2, hrun, ⟨?_, ?_⟩, ?_, ?_, ?_, ?_⟩
  · have e : (h2 copy).m_down = if t.tops = [] then some cc else (h copy).m_down := by
      rw [fd copy]
      by_cases c : t.tops = []
      · rw [if_pos ⟨rfl, c⟩, if_pos c]
      · rw [if_neg (fun x => c x.2), if_neg c]
    rw [e]
    exact hshape
  · rw [Forest.snoc_ids]
    exact nodup_snoc copy cc t.ids tc.ids hnd hndc hdis
  · rw [fn copy, if_neg hcopylast]
  · rw [fp copy, if_neg (Ne.symm hcc)]
  · rw [fu copy, if_neg (Ne.symm hcc)]
  · intro a ha1 ha2 ha3
    have hal : t.tops.getLast? ≠ some a := fun e => ha3 (List.mem_of_getLast?_eq_some e)
    apply Node.ext
    · rw [fn a, if_neg hal]
    · rw [fp a, if_neg ha1]
    · rw [fu a, if_neg ha1]
    · rw [fd a, if_neg (fun c => ha2 c.1)]
    · exact (fpay a).1
    · exact (fpay a).2.1
    · exact (fpay a).2.2

theorem alloc_cases (m : Mem) :
    (∃ rest, m.oracle = false :: rest ∧ m.alloc = ({ m with oracle := rest }, none)) ∨
    m.alloc = ({ heap := fun q => if q = m.brk then Node.mk1 "" else m.heap q,
                 live := fun q => if q = m.brk then true else m.live q,
                 brk := m.brk + 1,
                 oracle := m.oracle.tail }, some m.brk) := by
  unfold Mem.alloc
  split
  · rename_i rest e
    exact Or.inl ⟨rest, e, rfl⟩
  · exact Or.inr rfl

theorem CreateCopy_loop_none (rec : Mem → Res (Mem × Option Nat)) (copy fuel : Nat) (m : Mem) :
    CreateCopy.loop rec copy fuel m none = .ok (m, true) := by
  cases fuel <;> rfl

theorem IsTree_congr (h h1 : Heap) (c : Nat) (t : Forest) (he : ∀ q ∈ c :: t.ids, h1 q = h q)
    (ht : IsTree h c t) : IsTree h1 c t := by
  refine ⟨?_, ht.2⟩
  rw [he c (List.mem_cons_self _ _)]
  refine Shape_congr h h1 t _ _ _ ?_ ht.1
  intro x hx
  rw [he x (List.mem_cons_of_mem _ hx)]
  exact ⟨rfl, rfl, rfl, rfl⟩

theorem mem_snoc_ids (q copy cc : Nat) (t tc : List Nat) :
    q ∈ copy :: (t ++ cc :: tc) ↔ q ∈ copy :: t ∨ q ∈ cc :: tc := by
  simp only [List.mem_cons, List.mem_append]
  tauto

/-- The loop of `CreateCopy` with a recursive call that is all-or-nothing: the loop returns, the
nodes that existed before are untouched, and the copy under construction is a complete tree whose
nodes are exactly the live nodes allocated so far. -/
theorem CreateCopy_loop_builds (rec : Mem → Res (Mem × Option Nat)) (m : Mem) (A : Nat)
    (hrec : ∀ m' : Mem, m.brk ≤ m'.brk →
      (∀ q, q < m.brk → m'.heap q = m.heap q ∧ m'.live q = m.live q) →
      ∃ m2 r, rec m' = .ok (m2, r) ∧ CopyResult m' m2 r ∧ m2.brk ≤ m'.brk + A) :
    ∀ (rs : List Nat) (fuel : Nat) (m' : Mem) (t : Forest) (cur : Option Nat),
      m.brk < m'.brk → (∀ q, q < m.brk → m'.heap q = m.heap q ∧ m'.live q = m.live q) →
      CopyBuilt m m' m.brk t → SibList m.heap cur rs →
      (∀ c ∈ rs, c < m.brk ∧ m.live c = true) → t.tops.length + 2 * rs.length ≤ fuel →
      ∃ m3 b t3, CreateCopy.loop rec m.brk fuel m' cur = .ok (m3, b) ∧ m.brk < m3.brk ∧
        m3.brk ≤ m'.brk + rs.length * A ∧
        (∀ q, q < m.brk → m3.heap q = m.heap q ∧ m3.live q = m.live q) ∧
        CopyBuilt m m3 m.brk t3 := by
  intro rs
  induction rs with
  | nil =>
    intro fuel m' t cur hb hf hc hs _ _
    unfold SibList at hs
    subst hs
    exact ⟨m', true, t, CreateCopy_loop_none rec _ fuel m', hb, by omega, hf, hc⟩
  | cons c rs ih =>
    intro fuel m' t cur hb hf hc hs hkids hfuel
    unfold SibList at hs
    obtain ⟨hcur, hs1⟩ := hs
    subst hcur
    simp only [List.length_cons] at hfuel
    obtain ⟨f, rfl⟩ : ∃ f, fuel = f + 1 := ⟨fuel - 1, by omega⟩
    obtain ⟨hcold, hclive⟩ := hkids c (List.mem_cons_self _ _)
    obtain ⟨m2, r, hr, hres, hA⟩ := hrec m' (Nat.le_of_lt hb) hf
    have hmul : (rs.length + 1) * A = rs.length * A + A := Nat.succ_mul _ _
    -- the nodes of the copy under construction lie below the allocation mark of `m'`
    have hlow : ∀ q ∈ m.brk :: t.ids, q < m'.brk := fun q hq => (hc.range q hq).2
    have hf2 : ∀ q, q < m.brk → m2.heap q = m.heap q ∧ m2.live q = m.live q := by
      intro q hq
      obtain ⟨e1, e2⟩ := hres.frame q (by omega)
      exact ⟨e1.trans (hf q hq).1, e2.trans (hf q hq).2⟩
    have htree2 : IsTree m2.heap m.brk t :=
      IsTree_congr m'.heap m2.heap m.brk t (fun q hq => (hres.frame q (hlow q hq)).1) hc.tree
    have hdet2 : Detached m2.heap m.brk := by
      unfold Detached
      rw [(hres.frame m.brk (hlow _ (List.mem_cons_self _ _))).1]
      exact hc.detached
    have hlive2 : ∀ q ∈ m.brk :: t.ids, m2.live q = true := by
      intro q hq
      rw [(hres.frame q (hlow q hq)).2]
      exact (hc.live q (hc.range q hq).1 (hlow q hq)).2 hq
    unfold CreateCopy.loop
    rw [hr]
    cases r with
    | none =>
      refine ⟨m2, false, t, rfl, by have := hres.brk; omega, by rw [List.length_cons, hmul]; omega, hf2, ?_⟩
      refine ⟨hdet2, htree2, ?_, ?_⟩
      · intro q hq
        have := hres.brk
        exact ⟨(hc.range q hq).1, by have := hlow q hq; omega⟩
      · intro q h1 h2
        by_cases hq : q < m'.brk
        · rw [(hres.frame q hq).2]
          exact hc.live q h1 hq
        · have hd := hres.nothing rfl q (by omega) h2
          rw [hd]
          constructor
          · intro e
            cases e
          · intro e
            exact absurd (hlow q e) hq
    | some cc =>
      obtain ⟨tc, hcb⟩ := hres.complete cc rfl
      have hhigh : ∀ q ∈ cc :: tc.ids, m'.brk ≤ q ∧ q < m2.brk := hcb.range
      have hdis : ∀ x ∈ cc :: tc.ids, x ∉ m.brk :: t.ids := by
        intro x hx hx2
        have := (hhigh x hx).1
        have := hlow x hx2
        omega
      obtain ⟨h2, hrun, htree3, e1, e2, e3, hframe⟩ :=
        InsertUnderLast_snoc m2.heap m.brk cc f t tc htree2 hcb.detached hcb.tree hdis
          (by omega)
      have hall : (InsertUnderLast.derefs f m2.heap cc m.brk).all m2.live = true := by
        rw [List.all_eq_true]
        intro x hx
        unfold InsertUnderLast.derefs at hx
        rcases List.mem_cons.1 hx with e | hx
        · rw [e]
          exact (hcb.live cc (hhigh cc (List.mem_cons_self _ _)).1
            (hhigh cc (List.mem_cons_self _ _)).2).2 (List.mem_cons_self _ _)
        · rcases List.mem_cons.1 hx with e | hx
          · rw [e]
            exact hlive2 _ (List.mem_cons_self _ _)
          · exact hlive2 x (List.mem_cons_of_mem _ (Forest.tops_subset t x
              (visited_subset m2.heap t.tops f _ (Shape_SibList _ t _ _ _ htree2.1) x hx)))
      have hcfr : h2 c = m2.heap c := by
        refine hframe c ?_ ?_ ?_
        · intro e
          have := (hhigh cc (List.mem_cons_self _ _)).1
          omega
        · omega
        · intro e
          have := (hc.range c (List.mem_cons_of_mem _ (Forest.tops_subset t c e))).1
          omega
      have hmem : Mem.InsertUnderLast f m2 cc m.brk = .ok { m2 with heap := h2 } := by
        unfold Mem.InsertUnderLast
        rw [if_pos hall, hrun]
      obtain ⟨m3, b, t3, hloop, hb3, hbrk3, hf3, hc3⟩ :=
        ih f { m2 with heap := h2 } (t.snoc cc tc) (m.heap c).m_next
          (by have := hres.brk; show m.brk < m2.brk; omega)
          (by
            intro q hq
            refine ⟨?_, (hf2 q hq).2⟩
            show h2 q = m.heap q
            rw [hframe q ?_ ?_ ?_]
            · exact (hf2 q hq).1
            · intro e
              have := (hhigh cc (List.mem_cons_self _ _)).1
              omega
            · omega
            · intro e
              have := (hc.range q (List.mem_cons_of_mem _ (Forest.tops_subset t q e))).1
              omega)
          (by
            refine ⟨?_, htree3, ?_, ?_⟩
            · show Detached h2 m.brk
              unfold Detached
              rw [e1, e2, e3]
              exact hdet2
            · intro q hq
              show m.brk ≤ q ∧ q < m2.brk
              rw [Forest.snoc_ids, mem_snoc_ids] at hq
              have := hres.brk
              rcases hq with hq | hq
              · exact ⟨(hc.range q hq).1, by have := hlow q hq; omega⟩
              · exact ⟨by have := (hhigh q hq).1; omega, (hhigh q hq).2⟩
            · intro q h1 h2
              show m2.live q = true ↔ _
              rw [Forest.snoc_ids, mem_snoc_ids]
              by_cases hq : q < m'.brk
              · rw [(hres.frame q hq).2]
                constructor
                · intro e
                  exact Or.inl ((hc.live q h1 hq).1 e)
                · rintro (e | e)
                  · exact (hc.live q h1 hq).2 e
                  · exact absurd (hhigh q e).1 (by omega)
              · constructor
                · intro e
                  exact Or.inr ((hcb.live q (by omega) h2).1 e)
                · rintro (e | e)
                  · exact absurd (hlow q e) hq
                  · exact (hcb.live q (by omega) h2).2 e)
          hs1 (fun x hx => hkids x (List.mem_cons_of_mem _ hx))
          (by
            rw [Forest.snoc_tops, List.length_append, List.length_singleton]
            omega)
      refine ⟨m3, b, t3, ?_, hb3, ?_, hf3, hc3⟩
      · simp only []
        rw [hmem]
        simp only []
        have hl : m2.live c = true := by
          rw [(hf2 c hcold).2]
          exact hclive
        rw [if_pos hl, hcfr, (hf2 c hcold).1]
        exact hloop
      · have : m3.brk ≤ m2.brk + rs.length * A := hbrk3
        rw [List.length_cons, hmul]
        omega

theorem length_le_of_nodup_of_range (l : List Nat) (a b : Nat) (hn : l.Nodup)
    (hr : ∀ q ∈ l, a ≤ q ∧ q < b) : l.length ≤ b - a := by
  have hsub : l ⊆ List.Ico a b := fun q hq => List.Ico.mem.2 (hr q hq)
  have hlen := (List.subperm_of_subset hn hsub).length_le
  rw [List.Ico.length] at hlen
  exact hlen

/-- One level of `CreateCopy` is all-or-nothing whenever the recursive call in its loop is: the
call returns, every node that existed before is untouched, and the result is either a complete
copy or `nullptr` with every node allocated on the way, the partially built copy included,
destroyed. -/
theorem CreateCopy_body_all_or_nothing (rec : Mem → Res (Mem × Option Nat)) (m : Mem)
    (this A fuel : Nat) (cs : List Nat) (hlive : m.live this = true) (hold : this < m.brk)
    (hcs : SibList m.heap (m.heap this).m_down cs)
    (hkids : ∀ c ∈ cs, c < m.brk ∧ m.live c = true)
    (hrec : ∀ m' : Mem, m.brk ≤ m'.brk →
      (∀ q, q < m.brk → m'.heap q = m.heap q ∧ m'.live q = m.live q) →
      ∃ m2 r, rec m' = .ok (m2, r) ∧ CopyResult m' m2 r ∧ m2.brk ≤ m'.brk + A)
    (hfuel : 2 * cs.length + cs.length * A < fuel) :
    ∃ m1 r, CreateCopy.body rec fuel m this true = .ok (m1, r) ∧ CopyResult m m1 r := by
  unfold CreateCopy.body
  rw [if_pos hlive]
  unfold AllocShallowCopy
  rcases alloc_cases m with ⟨rest, _, ha⟩ | ha
  · rw [ha]
    refine ⟨_, none, rfl, ⟨Nat.le_refl _, fun q _ => ⟨rfl, rfl⟩, ?_, ?_⟩⟩
    · intro _ q h1 h2
      have h3 : q < m.brk := h2
      omega
    · intro c hc
      cases hc
  · rw [ha]
    have hne : this ≠ m.brk := Nat.ne_of_lt hold
    obtain ⟨m2, hm2⟩ : ∃ m2 : Mem, m2 =
        { heap := CopyFrom (fun q => if q = m.brk then Node.mk1 "" else m.heap q) m.brk this,
          live := fun q => if q = m.brk then true else m.live q,
          brk := m.brk + 1,
          oracle := m.oracle.tail } := ⟨_, rfl⟩
    have h2heap : ∀ q, q ≠ m.brk → m2.heap q = m.heap q := by
      intro q hq
      rw [hm2]
      simp [CopyFrom, Heap.modify, hq]
    have h2det : Detached m2.heap m.brk ∧ (m2.heap m.brk).m_down = none := by
      rw [hm2]
      simp [Detached, CopyFrom, Heap.modify, Node.mk1]
    have h2live : ∀ q, m2.live q = if q = m.brk then true else m.live q := by
      intro q
      rw [hm2]
    have h2brk : m2.brk = m.brk + 1 := by rw [hm2]
    have hf2 : ∀ q, q < m.brk → m2.heap q = m.heap q ∧ m2.live q = m.live q := by
      intro q hq
      have hq1 : q ≠ m.brk := by omega
      exact ⟨h2heap q hq1, by rw [h2live, if_neg hq1]⟩
    have hc2 : CopyBuilt m m2 m.brk Forest.nil := by
      refine ⟨h2det.1, ⟨h2det.2, List.nodup_singleton _⟩, ?_, ?_⟩
      · intro q hq
        simp only [Forest.ids, List.mem_singleton] at hq
        rw [hq, h2brk]
        omega
      · intro q h1 h2
        rw [h2brk] at h2
        have hq : q = m.brk := by omega
        rw [h2live, if_pos hq]
        simp only [Forest.ids, List.mem_singleton, hq]
    obtain ⟨m3, b, t3, hloop, hb3, hbrk3, hf3, hc3⟩ :=
      CreateCopy_loop_builds rec m A hrec cs fuel m2 Forest.nil (m.heap this).m_down
        (by rw [h2brk]; omega) hf2 hc2 hcs hkids (by simp only [Forest.tops, List.length_nil]; omega)
    have hdown : (CopyFrom (fun q => if q = m.brk then Node.mk1 "" else m.heap q) m.brk this
        this).m_down = (m.heap this).m_down := by
      have hx := h2heap this hne
      rw [hm2] at hx
      exact congrArg Node.m_down hx
    dsimp only
    rw [if_pos rfl, hdown, ← hm2, hloop]
    have hres : ∀ q, q < m.brk → q ≠ m.brk ∧ q ∉ t3.ids := by
      intro q hq
      refine ⟨by omega, fun e => ?_⟩
      have := (hc3.range q (List.mem_cons_of_mem _ e)).1
      omega
    cases b with
    | true =>
      refine ⟨m3, some m.brk, rfl, ⟨Nat.le_of_lt hb3, hf3, ?_, ?_⟩⟩
      · intro e
        cases e
      · intro c hc
        cases hc
        exact ⟨t3, hc3⟩
    | false =>
      dsimp only
      obtain ⟨f, rfl⟩ : ∃ f, fuel = f + 1 := ⟨fuel - 1, by omega⟩
      have hcopylive : m3.live m.brk = true :=
        (hc3.live m.brk (Nat.le_refl _) hb3).2 (List.mem_cons_self _ _)
      have hsize : t3.size ≤ f := by
        rw [Forest.size_eq_length]
        have hl := length_le_of_nodup_of_range t3.ids (m.brk + 1) m3.brk
          (List.nodup_cons.1 hc3.tree.2).2 (by
            intro q hq
            have hq1 := hc3.range q (List.mem_cons_of_mem _ hq)
            have hq2 : q ≠ m.brk := fun e => (List.nodup_cons.1 hc3.tree.2).1 (e ▸ hq)
            omega)
        rw [h2brk] at hbrk3
        omega
      obtain ⟨m4, r4, fr⟩ := FreeTree_loop_spec t3 f f m3 m.brk hc3.tree.1 hc3.tree.2
        (by
          intro x hx
          exact (hc3.live x (hc3.range x hx).1 (hc3.range x hx).2).2 hx)
        hsize hsize
      have hlive4 : m4.live m.brk = true := by
        rw [fr.root_rest.1]
        exact hcopylive
      unfold FreeTree
      rw [if_pos hcopylive, r4]
      dsimp only
      unfold Mem.delete
      rw [if_pos hlive4]
      refine ⟨_, none, rfl, ⟨?_, ?_, ?_, ?_⟩⟩
      · show m.brk ≤ m4.brk
        rw [fr.brk]
        omega
      · intro q hq
        obtain ⟨hq1, hq2⟩ := hres q hq
        obtain ⟨e1, e2⟩ := fr.frame q hq2 hq1
        refine ⟨?_, ?_⟩
        · show ((((m4.heap.setDown m.brk none).setUp m.brk none).setPred m.brk none).setNext
            m.brk none) q = m.heap q
          rw [← (hf3 q hq).1, ← e1]
          apply Node.ext <;>
            simp only [Heap.setNext_apply, Heap.setPred_apply, Heap.setUp_apply,
              Heap.setDown_apply, if_neg hq1]
        · show (if q = m.brk then false else m4.live q) = m.live q
          rw [if_neg hq1, e2]
          exact (hf3 q hq).2
      · intro _ q h1 h2
        show (if q = m.brk then false else m4.live q) = false
        by_cases hq : q = m.brk
        · rw [if_pos hq]
        · rw [if_neg hq]
          by_cases hqi : q ∈ t3.ids
          · exact (fr.dead q hqi).1
          · rw [(fr.frame q hqi hq).2]
            have h3 : q < m3.brk := by
              have : q < m4.brk := h2
              rw [fr.brk] at this
              exact this
            cases hl : m3.live q with
            | false => rfl
            | true =>
              rcases List.mem_cons.1 ((hc3.live q h1 h3).1 hl) with e | e
              · exact absurd e hq
              · exact absurd e hqi
      · intro c hc
        cases hc

/-- A shallow copy is all-or-nothing: `CreateCopy(false)` of a live node returns either `nullptr`
without having allocated, or a fresh detached node without children. -/
theorem CreateCopy_shallow_result (f x : Nat) (m : Mem) (hl : m.live x = true) :
    ∃ m2 r, CreateCopy (f + 1) m x false = .ok (m2, r) ∧ CopyResult m m2 r ∧
      m2.brk ≤ m.brk + 1 := by
  unfold CreateCopy
  rw [if_pos hl]
  unfold AllocShallowCopy
  rcases alloc_cases m with ⟨rest, _, ha⟩ | ha
  · rw [ha]
    refine ⟨_, none, rfl, ⟨Nat.le_refl _, fun q _ => ⟨rfl, rfl⟩, ?_, ?_⟩, Nat.le_succ _⟩
    · intro _ q h1 h2
      have h3 : q < m.brk := h2
      omega
    · intro c hc
      cases hc
  · rw [ha]
    refine ⟨_, some m.brk, rfl, ⟨?_, ?_, ?_, ?_⟩, Nat.le_refl _⟩
    · show m.brk ≤ m.brk + 1
      omega
    · intro q hq
      have hq1 : q ≠ m.brk := by omega
      refine ⟨?_, ?_⟩
      · show CopyFrom (fun q => if q = m.brk then Node.mk1 "" else m.heap q) m.brk x q =
          m.heap q
        simp [CopyFrom, Heap.modify, hq1]
      · show (if q = m.brk then true else m.live q) = m.live q
        rw [if_neg hq1]
    · intro e
      cases e
    · intro c hc
      cases hc
      refine ⟨Forest.nil, ?_, ⟨?_, List.nodup_singleton _⟩, ?_, ?_⟩
      · show Detached (CopyFrom (fun q => if q = m.brk then Node.mk1 "" else m.heap q) m.brk x)
          m.brk
        simp [Detached, CopyFrom, Heap.modify, Node.mk1]
      · show Shape (CopyFrom (fun q => if q = m.brk then Node.mk1 "" else m.heap q) m.brk x)
          (CopyFrom (fun q => if q = m.brk then Node.mk1 "" else m.heap q) m.brk x
            m.brk).m_down (some m.brk) none Forest.nil
        unfold Shape
        simp [CopyFrom, Heap.modify, Node.mk1]
      · intro q hq
        simp only [Forest.ids, List.mem_singleton] at hq
        rw [hq]
        show m.brk ≤ m.brk ∧ m.brk < m.brk + 1
        omega
      · intro q h1 h2
        have h3 : q < m.brk + 1 := h2
        have hq : q = m.brk := by omega
        show (if q = m.brk then true else m.live q) = true ↔ _
        rw [if_pos hq]
        simp only [Forest.ids, List.mem_singleton, hq]

/-- C14: `CreateCopy(true)` is all-or-nothing under allocation failure.  First, for the function
as written: when the first `k` allocations succeed and the next one fails (`k = 0` for a
childless node, which allocates once), the call on a live `root` returns `nullptr`, every node
allocated during the call is destroyed, and every other address, in particular the original tree,
is unchanged.  Second, for one level of the function with any all-or-nothing recursive call in
its loop: on a live node with live children the level returns, every node that existed before is
untouched, and the result is either a complete copy or `nullptr` with every node allocated on the
way destroyed, the subtrees already attached to the partially built copy included.  Third,
`CreateCopy` is this level with itself as recursive call. -/
theorem C14_createCopy_all_or_nothing :
    (∀ (m : Mem) (root k fuel : Nat) (rest : List Bool), m.live root = true → root < m.brk →
      m.oracle = List.replicate k true ++ false :: rest →
      (k = 0 ∨ (m.heap root).m_down ≠ none) → k < fuel →
      ∃ m1, CreateCopy fuel m root true = .ok (m1, none) ∧ m1.brk = m.brk + k ∧
        (∀ q, m.brk ≤ q → q < m1.brk → m1.live q = false) ∧
        (∀ q, (q < m.brk ∨ m1.brk ≤ q) → m1.heap q = m.heap q ∧ m1.live q = m.live q)) ∧
    (∀ (rec : Mem → Res (Mem × Option Nat)) (m : Mem) (this A fuel : Nat) (cs : List Nat),
      m.live this = true → this < m.brk → SibList m.heap (m.heap this).m_down cs →
      (∀ c ∈ cs, c < m.brk ∧ m.live c = true) →
      (∀ m' : Mem, m.brk ≤ m'.brk →
        (∀ q, q < m.brk → m'.heap q = m.heap q ∧ m'.live q = m.live q) →
        ∃ m2 r, rec m' = .ok (m2, r) ∧ CopyResult m' m2 r ∧ m2.brk ≤ m'.brk + A) →
      2 * cs.length + cs.length * A < fuel →
      ∃ m1 r, CreateCopy.body rec fuel m this true = .ok (m1, r) ∧ CopyResult m m1 r) ∧
    (∀ (fuel : Nat) (m : Mem) (this : Nat) (children : Bool),
      CreateCopy (fuel + 1) m this children =
        CreateCopy.body (fun m3 => CreateCopy fuel m3 this true) fuel m this children) := by
  refine ⟨?_, ?_, CreateCopy_eq_body⟩
  · intro m root k fuel rest hlive hold hsched hreach hfuel
    obtain ⟨m1, r1, -, b1, d1, f1⟩ :=
      CreateCopy_fails_clean k fuel m root rest hlive hold hsched hreach hfuel
    refine ⟨m1, r1, b1, ?_, ?_⟩
    · intro q h1 h2
      exact d1 q h1 (by rw [← b1]; exact h2)
    · intro q hq
      exact f1 q (by rw [← b1]; exact hq)
  · intro rec m this A fuel cs hlive hold hcs hkids hrec hfuel
    exact CreateCopy_body_all_or_nothing rec m this A fuel cs hlive hold hcs hkids hrec hfuel

theorem C14_createCopy_all_or_nothing_witness :
    (∃ m1, CreateCopy 2 { Mem.ofHeap treeOne 2 with oracle := [true, false] } 0 true =
        .ok (m1, none) ∧ m1.brk = 3 ∧ m1.live 2 = false ∧
      m1.heap 0 = treeOne 0 ∧ m1.heap 1 = treeOne 1 ∧ m1.live 0 = true ∧ m1.live 1 = true) ∧
    (∃ m1, CreateCopy.body (fun m3 => CreateCopy 1 m3 0 false) 10
        { Mem.ofHeap treeXYZ 4 with oracle := [true, true, true, false] } 0 true =
        .ok (m1, none) ∧
      m1.live 4 = false ∧ m1.live 5 = false ∧ m1.live 6 = false ∧ m1.live 0 = true ∧
      m1.live 2 = true ∧ m1.heap 0 = treeXYZ 0 ∧ m1.heap 2 = treeXYZ 2) := by
  obtain ⟨p1, p2, -⟩ := C14_createCopy_all_or_nothing
  refine ⟨?_, ?_⟩
  · obtain ⟨m1, r1, b1, d1, f1⟩ :=
      p1 { Mem.ofHeap treeOne 2 with oracle := [true, false] } 0 1 2 [] rfl (by decide) rfl
        (Or.inr (by decide)) (by decide)
    have hb : m1.brk = 3 := b1
    exact ⟨m1, r1, hb, d1 2 (by decide) (by rw [hb]; decide),
      (f1 0 (Or.inl (by decide))).1, (f1 1 (Or.inl (by decide))).1,
      (f1 0 (Or.inl (by decide))).2, (f1 1 (Or.inl (by decide))).2⟩
  · obtain ⟨m1, r, hrun, hres⟩ :=
      p2 (fun m3 => CreateCopy 1 m3 0 false)
        { Mem.ofHeap treeXYZ 4 with oracle := [true, true, true, false] } 0 1 10 [1, 2, 3] rfl
        (by decide) ⟨rfl, rfl, rfl, rfl⟩
        (by
          intro c hc
          simp only [List.mem_cons, List.mem_singleton, List.not_mem_nil, or_false] at hc
          rcases hc with e | e | e <;> subst e <;> exact ⟨by decide, rfl⟩)
        (by
          intro m' _ hf
          refine CreateCopy_shallow_result 0 0 m' ?_
          rw [(hf 0 (by decide)).2]
          rfl)
        (by decide)
    have hcomp : (match CreateCopy.body (fun m3 => CreateCopy 1 m3 0 false) 10
        { Mem.ofHeap treeXYZ 4 with oracle := [true, true, true, false] } 0 true with
        | .ok (m1, r) => some (r, m1.brk)
        | _ => none) = some (none, 7) := rfl
    rw [hrun] at hcomp
    simp only [Option.some.injEq, Prod.mk.injEq] at hcomp
    obtain ⟨hr, hb⟩ := hcomp
    subst hr
    exact ⟨m1, hrun, hres.nothing rfl 4 (by decide) (by rw [hb]; decide),
      hres.nothing rfl 5 (by decide) (by rw [hb]; decide),
      hres.nothing rfl 6 (by decide) (by rw [hb]; decide),
      (hres.frame 0 (by decide)).2, (hres.frame 2 (by decide)).2,
      (hres.frame 0 (by decide)).1, (hres.frame 2 (by decide)).1⟩

/-! ## `FreeSelectedNodes` and destroyed nodes -/

theorem delete_not_live (m m1 : Mem) (p : Nat) (hd : m.delete p = .ok m1) :
    m1.live p = false := by
  unfold Mem.delete at hd
  split at hd
  · cases hd; simp
  · cases hd

/-- A call of `FreeSelectedNodes` on a selected node never returns normally: after the node is
deleted its `m_down` is read. -/
theorem FreeSelectedNodes_selected_not_ok (fuel : Nat) (m : Mem) (root : Nat)
    (hs : (m.heap root).selected = true) : (FreeSelectedNodes fuel m root).isOk = false := by
  cases fuel with
  | zero => rfl
  | succ fuel =>
    unfold FreeSelectedNodes
    split
    · unfold FreeSelectedNodes.head
      rw [if_pos hs]
      cases h1 : m.Remove root with
      | ok m1 =>
        simp only []
        cases h2 : FreeTree fuel m1 root with
        | ok m2 =>
          simp only []
          cases h3 : m2.delete root with
          | ok m3 => simp [delete_not_live m2 m3 root h3, Res.isOk]
          | fault => rfl
          | timeout => rfl
        | fault => rfl
        | timeout => rfl
      | fault => rfl
      | timeout => rfl
    · rfl

/-- C16: `FreeSelectedNodes` on a single live, unlinked, selected node deletes the node and then
reads its `m_down`: with any fuel of at least 2 the call ends in a use of a destroyed node; and on
every memory a call on a selected node fails to return normally. -/
theorem C16_freeSelectedNodes_reads_deleted_root :
    (∀ fuel, FreeSelectedNodes (fuel + 2) (Mem.ofHeap (blank.setSelected 0 true) 1) 0 = .fault) ∧
    (∀ fuel m root, (m.heap root).selected = true →
      (FreeSelectedNodes fuel m root).isOk = false) := by
  refine ⟨?_, FreeSelectedNodes_selected_not_ok⟩
  intro fuel
  cases fuel <;> rfl

/-! ## `TreeModel::InsertObject` without target -/

theorem walk_on_two_cycle (h : Heap) (a b : Nat) (hab : (h a).m_next = some b)
    (hba : (h b).m_next = some a) :
    ∀ fuel, GetDownLast.walk fuel h a = none ∧ GetDownLast.walk fuel h b = none := by
  intro fuel
  induction fuel with
  | zero => exact ⟨rfl, rfl⟩
  | succ fuel ih =>
    unfold GetDownLast.walk
    rw [hab, hba]
    exact ⟨ih.2, ih.1⟩

/-- C17: moving Y (`2`) in root `0` with children X, Y, Z (`1`, `2`, `3`) by `InsertObject`
without target and without copy runs `InsertUnderLast(root)` on the still attached Y.  Afterwards
X still has Y as next sibling, Z still has Y as previous sibling, Y and Z point to each other in
both directions, the tree invariants fail, and the walk to the last child of the root never
ends. -/
theorem C17_move_without_target_keeps_old_links :
    InsertObject 8 (Mem.ofHeap treeXYZ 4) 0 none PLUGIN_ID 2 InsertMode.INSERT_UNDER false =
      .ok { Mem.ofHeap treeXYZ 4 with heap := InsertAfter treeXYZ 2 3 } ∧
    ((InsertAfter treeXYZ 2 3) 1).m_next = some 2 ∧
    ((InsertAfter treeXYZ 2 3) 3).m_pred = some 2 ∧
    ((InsertAfter treeXYZ 2 3) 2).m_next = some 3 ∧
    ((InsertAfter treeXYZ 2 3) 3).m_next = some 2 ∧
    ((InsertAfter treeXYZ 2 3) 2).m_pred = some 3 ∧
    ¬ TreeInv (InsertAfter treeXYZ 2 3) ∧
    (∀ fuel, GetDownLast fuel (InsertAfter treeXYZ 2 3) 0 = none) := by
  refine ⟨rfl, rfl, rfl, rfl, rfl, rfl, ?_, ?_⟩
  · intro hT
    have := (hT.next_pred 1 2).1 rfl
    cases this
  · intro fuel
    have hw := walk_on_two_cycle (InsertAfter treeXYZ 2 3) 2 3 rfl rfl
    cases fuel with
    | zero => rfl
    | succ fuel =>
      have e : GetDownLast (fuel + 1) (InsertAfter treeXYZ 2 3) 0 =
          (GetDownLast.walk fuel (InsertAfter treeXYZ 2 3) 2).map some := rfl
      rw [e, (hw fuel).1]
      rfl

/-! ## `TreeModel::Select` -/

/-- C18: when a finite well-formed tree hangs below `r` and `n` is a strict descendant of `r`,
`Select` returns in every mode; `SELECTION_NEW` leaves `n` selected and every other strict
descendant of `r` unselected, `SELECTION_ADD` selects `n`, `SELECTION_SUB` deselects `n`, the last
two change no other `selected` flag (`SELECTION_NEW` none outside the strict descendants), and no
mode changes a link, a name or an `opened` flag. -/
theorem C18_select_modes (h : Heap) (r n fuel : Nat) (t : Forest) (ht : IsTree h r t)
    (hn : Desc h r n) (hfuel : t.size < fuel) :
    (∃ h1, Select fuel h r (some n) SelectionMode.SELECTION_NEW = some h1 ∧
      (h1 n).selected = true ∧ (∀ d, Desc h r d → d ≠ n → (h1 d).selected = false) ∧
      (∀ x, ¬ Desc h r x → (h1 x).selected = (h x).selected) ∧
      (∀ x, (h1 x).name = (h x).name ∧ (h1 x).opened = (h x).opened ∧
        (h1 x).m_next = (h x).m_next ∧ (h1 x).m_pred = (h x).m_pred ∧
        (h1 x).m_up = (h x).m_up ∧ (h1 x).m_down = (h x).m_down)) ∧
    (∃ h1, Select fuel h r (some n) SelectionMode.SELECTION_ADD = some h1 ∧
      (h1 n).selected = true ∧ (∀ x, x ≠ n → (h1 x).selected = (h x).selected) ∧
      (∀ x, (h1 x).name = (h x).name ∧ (h1 x).opened = (h x).opened ∧
        (h1 x).m_next = (h x).m_next ∧ (h1 x).m_pred = (h x).m_pred ∧
        (h1 x).m_up = (h x).m_up ∧ (h1 x).m_down = (h x).m_down)) ∧
    (∃ h1, Select fuel h r (some n) SelectionMode.SELECTION_SUB = some h1 ∧
      (h1 n).selected = false ∧ (∀ x, x ≠ n → (h1 x).selected = (h x).selected) ∧
      (∀ x, (h1 x).name = (h x).name ∧ (h1 x).opened = (h x).opened ∧
        (h1 x).m_next = (h x).m_next ∧ (h1 x).m_pred = (h x).m_pred ∧
        (h1 x).m_up = (h x).m_up ∧ (h1 x).m_down = (h x).m_down)) := by
  obtain ⟨hs, -⟩ := ht
  obtain ⟨f1, rfl⟩ : ∃ f1, fuel = f1 + 1 := ⟨fuel - 1, by omega⟩
  obtain ⟨h1, r1, e1⟩ := SelectAll_loop_spec false t f1 f1 h _ _ _ hs (by omega) (by omega)
  have hsel : SelectAll (f1 + 1) h r false = some h1 := by
    unfold SelectAll
    exact r1
  refine ⟨⟨h1.setSelected n true, ?_, ?_, ?_, ?_, ?_⟩, ⟨h.setSelected n true, rfl, ?_, ?_, ?_⟩,
    ⟨h.setSelected n false, rfl, ?_, ?_, ?_⟩⟩
  · unfold Select
    rw [hsel]
  · simp
  · intro d hd hdn
    simp only [Heap.setSelected_apply, if_neg hdn]
    rw [e1 d, if_pos ((Desc_iff_mem h r t _ _ hs d).1 hd)]
  · intro x hx
    have hxn : x ≠ n := fun e => hx (e ▸ hn)
    simp only [Heap.setSelected_apply, if_neg hxn]
    rw [e1 x, if_neg (fun c => hx ((Desc_iff_mem h r t _ _ hs x).2 c))]
  · intro x
    simp only [Heap.setSelected_apply]
    rw [e1 x]
    split <;> simp
  · simp
  · intro x hx
    simp [hx]
  · intro x
    simp
  · simp
  · intro x hx
    simp [hx]
  · intro x
    simp

theorem C18_select_modes_witness :
    IsTree ((treeABC.setSelected 3 true).setSelected 0 true) 0 forestABC ∧
    Desc ((treeABC.setSelected 3 true).setSelected 0 true) 0 2 ∧
    (∃ h1, Select 4 ((treeABC.setSelected 3 true).setSelected 0 true) 0 (some 2)
        SelectionMode.SELECTION_NEW = some h1 ∧
      (h1 2).selected = true ∧ (h1 3).selected = false ∧ (h1 0).selected = true) := by
  have hlinks : ∀ x, (((treeABC.setSelected 3 true).setSelected 0 true) x).m_next =
        (treeABC x).m_next ∧
      (((treeABC.setSelected 3 true).setSelected 0 true) x).m_pred = (treeABC x).m_pred ∧
      (((treeABC.setSelected 3 true).setSelected 0 true) x).m_up = (treeABC x).m_up ∧
      (((treeABC.setSelected 3 true).setSelected 0 true) x).m_down = (treeABC x).m_down := by
    intro x
    simp
  have ht : IsTree ((treeABC.setSelected 3 true).setSelected 0 true) 0 forestABC := by
    refine ⟨?_, treeABC_isTree.2⟩
    rw [(hlinks 0).2.2.2]
    exact Shape_congr treeABC _ forestABC _ _ _ (fun x _ => hlinks x) treeABC_isTree.1
  have hd : Desc ((treeABC.setSelected 3 true).setSelected 0 true) 0 2 :=
    Desc.down 1 2 (Desc.child 1 rfl) rfl
  have hd3 : Desc ((treeABC.setSelected 3 true).setSelected 0 true) 0 3 :=
    Desc.next 2 3 hd rfl
  obtain ⟨⟨h1, r1, s1, s2, s3, -⟩, -, -⟩ :=
    C18_select_modes ((treeABC.setSelected 3 true).setSelected 0 true) 0 2 4 forestABC ht hd
      (by decide)
  refine ⟨ht, hd, h1, r1, s1, s2 3 hd3 (by decide), ?_⟩
  rw [s3 0 ?_]
  · rfl
  · intro hd0
    have := (Desc_iff_mem _ 0 forestABC _ _ ht.1 0).1 hd0
    revert this
    decide

/-! ## The linear scan: order and termination -/

theorem climb_none (fuel : Nat) (h : Heap) : GetLinNext.climb fuel h none = some none := by
  cases fuel <;> rfl

theorem linearScan_none (inner fuel : Nat) (h : Heap) : linearScan inner fuel h none = some [] := by
  cases fuel <;> rfl

theorem FindSelected_loop_none (inner fuel : Nat) (h : Heap) (res : Option Nat) :
    FindSelected.loop inner fuel h res none = some res := by
  cases fuel <;> rfl

/-- A sibling found by the climb belongs to the start of the climb or to one of its ancestors. -/
theorem climb_spec (h : Heap) : ∀ (fuel p b : Nat),
    GetLinNext.climb fuel h (some p) = some (some b) →
    ∃ a, Relation.ReflTransGen (IsParent h) p a ∧ (h a).m_next = some b := by
  intro fuel
  induction fuel with
  | zero =>
    intro p b e
    cases e
  | succ fuel ih =>
    intro p b e
    unfold GetLinNext.climb at e
    cases hn : (h p).m_next with
    | some n =>
      rw [hn] at e
      simp only [Option.some.injEq] at e
      exact ⟨p, Relation.ReflTransGen.refl, by rw [hn, e]⟩
    | none =>
      rw [hn] at e
      simp only [] at e
      cases hu : (h p).m_up with
      | none =>
        rw [hu, climb_none] at e
        cases e
      | some q =>
        rw [hu] at e
        obtain ⟨a, ha, hb⟩ := ih q b e
        exact ⟨a, Relation.ReflTransGen.head hu ha, hb⟩

theorem climb_terminates_aux (h : Heap) (N : Nat) (hI : LinkInv h) (hB : Bounded h N) :
    ∀ (fuel : Nat) (seen : List Nat) (p : Nat), seen.Nodup →
      (∀ y ∈ seen, y < N ∧ Ancestor h y p) → p < N → N ≤ seen.length + fuel →
      ∃ r, GetLinNext.climb fuel h (some p) = some r := by
  intro fuel
  induction fuel with
  | zero =>
    intro seen p hnd hs hp hle
    exfalso
    have hnd2 : (p :: seen).Nodup :=
      List.nodup_cons.2 ⟨fun hm => hI.acyclic p (hs p hm).2, hnd⟩
    have hlen := length_le_of_nodup_of_lt (p :: seen) N hnd2 (by
      intro y hy
      rcases List.mem_cons.1 hy with e | hy
      · rw [e]; exact hp
      · exact (hs y hy).1)
    simp only [List.length_cons] at hlen
    omega
  | succ fuel ih =>
    intro seen p hnd hs hp hle
    unfold GetLinNext.climb
    cases hn : (h p).m_next with
    | some n => exact ⟨_, rfl⟩
    | none =>
      simp only []
      cases hu : (h p).m_up with
      | none => exact ⟨_, climb_none fuel h⟩
      | some q =>
        have hnd2 : (p :: seen).Nodup :=
          List.nodup_cons.2 ⟨fun hm => hI.acyclic p (hs p hm).2, hnd⟩
        refine ih (p :: seen) q hnd2 ?_ (hB p q (Or.inr (Or.inr (Or.inl hu)))) ?_
        · intro y hy
          rcases List.mem_cons.1 hy with e | hy
          · rw [e]
            exact ⟨hp, Relation.TransGen.single hu⟩
          · exact ⟨(hs y hy).1, Relation.TransGen.tail (hs y hy).2 hu⟩
        · simp only [List.length_cons]
          omega

theorem GetLinNext_terminates (h : Heap) (N inner c : Nat) (hI : LinkInv h) (hB : Bounded h N)
    (hle : N ≤ inner) : ∃ r, GetLinNext inner h c = some r := by
  unfold GetLinNext
  cases hd : (h c).m_down with
  | some d => exact ⟨_, rfl⟩
  | none =>
    simp only []
    cases hu : (h c).m_up with
    | none => exact ⟨_, climb_none inner h⟩
    | some p =>
      refine climb_terminates_aux h N hI hB inner [] p List.nodup_nil ?_
        (hB c p (Or.inr (Or.inr (Or.inl hu)))) ?_
      · intro y hy
        cases hy
      · simp only [List.length_nil]
        omega

theorem GetLinNext_before (h : Heap) (hI : LinkInv h) (inner c d : Nat)
    (e : GetLinNext inner h c = some (some d)) : LinBefore h c d := by
  unfold GetLinNext at e
  cases hd : (h c).m_down with
  | some d1 =>
    rw [hd] at e
    simp only [Option.some.injEq] at e
    subst e
    exact Or.inl (Relation.TransGen.single (hI.down_up c d1 hd).1)
  | none =>
    rw [hd] at e
    simp only [] at e
    cases hu : (h c).m_up with
    | none =>
      rw [hu, climb_none] at e
      cases e
    | some p =>
      rw [hu] at e
      obtain ⟨a, ha, hb⟩ := climb_spec h inner p d e
      exact Or.inr ⟨a, d, Relation.ReflTransGen.head hu ha, Relation.ReflTransGen.refl,
        Relation.TransGen.single hb⟩

theorem GetLinNext_lt (h : Heap) (N : Nat) (hB : Bounded h N) (inner c d : Nat)
    (e : GetLinNext inner h c = some (some d)) : d < N := by
  unfold GetLinNext at e
  cases hd : (h c).m_down with
  | some d1 =>
    rw [hd] at e
    simp only [Option.some.injEq] at e
    subst e
    exact hB c d1 (Or.inr (Or.inr (Or.inr hd)))
  | none =>
    rw [hd] at e
    simp only [] at e
    cases hu : (h c).m_up with
    | none =>
      rw [hu, climb_none] at e
      cases e
    | some p =>
      rw [hu] at e
      obtain ⟨a, -, hb⟩ := climb_spec h inner p d e
      exact hB a d (Or.inl hb)

theorem transNext_up (h : Heap) (hI : LinkInv h) (a b : Nat)
    (hab : Relation.TransGen (IsNext h) a b) : (h a).m_up = (h b).m_up := by
  induction hab with
  | single e => exact hI.next_up _ _ e
  | tail _ e ih => exact ih.trans (hI.next_up _ _ e)

theorem ancestor_of_same_parent (h : Heap) (a b x : Nat) (he : (h a).m_up = (h b).m_up)
    (ha : Ancestor h a x) : Ancestor h b x := by
  rcases Relation.TransGen.head'_iff.1 ha with ⟨q, hq, hqx⟩
  have hbq : IsParent h b q := by
    unfold IsParent at hq ⊢
    rw [← he]; exact hq
  exact Relation.TransGen.head' hbq hqx

theorem LinBefore_irrefl (h : Heap) (hI : LinkInv h) (hC : ChainAcyclic h) (x : Nat) :
    ¬ LinBefore h x x := by
  rintro (hx | ⟨a, b, ha, hb, hab⟩)
  · exact hI.acyclic x hx
  · have hup := transNext_up h hI a b hab
    rcases Relation.ReflTransGen.total_of_right_unique (isParent_rightUnique h) ha hb with t | t
    · rcases Relation.reflTransGen_iff_eq_or_transGen.1 t with e | t
      · subst e
        exact hC _ hab
      · exact not_ancestor_of_same_parent h hI a b hup t
    · rcases Relation.reflTransGen_iff_eq_or_transGen.1 t with e | t
      · subst e
        exact hC _ hab
      · exact not_ancestor_of_same_parent h hI b a hup.symm t

theorem LinBefore_trans (h : Heap) (hI : LinkInv h) (x y z : Nat) (hxy : LinBefore h x y)
    (hyz : LinBefore h y z) : LinBefore h x z := by
  have U := isParent_rightUnique h
  rcases hxy with hxy | ⟨a, b, ha, hb, hab⟩
  · rcases hyz with hyz | ⟨a2, b2, ha2, hb2, hab2⟩
    · exact Or.inl (Relation.TransGen.trans hyz hxy)
    · rcases Relation.ReflTransGen.total_of_right_unique U hxy.to_reflTransGen ha2 with t | t
      · exact Or.inr ⟨a2, b2, t, hb2, hab2⟩
      · rcases Relation.reflTransGen_iff_eq_or_transGen.1 t with e | t
        · subst e
          exact Or.inr ⟨_, b2, Relation.ReflTransGen.refl, hb2, hab2⟩
        · have hb2x := ancestor_of_same_parent h a2 b2 x (transNext_up h hI a2 b2 hab2) t
          exact Or.inl (Relation.TransGen.trans_right hb2 hb2x)
  · rcases hyz with hyz | ⟨a2, b2, ha2, hb2, hab2⟩
    · exact Or.inr ⟨a, b, ha, Relation.ReflTransGen.trans hyz.to_reflTransGen hb, hab⟩
    · rcases Relation.ReflTransGen.total_of_right_unique U hb ha2 with t | t
      · rcases Relation.reflTransGen_iff_eq_or_transGen.1 t with e | t
        · subst e
          exact Or.inr ⟨a, b2, ha, hb2, Relation.TransGen.trans hab hab2⟩
        · have haa := ancestor_of_same_parent h b a a2 (transNext_up h hI a b hab).symm t
          exact Or.inr ⟨a2, b2, Relation.ReflTransGen.trans ha haa.to_reflTransGen, hb2, hab2⟩
      · rcases Relation.reflTransGen_iff_eq_or_transGen.1 t with e | t
        · subst e
          exact Or.inr ⟨a, b2, ha, hb2, Relation.TransGen.trans hab hab2⟩
        · have hbb := ancestor_of_same_parent h a2 b2 b (transNext_up h hI a2 b2 hab2) t
          exact Or.inr ⟨a, b, ha, Relation.ReflTransGen.trans hb2 hbb.to_reflTransGen, hab⟩

theorem linearScan_terminates_aux (h : Heap) (N inner : Nat) (hI : LinkInv h)
    (hC : ChainAcyclic h) (hB : Bounded h N) (hle : N ≤ inner) :
    ∀ (fuel : Nat) (seen : List Nat) (c : Nat), seen.Nodup →
      (∀ y ∈ seen, y < N ∧ LinBefore h y c) → c < N → N ≤ seen.length + fuel →
      ∃ l, linearScan inner fuel h (some c) = some (c :: l) ∧
        (∀ y ∈ l, y < N ∧ LinBefore h c y) ∧ l.Pairwise (LinBefore h) := by
  intro fuel
  induction fuel with
  | zero =>
    intro seen c hnd hs hc hfuel
    exfalso
    have hnd2 : (c :: seen).Nodup :=
      List.nodup_cons.2 ⟨fun hm => LinBefore_irrefl h hI hC c (hs c hm).2, hnd⟩
    have hlen := length_le_of_nodup_of_lt (c :: seen) N hnd2 (by
      intro y hy
      rcases List.mem_cons.1 hy with e | hy
      · rw [e]; exact hc
      · exact (hs y hy).1)
    simp only [List.length_cons] at hlen
    omega
  | succ fuel ih =>
    intro seen c hnd hs hc hfuel
    obtain ⟨r, hr⟩ := GetLinNext_terminates h N inner c hI hB hle
    unfold linearScan
    rw [hr]
    cases r with
    | none =>
      refine ⟨[], ?_, ?_, List.Pairwise.nil⟩
      · simp only [linearScan_none, Option.map_some']
      · intro y hy
        cases hy
    | some d =>
      have hcd := GetLinNext_before h hI inner c d hr
      have hd := GetLinNext_lt h N hB inner c d hr
      have hnd2 : (c :: seen).Nodup :=
        List.nodup_cons.2 ⟨fun hm => LinBefore_irrefl h hI hC c (hs c hm).2, hnd⟩
      obtain ⟨l, e, hl, hp⟩ := ih (c :: seen) d hnd2 (by
        intro y hy
        rcases List.mem_cons.1 hy with e | hy
        · rw [e]
          exact ⟨hc, hcd⟩
        · exact ⟨(hs y hy).1, LinBefore_trans h hI y c d (hs y hy).2 hcd⟩) hd (by
        simp only [List.length_cons]
        omega)
      refine ⟨d :: l, ?_, ?_, List.pairwise_cons.2 ⟨fun y hy => (hl y hy).2, hp⟩⟩
      · simp only [e, Option.map_some']
      · intro y hy
        rcases List.mem_cons.1 hy with e1 | hy
        · rw [e1]
          exact ⟨hd, hcd⟩
        · exact ⟨(hl y hy).1, LinBefore_trans h hI c d y hcd (hl y hy).2⟩

/-- With more fuel than addresses the scan from any node ends, and its nodes are in document
order. -/
theorem linearScan_terminates (h : Heap) (N inner fuel n : Nat) (hI : LinkInv h)
    (hC : ChainAcyclic h) (hB : Bounded h N) (hle : N ≤ inner) (hfuel : N < fuel) :
    ∃ l, linearScan inner fuel h (some n) = some (n :: l) ∧
      (∀ y ∈ l, y < N ∧ LinBefore h n y) ∧ l.Pairwise (LinBefore h) := by
  obtain ⟨f, rfl⟩ : ∃ f, fuel = f + 1 := ⟨fuel - 1, by omega⟩
  obtain ⟨r, hr⟩ := GetLinNext_terminates h N inner n hI hB hle
  unfold linearScan
  rw [hr]
  cases r with
  | none =>
    refine ⟨[], ?_, ?_, List.Pairwise.nil⟩
    · simp only [linearScan_none, Option.map_some']
    · intro y hy
      cases hy
  | some d =>
    have hnd := GetLinNext_before h hI inner n d hr
    have hd := GetLinNext_lt h N hB inner n d hr
    obtain ⟨l, e, hl, hp⟩ := linearScan_terminates_aux h N inner hI hC hB hle f [] d
      List.nodup_nil (by intro y hy; cases hy) hd (by simp only [List.length_nil]; omega)
    refine ⟨d :: l, ?_, ?_, List.pairwise_cons.2 ⟨fun y hy => (hl y hy).2, hp⟩⟩
    · simp only [e, Option.map_some']
    · intro y hy
      rcases List.mem_cons.1 hy with e1 | hy
      · rw [e1]
        exact ⟨hd, hnd⟩
      · exact ⟨(hl y hy).1, LinBefore_trans h hI n d y hnd (hl y hy).2⟩

/-- The list of the scan is the sequence of the iterated `GetLinNext`: each node is followed by its
`GetLinNext`, and `GetLinNext` of the last node is `nullptr`. -/
theorem linearScan_chain (inner : Nat) (h : Heap) : ∀ (fuel : Nat) (cur : Option Nat)
    (l : List Nat), linearScan inner fuel h cur = some l →
    l.head? = cur ∧ List.Chain' (fun a b => GetLinNext inner h a = some (some b)) l ∧
      ∀ x, l.getLast? = some x → GetLinNext inner h x = some none := by
  intro fuel
  induction fuel with
  | zero =>
    intro cur l e
    cases cur with
    | none =>
      rw [linearScan_none] at e
      cases e
      exact ⟨rfl, List.chain'_nil, fun x hx => by cases hx⟩
    | some c => cases e
  | succ fuel ih =>
    intro cur l e
    cases cur with
    | none =>
      rw [linearScan_none] at e
      cases e
      exact ⟨rfl, List.chain'_nil, fun x hx => by cases hx⟩
    | some c =>
      unfold linearScan at e
      cases hr : GetLinNext inner h c with
      | none =>
        rw [hr] at e
        cases e
      | some nx =>
        rw [hr] at e
        simp only [] at e
        cases hl : linearScan inner fuel h nx with
        | none =>
          rw [hl] at e
          cases e
        | some l1 =>
          rw [hl] at e
          simp only [Option.map_some', Option.some.injEq] at e
          subst e
          obtain ⟨h1, h2, h3⟩ := ih nx l1 hl
          refine ⟨rfl, ?_, ?_⟩
          · cases l1 with
            | nil => exact List.chain'_singleton c
            | cons d l2 =>
              simp only [List.head?_cons] at h1
              refine List.chain'_cons.2 ⟨?_, h2⟩
              rw [hr, ← h1]
          · intro x hx
            cases l1 with
            | nil =>
              simp only [List.getLast?_singleton, Option.some.injEq] at hx
              subst hx
              simp only [List.head?_nil] at h1
              rw [hr, ← h1]
            | cons d l2 =>
              rw [List.getLast?_cons_cons] at hx
              exact h3 x hx

theorem FindSelected_loop_of_scan (inner : Nat) (h : Heap) : ∀ (fuel : Nat)
    (res cur : Option Nat) (l : List Nat), linearScan inner fuel h cur = some l →
    ∃ r, FindSelected.loop inner fuel h res cur = some r := by
  intro fuel
  induction fuel with
  | zero =>
    intro res cur l e
    cases cur with
    | none => exact ⟨_, FindSelected_loop_none inner 0 h res⟩
    | some c => cases e
  | succ fuel ih =>
    intro res cur l e
    cases cur with
    | none => exact ⟨_, FindSelected_loop_none inner _ h res⟩
    | some c =>
      unfold linearScan at e
      unfold FindSelected.loop
      cases hr : GetLinNext inner h c with
      | none =>
        rw [hr] at e
        cases e
      | some nx =>
        rw [hr] at e
        simp only [] at e
        cases hl : linearScan inner fuel h nx with
        | none =>
          rw [hl] at e
          cases e
        | some l1 =>
          simp only []
          by_cases hs : (h c).selected = true
          · rw [if_pos hs]
            by_cases hres : res.isSome = true
            · rw [if_pos hres]
              exact ⟨_, rfl⟩
            · rw [if_neg hres]
              exact ih (some c) nx l1 hl
          · rw [if_neg hs]
            exact ih res nx l1 hl

theorem GetDownLast_terminates (h : Heap) (N fuel n : Nat) (hI : LinkInv h) (hB : Bounded h N)
    (hfuel : N ≤ fuel) : ∃ r, GetDownLast fuel h n = some r := by
  unfold GetDownLast
  cases hd : (h n).m_down with
  | none => exact ⟨_, rfl⟩
  | some c =>
    simp only []
    obtain ⟨l, hl⟩ := walk_terminates_aux h N hI hB fuel [] c List.nodup_nil
      (by intro y hy; cases hy) (hB n c (Or.inr (Or.inr (Or.inr hd)))) (by intro hy; cases hy)
      (by
        intro z hz
        rw [(hI.down_up n c hd).2] at hz
        cases hz)
      (by intro y hy; cases hy) (by simp only [List.length_nil]; omega)
    exact ⟨some l, by rw [hl]; rfl⟩

/-- C19: on a heap with the tree invariants, acyclic sibling chains and all links below `N`, with
more fuel than `N`: `GetLinNext` of every node `n` returns; the sequence `n`, `GetLinNext(n)`, ...
ends with `nullptr`, repeats no node, and has at most `N + 1` nodes (at most `N` when `n` itself
is below `N`); `FindSelected(n)` and `GetDownLast(n)` return. -/
theorem C19_linear_scan_terminates (h : Heap) (N fuel n : Nat) (hT : TreeInv h)
    (hC : ChainAcyclic h) (hB : Bounded h N) (hfuel : N < fuel) :
    (∃ r, GetLinNext fuel h n = some r) ∧
    (∃ l, linearScan fuel fuel h (some n) = some l ∧ l.head? = some n ∧
      List.Chain' (fun a b => GetLinNext fuel h a = some (some b)) l ∧
      (∀ x, l.getLast? = some x → GetLinNext fuel h x = some none) ∧
      l.Nodup ∧ l.length ≤ N + 1 ∧ (n < N → l.length ≤ N)) ∧
    (∃ r, FindSelected fuel h n = some r) ∧
    (∃ r, GetDownLast fuel h n = some r) := by
  have hI := (TreeInv_iff_LinkInv h).1 hT
  obtain ⟨l, hl, hlt, hp⟩ := linearScan_terminates h N fuel fuel n hI hC hB (by omega) hfuel
  obtain ⟨c1, c2, c3⟩ := linearScan_chain fuel h fuel (some n) (n :: l) hl
  have hnd1 : l.Nodup := by
    unfold List.Nodup
    refine hp.imp ?_
    intro a b hab e
    subst e
    exact LinBefore_irrefl h hI hC a hab
  have hnd : (n :: l).Nodup := by
    refine List.nodup_cons.2 ⟨?_, hnd1⟩
    intro hm
    exact LinBefore_irrefl h hI hC n (hlt n hm).2
  have hlen1 : l.length ≤ N := length_le_of_nodup_of_lt l N hnd1 (fun y hy => (hlt y hy).1)
  refine ⟨GetLinNext_terminates h N fuel n hI hB (by omega),
    ⟨n :: l, hl, c1, c2, c3, hnd, ?_, ?_⟩, ?_, GetDownLast_terminates h N fuel n hI hB (by omega)⟩
  · simp only [List.length_cons]
    omega
  · intro hn
    refine length_le_of_nodup_of_lt (n :: l) N hnd ?_
    intro y hy
    rcases List.mem_cons.1 hy with e | hy
    · rw [e]; exact hn
    · exact (hlt y hy).1
  · unfold FindSelected
    exact FindSelected_loop_of_scan fuel h fuel none (some n) (n :: l) hl

theorem Bounded_blank (N : Nat) : Bounded blank N := by
  intro a b hab
  rcases hab with e | e | e | e <;> cases e

theorem treeXYZ_bounded : Bounded treeXYZ 4 := by
  have h1 : Bounded treeOne 4 :=
    Bounded_InsertUnder blank 4 1 0 LinkInv_blank ⟨rfl, rfl, rfl⟩ (Bounded_blank 4) (by decide)
      (by decide)
  have i2 : LinkInv (InsertAfter treeOne 2 1) :=
    LinkInv_InsertAfter treeOne 2 1 treeOne_inv ⟨rfl, rfl, rfl⟩ (by decide)
      (not_inSubtree_step _ 2 1 0 (by decide) rfl (not_inSubtree_root _ 2 0 (by decide) rfl))
  have h2 : Bounded (InsertAfter treeOne 2 1) 4 :=
    Bounded_InsertAfter treeOne 4 2 1 treeOne_inv ⟨rfl, rfl, rfl⟩ (by decide) h1 (by decide)
      (by decide)
  exact Bounded_InsertAfter _ 4 3 2 i2 ⟨rfl, rfl, rfl⟩ (by decide) h2 (by decide) (by decide)

theorem C19_linear_scan_terminates_witness :
    TreeInv treeXYZ ∧ ChainAcyclic treeXYZ ∧ Bounded treeXYZ 4 ∧
    (∃ r, GetLinNext 5 treeXYZ 2 = some r) ∧
    (∃ l, linearScan 5 5 treeXYZ (some 2) = some l ∧ l.Nodup ∧ l.length ≤ 4) ∧
    (∃ r, FindSelected 5 treeXYZ 2 = some r) ∧ (∃ r, GetDownLast 5 treeXYZ 2 = some r) := by
  have hT : TreeInv treeXYZ := (TreeInv_iff_LinkInv treeXYZ).2 treeXYZ_inv
  obtain ⟨c1, ⟨l, hl, -, -, -, hnd, -, hlen⟩, c3, c4⟩ :=
    C19_linear_scan_terminates treeXYZ 4 5 2 hT treeXYZ_chainAcyclic treeXYZ_bounded (by decide)
  exact ⟨hT, treeXYZ_chainAcyclic, treeXYZ_bounded, c1, ⟨l, hl, hnd, hlen (by decide)⟩, c3, c4⟩

/-! ## Soundness of `FindSelected` -/

theorem setSelected_links (h : Heap) (p : Nat) (v : Bool) (x : Nat) :
    (h.setSelected p v x).m_next = (h x).m_next ∧ (h.setSelected p v x).m_pred = (h x).m_pred ∧
    (h.setSelected p v x).m_up = (h x).m_up ∧ (h.setSelected p v x).m_down = (h x).m_down := by
  simp

theorem IsParent_setSelected (h : Heap) (p : Nat) (v : Bool) :
    IsParent (h.setSelected p v) = IsParent h := by
  funext c q
  unfold IsParent
  rw [(setSelected_links h p v c).2.2.1]

theorem IsNext_setSelected (h : Heap) (p : Nat) (v : Bool) :
    IsNext (h.setSelected p v) = IsNext h := by
  funext c q
  unfold IsNext
  rw [(setSelected_links h p v c).1]

theorem LinkInv_setSelected (h : Heap) (p : Nat) (v : Bool) (hI : LinkInv h) :
    LinkInv (h.setSelected p v) := by
  have e := setSelected_links h p v
  refine ⟨fun a b => ?_, fun a b => ?_, fun a b => ?_, fun n => ?_⟩
  · rw [(e a).1, (e b).2.1]
    exact hI.next_pred a b
  · rw [(e a).1, (e a).2.2.1, (e b).2.2.1]
    exact hI.next_up a b
  · rw [(e a).2.2.2, (e b).2.2.1, (e b).2.1]
    exact hI.down_up a b
  · unfold Ancestor
    rw [IsParent_setSelected]
    exact hI.acyclic n

theorem ChainAcyclic_setSelected (h : Heap) (p : Nat) (v : Bool) (hC : ChainAcyclic h) :
    ChainAcyclic (h.setSelected p v) := by
  unfold ChainAcyclic
  rw [IsNext_setSelected]
  exact hC

theorem Bounded_setSelected (h : Heap) (p N : Nat) (v : Bool) (hB : Bounded h N) :
    Bounded (h.setSelected p v) N := by
  have e := setSelected_links h p v
  intro a b hab
  rw [(e a).1, (e a).2.1, (e a).2.2.1, (e a).2.2.2] at hab
  exact hB a b hab

/-- The parent of a strict descendant of `r` is `r` or a strict descendant of `r`. -/
theorem Desc_parent (h : Heap) (hI : LinkInv h) (r c : Nat) (hd : Desc h r c) :
    ∃ p, (h c).m_up = some p ∧ (p = r ∨ Desc h r p) := by
  induction hd with
  | child c hc => exact ⟨r, (hI.down_up r c hc).1, Or.inl rfl⟩
  | next a b _ hb ih =>
    obtain ⟨p, hp, hpr⟩ := ih
    exact ⟨p, by rw [← hI.next_up a b hb]; exact hp, hpr⟩
  | down a c ha hc _ => exact ⟨a, (hI.down_up a c hc).1, Or.inr ha⟩

theorem Desc_up_closed (h : Heap) (hI : LinkInv h) (r c a : Nat) (hup : (h r).m_up = none)
    (hc : c = r ∨ Desc h r c) (hca : Relation.ReflTransGen (IsParent h) c a) :
    a = r ∨ Desc h r a := by
  induction hca with
  | refl => exact hc
  | tail _ hba ih =>
    rcases ih with e | hd
    · unfold IsParent at hba
      rw [e, hup] at hba
      cases hba
    · obtain ⟨p, hp, hpr⟩ := Desc_parent h hI r _ hd
      unfold IsParent at hba
      rw [hp] at hba
      cases hba
      exact hpr

/-- When the root has neither parent nor next sibling, `GetLinNext` stays below the root. -/
theorem GetLinNext_desc (h : Heap) (hI : LinkInv h) (r inner c d : Nat)
    (hup : (h r).m_up = none) (hnext : (h r).m_next = none) (hc : c = r ∨ Desc h r c)
    (e : GetLinNext inner h c = some (some d)) : Desc h r d := by
  unfold GetLinNext at e
  cases hd : (h c).m_down with
  | some d1 =>
    rw [hd] at e
    simp only [Option.some.injEq] at e
    subst e
    rcases hc with e1 | hc
    · subst e1
      exact Desc.child d1 hd
    · exact Desc.down c d1 hc hd
  | none =>
    rw [hd] at e
    simp only [] at e
    cases hu : (h c).m_up with
    | none =>
      rw [hu, climb_none] at e
      cases e
    | some p =>
      rw [hu] at e
      obtain ⟨a, ha, hb⟩ := climb_spec h inner p d e
      rcases Desc_up_closed h hI r c a hup hc (Relation.ReflTransGen.head hu ha) with e1 | hda
      · rw [e1, hnext] at hb
        cases hb
      · exact Desc.next a d hda hb

theorem FindSelected_loop_sound (h : Heap) (hI : LinkInv h) (r inner n : Nat)
    (hup : (h r).m_up = none) (hnext : (h r).m_next = none) :
    ∀ (fuel : Nat) (res cur : Option Nat), (∀ c, cur = some c → c = r ∨ Desc h r c) →
      (∀ x, res = some x → (h x).selected = true ∧ (x = r ∨ Desc h r x)) →
      FindSelected.loop inner fuel h res cur = some (some n) →
      (h n).selected = true ∧ (n = r ∨ Desc h r n) := by
  intro fuel
  induction fuel with
  | zero =>
    intro res cur hcur hres e
    cases cur with
    | none =>
      rw [FindSelected_loop_none] at e
      exact hres n (Option.some.inj e)
    | some c => cases e
  | succ fuel ih =>
    intro res cur hcur hres e
    cases cur with
    | none =>
      rw [FindSelected_loop_none] at e
      exact hres n (Option.some.inj e)
    | some c =>
      have hc := hcur c rfl
      unfold FindSelected.loop at e
      cases hr : GetLinNext inner h c with
      | none =>
        rw [hr] at e
        simp only [] at e
        split at e
        · split at e
          · cases e
          · cases e
        · cases e
      | some nx =>
        rw [hr] at e
        simp only [] at e
        have hnx : ∀ d, nx = some d → d = r ∨ Desc h r d := by
          intro d hd
          rw [hd] at hr
          exact Or.inr (GetLinNext_desc h hI r inner c d hup hnext hc hr)
        by_cases hs : (h c).selected = true
        · rw [if_pos hs] at e
          by_cases hres1 : res.isSome = true
          · rw [if_pos hres1] at e
            cases e
          · rw [if_neg hres1] at e
            refine ih (some c) nx hnx ?_ e
            intro x hx
            cases hx
            exact ⟨hs, hc⟩
        · rw [if_neg hs] at e
          exact ih res nx hnx hres e

/-- C20 (amended): on a heap with the tree invariants, acyclic sibling chains and all links below
`N`, for a root without parent and without next sibling and with more fuel than `N`,
`FindSelected(root)` returns; a returned node is selected and is the root or a strict descendant
of it; and the result is `nullptr` when neither the root nor a strict descendant is selected. -/
theorem C20_findSelected_sound (h : Heap) (N fuel root : Nat) (hT : TreeInv h)
    (hC : ChainAcyclic h) (hB : Bounded h N) (hup : (h root).m_up = none)
    (hnext : (h root).m_next = none) (hfuel : N < fuel) :
    ∃ r, FindSelected fuel h root = some r ∧
      (∀ n, r = some n →
        (h n).selected = true ∧ (n = root ∨ Desc h root n) ∧ InSubtree h root n) ∧
      ((h root).selected = false → (∀ x, Desc h root x → (h x).selected = false) →
        r = none) := by
  have hI := (TreeInv_iff_LinkInv h).1 hT
  obtain ⟨l, hl, -, -⟩ := linearScan_terminates h N fuel fuel root hI hC hB (by omega) hfuel
  obtain ⟨r, hr⟩ := FindSelected_loop_of_scan fuel h fuel none (some root) _ hl
  have sound : ∀ n, r = some n → (h n).selected = true ∧ (n = root ∨ Desc h root n) := by
    intro n hn
    rw [hn] at hr
    refine FindSelected_loop_sound h hI root fuel n hup hnext fuel none (some root) ?_ ?_ hr
    · intro c hc
      cases hc
      exact Or.inl rfl
    · intro x hx
      cases hx
  refine ⟨r, hr, ?_, ?_⟩
  · intro n hn
    obtain ⟨s1, s2⟩ := sound n hn
    refine ⟨s1, s2, ?_⟩
    rcases s2 with e | hd
    · rw [e]
      exact Relation.ReflTransGen.refl
    · exact (Desc_ancestor h hI root n hd).to_reflTransGen
  · intro h0 hall
    cases r with
    | none => rfl
    | some n =>
      obtain ⟨s1, s2⟩ := sound n rfl
      rcases s2 with e | hd
      · rw [e, h0] at s1
        cases s1
      · rw [hall n hd] at s1
        cases s1

theorem treeABC_next (a b : Nat) (e : (treeABC a).m_next = some b) : a < b := by
  by_cases h2 : a = 2
  · subst h2; cases e; decide
  · by_cases h1 : a = 1
    · subst h1; cases e
    · by_cases h3 : a = 3
      · subst h3; cases e
      · by_cases h0 : a = 0
        · subst h0; cases e
        · simp [treeABC, InsertAfter, InsertUnder, InsertBefore, blank, Node.mk1, Heap.setNext,
            Heap.setPred, Heap.setUp, Heap.setDown, Heap.modify, h0, h1, h2, h3] at e

theorem treeABC_bounded : Bounded treeABC 4 := by
  have h1 : Bounded treeOne 4 :=
    Bounded_InsertUnder blank 4 1 0 LinkInv_blank ⟨rfl, rfl, rfl⟩ (Bounded_blank 4) (by decide)
      (by decide)
  have i2 : LinkInv (InsertUnder treeOne 2 1) :=
    LinkInv_InsertUnder treeOne 2 1 treeOne_inv ⟨rfl, rfl, rfl⟩ (by decide)
      (not_inSubtree_step _ 2 1 0 (by decide) rfl (not_inSubtree_root _ 2 0 (by decide) rfl))
  have h2 : Bounded (InsertUnder treeOne 2 1) 4 :=
    Bounded_InsertUnder treeOne 4 2 1 treeOne_inv ⟨rfl, rfl, rfl⟩ h1 (by decide) (by decide)
  exact Bounded_InsertAfter _ 4 3 2 i2 ⟨rfl, rfl, rfl⟩ (by decide) h2 (by decide) (by decide)

theorem C20_findSelected_sound_witness :
    TreeInv (treeABC.setSelected 2 true) ∧ ChainAcyclic (treeABC.setSelected 2 true) ∧
    Bounded (treeABC.setSelected 2 true) 4 ∧
    ∃ r, FindSelected 5 (treeABC.setSelected 2 true) 0 = some r ∧
      ∀ n, r = some n → ((treeABC.setSelected 2 true) n).selected = true ∧
        (n = 0 ∨ Desc (treeABC.setSelected 2 true) 0 n) := by
  have hT : TreeInv (treeABC.setSelected 2 true) :=
    (TreeInv_iff_LinkInv _).2 (LinkInv_setSelected treeABC 2 true treeABC_inv)
  have hC : ChainAcyclic (treeABC.setSelected 2 true) :=
    ChainAcyclic_setSelected treeABC 2 true (chainAcyclic_of_rank treeABC id treeABC_next)
  have hB : Bounded (treeABC.setSelected 2 true) 4 :=
    Bounded_setSelected treeABC 2 4 true treeABC_bounded
  obtain ⟨r, hr, hs, -⟩ :=
    C20_findSelected_sound (treeABC.setSelected 2 true) 4 5 0 hT hC hB rfl rfl (by decide)
  exact ⟨hT, hC, hB, r, hr, fun n hn => ⟨(hs n hn).1, (hs n hn).2.1⟩⟩

theorem treeSib_next (a b : Nat) (e : (treeSib a).m_next = some b) : a < b := by
  by_cases h0 : a = 0
  · subst h0; cases e; decide
  · by_cases h1 : a = 1
    · subst h1; cases e
    · by_cases h2 : a = 2
      · subst h2; cases e
      · simp [treeSib, treeOne, InsertAfter, InsertUnder, InsertBefore, blank, Node.mk1,
          Heap.setNext, Heap.setPred, Heap.setUp, Heap.setDown, Heap.setSelected, Heap.modify,
          h0, h1, h2] at e

theorem treeSib_selected (x : Nat) (hx : x ≠ 2) : (treeSib x).selected = false := by
  have hd : Detached treeOne 2 := ⟨rfl, rfl, rfl⟩
  have F := InsertAfter_fields treeOne 2 0 x hd (by decide) (by decide)
  unfold treeSib
  rw [(Heap.setSelected_apply _ 2 x true).1, if_neg hx, F.2.2.2.2.2.2]
  unfold treeOne
  by_cases h0 : x = 0
  · subst h0; rfl
  · by_cases h1 : x = 1
    · subst h1; rfl
    · simp [InsertUnder, InsertBefore, blank, Node.mk1, Heap.setNext, Heap.setPred, Heap.setUp,
        Heap.setDown, Heap.modify, h0, h1]

/-- C20 (as stated): the parentless node `0` with the child `1` and the selected next sibling `2`
satisfies the tree invariants, and `FindSelected(0)` returns `2`, which is neither `0` nor below
`0`, although neither `0` nor a node below `0` is selected. -/
theorem C20_selected_sibling_of_root_is_returned :
    TreeInv treeSib ∧ ChainAcyclic treeSib ∧ Bounded treeSib 3 ∧ (treeSib 0).m_up = none ∧
    FindSelected 4 treeSib 0 = some (some 2) ∧
    ¬ ((2 : Nat) = 0 ∨ Desc treeSib 0 2) ∧ ¬ InSubtree treeSib 0 2 ∧
    (treeSib 0).selected = false ∧ (∀ x, Desc treeSib 0 x → (treeSib x).selected = false) := by
  have hd : Detached treeOne 2 := ⟨rfl, rfl, rfl⟩
  have hI0 : LinkInv (InsertAfter treeOne 2 0) :=
    LinkInv_InsertAfter treeOne 2 0 treeOne_inv hd (by decide)
      (not_inSubtree_root _ 2 0 (by decide) rfl)
  have hI : LinkInv treeSib := LinkInv_setSelected _ 2 true hI0
  have hB1 : Bounded treeOne 3 :=
    Bounded_InsertUnder blank 3 1 0 LinkInv_blank ⟨rfl, rfl, rfl⟩ (Bounded_blank 3) (by decide)
      (by decide)
  have hB : Bounded treeSib 3 :=
    Bounded_setSelected _ 2 3 true
      (Bounded_InsertAfter treeOne 3 2 0 treeOne_inv hd (by decide) hB1 (by decide) (by decide))
  have hsub : ¬ InSubtree treeSib 0 2 := not_inSubtree_root treeSib 0 2 (by decide) rfl
  have hnd : ¬ Desc treeSib 0 2 := fun hdd =>
    hsub (Desc_ancestor treeSib hI 0 2 hdd).to_reflTransGen
  refine ⟨(TreeInv_iff_LinkInv _).2 hI, chainAcyclic_of_rank treeSib id treeSib_next, hB, rfl,
    rfl, ?_, hsub, rfl, ?_⟩
  · rintro (e | e)
    · cases e
    · exact hnd e
  · intro x hx
    refine treeSib_selected x ?_
    rintro rfl
    exact hnd hx

end TreeView
